import Mathlib

/-!
Verification of the Spider WebAssembly-to-Luau compiler against its
specification.  Each component under scrutiny is embedded shallowly:
machine integers (`u16`, `u32`, `u64`) become `Nat` with explicit
wrap-around arithmetic where the source wraps, Rust vectors become
`List`, and panicking code paths become `Option`.  The Rust sources are
translated definition by definition; the source file each definition
comes from is named in its doc comment.
-/

set_option maxHeartbeats 1000000
set_option maxRecDepth 8000

namespace Spider

/-! ### Stack builder (`src/Control Flow/Builder/src/stack_builder.rs`)

The operand-stack-to-register translation keeps a single `u16` cursor
`top`.  `u16` values are embedded as naturals below `2 ^ 16`, and the
wrapping arithmetic of the source (`wrapping_add` / `wrapping_sub`) is
written out with explicit `% 65536`. -/

def u16Mod : Nat := 65536

/-- Wrapping 16-bit addition, as `u16::wrapping_add`. -/
def wrapAdd16 (a b : Nat) : Nat := (a + b) % u16Mod

/-- Wrapping 16-bit subtraction, as `u16::wrapping_sub`. -/
def wrapSub16 (a b : Nat) : Nat := (a + (u16Mod - b % u16Mod)) % u16Mod

/-- The stack cursor of `StackBuilder`; the scope levels are not needed
for the properties below, so only the `top` field is carried. -/
structure StackBuilder where
  top : Nat
deriving Repr, DecidableEq

namespace StackBuilder

/-- Source `StackBuilder::push_locals`: returns the old and new top and
advances the cursor by `count`, wrapping. -/
def push_locals (s : StackBuilder) (count : Nat) : (Nat × Nat) × StackBuilder :=
  let top := s.top
  let new := wrapAdd16 top count
  ((top, new), ⟨new⟩)

/-- Source `StackBuilder::push_local`: `push_locals(1).0`. -/
def push_local (s : StackBuilder) : Nat × StackBuilder :=
  let r := s.push_locals 1
  (r.1.1, r.2)

/-- Source `StackBuilder::pull_locals`: moves the cursor down by
`count`, wrapping, and returns the new and old top. -/
def pull_locals (s : StackBuilder) (count : Nat) : (Nat × Nat) × StackBuilder :=
  let top := s.top
  let new := wrapSub16 top count
  ((new, top), ⟨new⟩)

/-- Source `StackBuilder::pull_local`: `pull_locals(1).0`. -/
def pull_local (s : StackBuilder) : Nat × StackBuilder :=
  let r := s.pull_locals 1
  (r.1.1, r.2)

end StackBuilder

/-- C9: for every `StackBuilder` state (any `u16` cursor value),
`pull_local` followed by `push_local` returns the same register index
from both calls, and the cursor is restored exactly, wrapping `u16`
arithmetic included.  This is the round trip that the `local.tee`
lowering (`BasicBlockBuilder::handle_local_tee`) asserts when it pulls
the operand and pushes it back. -/
theorem stack_builder_pull_push_round_trip (s : StackBuilder) (h : s.top < u16Mod) :
    (s.pull_local.2.push_local.1 = s.pull_local.1) ∧
      s.pull_local.2.push_local.2.top = s.top := by
  obtain ⟨top⟩ := s
  simp only [StackBuilder.pull_local, StackBuilder.pull_locals, StackBuilder.push_local,
    StackBuilder.push_locals, wrapSub16, wrapAdd16, u16Mod] at *
  constructor
  · trivial
  · omega

/-- Witness for C9 at the concrete cursor value `7`. -/
theorem stack_builder_pull_push_round_trip_witness :
    ((StackBuilder.mk 7).pull_local.2.push_local.1 = (StackBuilder.mk 7).pull_local.1) ∧
      (StackBuilder.mk 7).pull_local.2.push_local.2.top = 7 :=
  stack_builder_pull_push_round_trip ⟨7⟩ (by decide)

/-! ### Instructions (`src/Control Flow/Graph/src/instruction.rs`)

The three-address instruction set.  Scalar payloads (`i32`, `i64`,
`f32`, `f64`) never participate in arithmetic inside the translated
code, so they are embedded as their bit patterns (`Nat`). -/

inductive Name where
  | A | B | C | D
deriving Repr, DecidableEq

/-- Source `Name as u16` discriminant value. -/
def Name.toU16 : Name → Nat
  | .A => 0
  | .B => 1
  | .C => 2
  | .D => 3

/-- Source `Name::COUNT = Name::D as u16 + 1`. -/
def Name.COUNT : Nat := Name.D.toU16 + 1

inductive IntegerType where
  | I32 | I64
deriving Repr, DecidableEq

inductive IntegerUnaryOperator where
  | CountOnes | LeadingZeroes | TrailingZeroes
deriving Repr, DecidableEq

inductive IntegerBinaryOperator where
  | Add | Subtract | Multiply
  | Divide (signed : Bool)
  | Remainder (signed : Bool)
  | And | Or | ExclusiveOr | ShiftLeft
  | ShiftRight (signed : Bool)
  | RotateLeft | RotateRight
deriving Repr, DecidableEq

inductive IntegerCompareOperator where
  | Equal | NotEqual
  | LessThan (signed : Bool)
  | GreaterThan (signed : Bool)
  | LessThanEqual (signed : Bool)
  | GreaterThanEqual (signed : Bool)
deriving Repr, DecidableEq

inductive ExtendType where
  | I32_S8 | I32_S16 | I64_S8 | I64_S16 | I64_S32
deriving Repr, DecidableEq

inductive NumberType where
  | F32 | F64
deriving Repr, DecidableEq

inductive NumberUnaryOperator where
  | Absolute | Negate | SquareRoot | RoundUp | RoundDown | Truncate | Nearest
deriving Repr, DecidableEq

inductive NumberBinaryOperator where
  | Add | Subtract | Multiply | Divide | Minimum | Maximum | CopySign
deriving Repr, DecidableEq

inductive NumberCompareOperator where
  | Equal | NotEqual | LessThan | GreaterThan | LessThanEqual | GreaterThanEqual
deriving Repr, DecidableEq

inductive LoadType where
  | I32_S8 | I32_U8 | I32_S16 | I32_U16 | I32
  | I64_S8 | I64_U8 | I64_S16 | I64_U16 | I64_S32 | I64_U32 | I64
  | F32 | F64
deriving Repr, DecidableEq

inductive StoreType where
  | I32_I8 | I32_I16 | I32
  | I64_I8 | I64_I16 | I64_I32 | I64
  | F32 | F64
deriving Repr, DecidableEq

/-- Source `Location`: a resource reference and a local holding the offset. -/
structure Location where
  reference : Nat
  offset : Nat
deriving Repr, DecidableEq

/-- The `Instruction` enum, with each payload struct inlined as
anonymous constructor fields in the same order as the source. -/
inductive Instruction where
  | LocalSet (destination source : Nat)
  | LocalBranch (source : Nat)
  | I32Constant (destination : Nat) (data : Nat)
  | I64Constant (destination : Nat) (data : Nat)
  | F32Constant (destination : Nat) (data : Nat)
  | F64Constant (destination : Nat) (data : Nat)
  | RefIsNull (destination source : Nat)
  | RefNull (destination : Nat)
  | RefFunction (destination function : Nat)
  | Call (destinations sources : Nat × Nat) (function : Nat)
  | Unreachable
  | IntegerUnaryOperation (destination source : Nat)
      (type_ : IntegerType) (operator : IntegerUnaryOperator)
  | IntegerBinaryOperation (destination lhs rhs : Nat)
      (type_ : IntegerType) (operator : IntegerBinaryOperator)
  | IntegerCompareOperation (destination lhs rhs : Nat)
      (type_ : IntegerType) (operator : IntegerCompareOperator)
  | IntegerNarrow (destination source : Nat)
  | IntegerWiden (destination source : Nat)
  | IntegerExtend (destination source : Nat) (type_ : ExtendType)
  | IntegerConvertToNumber (destination source : Nat) (signed : Bool)
      (to_ : NumberType) (from_ : IntegerType)
  | IntegerTransmuteToNumber (destination source : Nat) (from_ : IntegerType)
  | NumberUnaryOperation (destination source : Nat)
      (type_ : NumberType) (operator : NumberUnaryOperator)
  | NumberBinaryOperation (destination lhs rhs : Nat)
      (type_ : NumberType) (operator : NumberBinaryOperator)
  | NumberCompareOperation (destination lhs rhs : Nat)
      (type_ : NumberType) (operator : NumberCompareOperator)
  | NumberNarrow (destination source : Nat)
  | NumberWiden (destination source : Nat)
  | NumberTruncateToInteger (destination source : Nat) (signed saturate : Bool)
      (to_ : IntegerType) (from_ : NumberType)
  | NumberTransmuteToInteger (destination source : Nat) (from_ : NumberType)
  | GlobalGet (destination source : Nat)
  | GlobalSet (destination source : Nat)
  | TableGet (destination : Nat) (source : Location)
  | TableSet (destination : Location) (source : Nat)
  | TableSize (reference destination : Nat)
  | TableGrow (reference destination size initializer : Nat)
  | TableFill (destination : Location) (source size : Nat)
  | TableCopy (destination source : Location) (size : Nat)
  | TableInit (destination source : Location) (size : Nat)
  | ElementsDrop (source : Nat)
  | MemoryLoad (destination : Nat) (source : Location) (type_ : LoadType)
  | MemoryStore (destination : Location) (source : Nat) (type_ : StoreType)
  | MemorySize (reference destination : Nat)
  | MemoryGrow (reference destination size : Nat)
  | MemoryFill (destination : Location) (byte size : Nat)
  | MemoryCopy (destination source : Location) (size : Nat)
  | MemoryInit (destination source : Location) (size : Nat)
  | DataDrop (source : Nat)
deriving Repr, DecidableEq

/-! ### Code builder (`src/Control Flow/Builder/src/code_builder.rs`)

The translated handlers only ever append to the instruction vector, so
the basic-block vector and the `position` cursor of `CodeBuilder` are
not carried:  none of the straight-line data operators below touch
them. -/

structure CodeBuilder where
  instructions : List Instruction
deriving Repr, DecidableEq

namespace CodeBuilder

def add_local_set (c : CodeBuilder) (destination source : Nat) : CodeBuilder :=
  ⟨c.instructions ++ [.LocalSet destination source]⟩

def add_i32_constant (c : CodeBuilder) (destination : Nat) (data : Nat) : CodeBuilder :=
  ⟨c.instructions ++ [.I32Constant destination data]⟩

def add_i64_constant (c : CodeBuilder) (destination : Nat) (data : Nat) : CodeBuilder :=
  ⟨c.instructions ++ [.I64Constant destination data]⟩

def add_f32_constant (c : CodeBuilder) (destination : Nat) (data : Nat) : CodeBuilder :=
  ⟨c.instructions ++ [.F32Constant destination data]⟩

def add_f64_constant (c : CodeBuilder) (destination : Nat) (data : Nat) : CodeBuilder :=
  ⟨c.instructions ++ [.F64Constant destination data]⟩

def add_integer_binary_operation (c : CodeBuilder) (destination lhs rhs : Nat)
    (type_ : IntegerType) (operator : IntegerBinaryOperator) : CodeBuilder :=
  ⟨c.instructions ++ [.IntegerBinaryOperation destination lhs rhs type_ operator]⟩

def add_global_get (c : CodeBuilder) (destination source : Nat) : CodeBuilder :=
  ⟨c.instructions ++ [.GlobalGet destination source]⟩

def add_global_set (c : CodeBuilder) (destination source : Nat) : CodeBuilder :=
  ⟨c.instructions ++ [.GlobalSet destination source]⟩

def add_memory_load (c : CodeBuilder) (destination : Nat) (source : Location)
    (type_ : LoadType) : CodeBuilder :=
  ⟨c.instructions ++ [.MemoryLoad destination source type_]⟩

def add_memory_store (c : CodeBuilder) (destination : Location) (source : Nat)
    (type_ : StoreType) : CodeBuilder :=
  ⟨c.instructions ++ [.MemoryStore destination source type_]⟩

def add_memory_size (c : CodeBuilder) (reference destination : Nat) : CodeBuilder :=
  ⟨c.instructions ++ [.MemorySize reference destination]⟩

def add_memory_grow (c : CodeBuilder) (reference destination size : Nat) : CodeBuilder :=
  ⟨c.instructions ++ [.MemoryGrow reference destination size]⟩

end CodeBuilder

/-! ### Basic-block builder, straight-line subset
(`src/Control Flow/Builder/src/basic_block_builder.rs`)

The builder pairs the code builder with the stack builder.  The
handlers translated here are the data operators of
`BasicBlockBuilder::handle_operator` named by the claims: local and
global accessors, constants, and the memory loads and stores with their
immediate-offset lowering.  Control-flow operators (`block`, `loop`,
`if`, `end`, branches, calls) open and close basic blocks and are not
needed by any claim, so their arms are not part of this embedding.
Panicking conversions (`u16::try_from(...).unwrap()`,
`u32::try_from(...).unwrap()`) and the `local.tee` assertion are
embedded as `Option`. -/

/-- Source `SHARED_LOCAL: u16 = Name::D as u16`. -/
def SHARED_LOCAL : Nat := Name.D.toU16

/-- Source `LOCAL_BASE: u16 = Name::COUNT`. -/
def LOCAL_BASE : Nat := Name.COUNT

/-- Source `wasmparser::MemArg`, restricted to the two fields the
builder reads: the `u64` immediate offset and the `u32` memory index. -/
structure MemArg where
  offset : Nat
  memory : Nat
deriving Repr, DecidableEq

structure BasicBlockBuilder where
  code_builder : CodeBuilder
  stack_builder : StackBuilder
deriving Repr, DecidableEq

namespace BasicBlockBuilder

/-- Source `u16::try_from(value).unwrap()`: panics unless the value
fits in sixteen bits. -/
def tryIntoU16 (value : Nat) : Option Nat :=
  if value < u16Mod then some value else none

/-- Source `u32::try_from(value).unwrap()`: panics unless the value
fits in thirty-two bits. -/
def tryIntoU32 (value : Nat) : Option Nat :=
  if value < 2 ^ 32 then some value else none

/-- Source `BasicBlockBuilder::handle_local_get`. -/
def handle_local_get (b : BasicBlockBuilder) (localIndex : Nat) : Option BasicBlockBuilder := do
  let (destination, sb) := b.stack_builder.push_local
  let source := LOCAL_BASE + (← tryIntoU16 localIndex)
  pure ⟨b.code_builder.add_local_set destination source, sb⟩

/-- Source `BasicBlockBuilder::handle_local_set`. -/
def handle_local_set (b : BasicBlockBuilder) (localIndex : Nat) : Option BasicBlockBuilder := do
  let destination := LOCAL_BASE + (← tryIntoU16 localIndex)
  let (source, sb) := b.stack_builder.pull_local
  pure ⟨b.code_builder.add_local_set destination source, sb⟩

/-- Source `BasicBlockBuilder::handle_local_tee`, with the
`assert_eq!(push_local(), source)` modelled as a guard. -/
def handle_local_tee (b : BasicBlockBuilder) (localIndex : Nat) : Option BasicBlockBuilder := do
  let destination := LOCAL_BASE + (← tryIntoU16 localIndex)
  let (source, sb) := b.stack_builder.pull_local
  let (pushed, sb) := sb.push_local
  if pushed = source then
    pure ⟨b.code_builder.add_local_set destination source, sb⟩
  else
    none

/-- Source `BasicBlockBuilder::handle_global_get`. -/
def handle_global_get (b : BasicBlockBuilder) (global : Nat) : Option BasicBlockBuilder := do
  let (destination, sb) := b.stack_builder.push_local
  let source ← tryIntoU16 global
  pure ⟨b.code_builder.add_global_get destination source, sb⟩

/-- Source `BasicBlockBuilder::handle_global_set`. -/
def handle_global_set (b : BasicBlockBuilder) (global : Nat) : Option BasicBlockBuilder := do
  let destination ← tryIntoU16 global
  let (source, sb) := b.stack_builder.pull_local
  pure ⟨b.code_builder.add_global_set destination source, sb⟩

/-- Source `BasicBlockBuilder::add_memory_offset`: nothing is emitted
for a zero offset, otherwise the offset is reduced to a `u32` bit
pattern (panicking above `2 ^ 32`), written into the shared scratch
register `D` and added onto `destination` with a 32-bit `Add`. -/
def add_memory_offset (c : CodeBuilder) (destination : Nat) (offset : Nat) :
    Option CodeBuilder :=
  if offset = 0 then
    some c
  else do
    let offset ← tryIntoU32 offset
    let c := c.add_i32_constant SHARED_LOCAL offset
    pure (c.add_integer_binary_operation destination destination SHARED_LOCAL
      .I32 .Add)

/-- Source `BasicBlockBuilder::handle_load`. -/
def handle_load (b : BasicBlockBuilder) (info : MemArg) (type_ : LoadType) :
    Option BasicBlockBuilder := do
  let (offsetLocal, sb) := b.stack_builder.pull_local
  let source : Location := ⟨← tryIntoU16 info.memory, offsetLocal⟩
  let cb ← add_memory_offset b.code_builder source.offset info.offset
  let (destination, sb) := sb.push_local
  pure ⟨cb.add_memory_load destination source type_, sb⟩

/-- Source `BasicBlockBuilder::handle_store`. -/
def handle_store (b : BasicBlockBuilder) (info : MemArg) (type_ : StoreType) :
    Option BasicBlockBuilder := do
  let (source, sb) := b.stack_builder.pull_local
  let (offsetLocal, sb) := sb.pull_local
  let destination : Location := ⟨← tryIntoU16 info.memory, offsetLocal⟩
  let cb ← add_memory_offset b.code_builder destination.offset info.offset
  pure ⟨cb.add_memory_store destination source type_, sb⟩

/-- Source `BasicBlockBuilder::handle_memory_size`. -/
def handle_memory_size (b : BasicBlockBuilder) (memory : Nat) : Option BasicBlockBuilder := do
  let reference ← tryIntoU16 memory
  let (destination, sb) := b.stack_builder.push_local
  pure ⟨b.code_builder.add_memory_size reference destination, sb⟩

/-- Source `BasicBlockBuilder::handle_memory_grow`. -/
def handle_memory_grow (b : BasicBlockBuilder) (memory : Nat) : Option BasicBlockBuilder := do
  let reference ← tryIntoU16 memory
  let (size, sb) := b.stack_builder.pull_local
  let (destination, sb) := sb.push_local
  pure ⟨b.code_builder.add_memory_grow reference destination size, sb⟩

/-- Source `BasicBlockBuilder::handle_i32_const`. -/
def handle_i32_const (b : BasicBlockBuilder) (data : Nat) : Option BasicBlockBuilder :=
  let (destination, sb) := b.stack_builder.push_local
  some ⟨b.code_builder.add_i32_constant destination data, sb⟩

/-- Source `BasicBlockBuilder::handle_i64_const`. -/
def handle_i64_const (b : BasicBlockBuilder) (data : Nat) : Option BasicBlockBuilder :=
  let (destination, sb) := b.stack_builder.push_local
  some ⟨b.code_builder.add_i64_constant destination data, sb⟩

end BasicBlockBuilder

/-! ### Operator dispatch
(`src/Control Flow/Builder/src/basic_block_builder.rs`, `handle_operator`)

The `wasmparser::Operator` enum is third-party; the constructors below
mirror the arms of `handle_operator` for the straight-line data subset
embedded above, together with the operator families the source does
*not* match: every SIMD/V128, GC, and exception-handling operator falls
through to the final `operator => unimplemented!(...)` arm.  Those
families are abstracted by an opcode-indexed constructor each, which is
faithful because the source treats every member of each family
identically (the wildcard arm). -/

inductive UnsupportedOperator where
  | simd (opcode : Nat)
  | gc (opcode : Nat)
  | exceptionHandling (opcode : Nat)
deriving Repr, DecidableEq

inductive Operator where
  | LocalGet (local_index : Nat)
  | LocalSet (local_index : Nat)
  | LocalTee (local_index : Nat)
  | GlobalGet (global_index : Nat)
  | GlobalSet (global_index : Nat)
  | I32Load (memarg : MemArg)
  | I64Load (memarg : MemArg)
  | F32Load (memarg : MemArg)
  | F64Load (memarg : MemArg)
  | I32Load8S (memarg : MemArg)
  | I32Load8U (memarg : MemArg)
  | I32Load16S (memarg : MemArg)
  | I32Load16U (memarg : MemArg)
  | I64Load8S (memarg : MemArg)
  | I64Load8U (memarg : MemArg)
  | I64Load16S (memarg : MemArg)
  | I64Load16U (memarg : MemArg)
  | I64Load32S (memarg : MemArg)
  | I64Load32U (memarg : MemArg)
  | I32Store (memarg : MemArg)
  | I64Store (memarg : MemArg)
  | F32Store (memarg : MemArg)
  | F64Store (memarg : MemArg)
  | I32Store8 (memarg : MemArg)
  | I32Store16 (memarg : MemArg)
  | I64Store8 (memarg : MemArg)
  | I64Store16 (memarg : MemArg)
  | I64Store32 (memarg : MemArg)
  | MemorySize (mem : Nat)
  | MemoryGrow (mem : Nat)
  | I32Const (value : Nat)
  | I64Const (value : Nat)
  | Unsupported (operator : UnsupportedOperator)
deriving Repr, DecidableEq

/-- Source `BasicBlockBuilder::handle_operator`, restricted to the
operators above; the `Unsupported` arm is the wildcard
`operator => unimplemented!(...)` arm of the source `match`, which
panics before any instruction is appended. -/
def BasicBlockBuilder.handle_operator (b : BasicBlockBuilder) :
    Operator → Option BasicBlockBuilder
  | .LocalGet local_index => b.handle_local_get local_index
  | .LocalSet local_index => b.handle_local_set local_index
  | .LocalTee local_index => b.handle_local_tee local_index
  | .GlobalGet global_index => b.handle_global_get global_index
  | .GlobalSet global_index => b.handle_global_set global_index
  | .I32Load memarg => b.handle_load memarg .I32
  | .I64Load memarg => b.handle_load memarg .I64
  | .F32Load memarg => b.handle_load memarg .F32
  | .F64Load memarg => b.handle_load memarg .F64
  | .I32Load8S memarg => b.handle_load memarg .I32_S8
  | .I32Load8U memarg => b.handle_load memarg .I32_U8
  | .I32Load16S memarg => b.handle_load memarg .I32_S16
  | .I32Load16U memarg => b.handle_load memarg .I32_U16
  | .I64Load8S memarg => b.handle_load memarg .I64_S8
  | .I64Load8U memarg => b.handle_load memarg .I64_U8
  | .I64Load16S memarg => b.handle_load memarg .I64_S16
  | .I64Load16U memarg => b.handle_load memarg .I64_U16
  | .I64Load32S memarg => b.handle_load memarg .I64_S32
  | .I64Load32U memarg => b.handle_load memarg .I64_U32
  | .I32Store memarg => b.handle_store memarg .I32
  | .I64Store memarg => b.handle_store memarg .I64
  | .F32Store memarg => b.handle_store memarg .F32
  | .F64Store memarg => b.handle_store memarg .F64
  | .I32Store8 memarg => b.handle_store memarg .I32_I8
  | .I32Store16 memarg => b.handle_store memarg .I32_I16
  | .I64Store8 memarg => b.handle_store memarg .I64_I8
  | .I64Store16 memarg => b.handle_store memarg .I64_I16
  | .I64Store32 memarg => b.handle_store memarg .I64_I32
  | .MemorySize mem => b.handle_memory_size mem
  | .MemoryGrow mem => b.handle_memory_grow mem
  | .I32Const value => b.handle_i32_const value
  | .I64Const value => b.handle_i64_const value
  | .Unsupported _ => none

/-- C8: every operator outside the supported set — in particular every
SIMD/V128, GC, or exception-handling operator — hits the wildcard
`unimplemented!` arm of `BasicBlockBuilder::handle_operator`.  In this
embedding the panic is `none`: no successor state exists, so no
instruction is appended and compilation never continues past the
operator. -/
theorem handle_operator_unsupported_panics (b : BasicBlockBuilder)
    (u : UnsupportedOperator) :
    b.handle_operator (.Unsupported u) = none :=
  rfl

/-- Helper: pulling one local twice moves the cursor exactly as pulling
two, wrapping included. -/
theorem wrapSub16_one_one (a : Nat) : wrapSub16 (wrapSub16 a 1) 1 = wrapSub16 a 2 := by
  simp only [wrapSub16, u16Mod]
  omega

/-- Helper: `add_memory_offset` is the identity for a zero offset. -/
theorem add_memory_offset_zero (c : CodeBuilder) (d : Nat) :
    BasicBlockBuilder.add_memory_offset c d 0 = some c :=
  rfl

/-- Helper: `add_memory_offset` appends the `I32Constant` into `D` and
the 32-bit `Add` for a nonzero offset below `2 ^ 32`. -/
theorem add_memory_offset_nonzero (c : CodeBuilder) (d off : Nat)
    (h : off ≠ 0) (h32 : off < 2 ^ 32) :
    BasicBlockBuilder.add_memory_offset c d off =
      some ⟨c.instructions ++
        [.I32Constant SHARED_LOCAL off,
         .IntegerBinaryOperation d d SHARED_LOCAL .I32 .Add]⟩ := by
  have h32b : off < 4294967296 := by norm_num at h32; exact h32
  simp [BasicBlockBuilder.add_memory_offset, BasicBlockBuilder.tryIntoU32, h, h32b,
    CodeBuilder.add_i32_constant, CodeBuilder.add_integer_binary_operation]

/-- The register that addresses memory in `handle_load`: the stack slot
pulled first. -/
def loadAddress (b : BasicBlockBuilder) : Nat := wrapSub16 b.stack_builder.top 1

/-- The register that addresses memory in `handle_store`: the stack
slot below the stored value. -/
def storeAddress (b : BasicBlockBuilder) : Nat := wrapSub16 b.stack_builder.top 2

/-- C7: for every memory load or store processed by the basic-block
builder (any `LoadType` or `StoreType`, i.e. every
`Operator::*Load*`/`Operator::*Store*` arm, all of which dispatch to
`handle_load`/`handle_store`): with a zero immediate offset, the
`MemoryLoad`/`MemoryStore` is the only appended instruction; with a
nonzero offset that fits in 32 bits, exactly two instructions are
appended immediately before it: an `I32Constant` writing the offset
into scratch register `D` and an `i32 Add` adding `D` into the address
register. -/
theorem memory_offset_lowering (b : BasicBlockBuilder) (info : MemArg)
    (lt : LoadType) (st : StoreType)
    (hmem : info.memory < u16Mod) (hoff : info.offset < 2 ^ 32) :
    (info.offset = 0 →
      (b.handle_load info lt).map (fun r => r.code_builder.instructions) =
        some (b.code_builder.instructions ++
          [.MemoryLoad (loadAddress b) ⟨info.memory, loadAddress b⟩ lt]) ∧
      (b.handle_store info st).map (fun r => r.code_builder.instructions) =
        some (b.code_builder.instructions ++
          [.MemoryStore ⟨info.memory, storeAddress b⟩ (wrapSub16 b.stack_builder.top 1) st])) ∧
    (info.offset ≠ 0 →
      (b.handle_load info lt).map (fun r => r.code_builder.instructions) =
        some (b.code_builder.instructions ++
          [.I32Constant SHARED_LOCAL info.offset,
           .IntegerBinaryOperation (loadAddress b) (loadAddress b) SHARED_LOCAL .I32 .Add,
           .MemoryLoad (loadAddress b) ⟨info.memory, loadAddress b⟩ lt]) ∧
      (b.handle_store info st).map (fun r => r.code_builder.instructions) =
        some (b.code_builder.instructions ++
          [.I32Constant SHARED_LOCAL info.offset,
           .IntegerBinaryOperation (storeAddress b) (storeAddress b) SHARED_LOCAL .I32 .Add,
           .MemoryStore ⟨info.memory, storeAddress b⟩ (wrapSub16 b.stack_builder.top 1) st])) := by
  have hsub := wrapSub16_one_one b.stack_builder.top
  constructor
  · intro h0
    simp [BasicBlockBuilder.handle_load, BasicBlockBuilder.handle_store,
      BasicBlockBuilder.tryIntoU16, hmem, h0, add_memory_offset_zero,
      StackBuilder.pull_local, StackBuilder.pull_locals, StackBuilder.push_local,
      StackBuilder.push_locals, CodeBuilder.add_memory_load, CodeBuilder.add_memory_store,
      loadAddress, storeAddress, hsub]
  · intro h0
    simp only [BasicBlockBuilder.handle_load, BasicBlockBuilder.handle_store,
      BasicBlockBuilder.tryIntoU16, hmem, if_pos,
      StackBuilder.pull_local, StackBuilder.pull_locals, StackBuilder.push_local,
      StackBuilder.push_locals, CodeBuilder.add_memory_load, CodeBuilder.add_memory_store,
      loadAddress, storeAddress, hsub, Option.map, Option.bind, Option.pure_def,
      Option.bind_eq_bind, Option.some_bind]
    rw [add_memory_offset_nonzero _ _ _ h0 hoff, add_memory_offset_nonzero _ _ _ h0 hoff]
    simp

/-- Witness for C7 at a concrete builder state and offsets 0 and 8. -/
theorem memory_offset_lowering_witness :
    ((8 : Nat) ≠ 0) ∧
      ((BasicBlockBuilder.mk ⟨[]⟩ ⟨6⟩).handle_load ⟨8, 0⟩ .I32).map
          (fun r => r.code_builder.instructions) =
        some [.I32Constant SHARED_LOCAL 8,
          .IntegerBinaryOperation 5 5 SHARED_LOCAL .I32 .Add,
          .MemoryLoad 5 ⟨0, 5⟩ .I32] :=
  ⟨by decide,
    ((memory_offset_lowering ⟨⟨[]⟩, ⟨6⟩⟩ ⟨8, 0⟩ .I32 .I32 (by decide) (by decide)).2
      (by decide)).1⟩

/-! ### Index provider
(`src/Targets/Luau/Builder/src/scoped_provider/index_provider.rs`)

The provider keeps a max-heap `holds` of `(name, until)` pairs ordered
by `until.reverse().then(name)` (so the heap surfaces the hold with the
smallest `until`, ties broken towards the larger name) and a max-heap
`free` of names.  `std::collections::BinaryHeap` is third-party; both
heaps are embedded as lists kept sorted in pop order, so `pop`/`peek`
is the head — a faithful model of the documented heap semantics. -/

structure Hold where
  name : Nat
  until_ : Nat
deriving Repr, DecidableEq

/-- The heap priority of `Hold` (`Ord for Hold`): greater means popped
earlier, that is a smaller `until` and, among equals, a larger name. -/
def holdAbove (a b : Hold) : Prop :=
  a.until_ < b.until_ ∨ (a.until_ = b.until_ ∧ b.name ≤ a.name)

instance : DecidableRel holdAbove := fun a b => by
  unfold holdAbove; infer_instance

/-- Pushing onto the `holds` heap: ordered insertion in pop order. -/
def heapPushHold (h : Hold) (l : List Hold) : List Hold :=
  List.orderedInsert holdAbove h l

/-- Pushing onto the `free` heap (`BinaryHeap<u32>` pops the maximum). -/
def heapPushFree (n : Nat) (l : List Nat) : List Nat :=
  List.orderedInsert (fun a b => b ≤ a) n l

structure IndexProvider where
  holds : List Hold
  free : List Nat
  names : Nat
deriving Repr, DecidableEq

namespace IndexProvider

/-- Source `IndexProvider::new`. -/
def new : IndexProvider := ⟨[], [], 0⟩

/-- Source `IndexProvider::should_create`. -/
def should_create (p : IndexProvider) : Bool := p.free.isEmpty

/-- Source `IndexProvider::should_exceed`. -/
def should_exceed (p : IndexProvider) (count : Nat) : Bool :=
  p.should_create && decide (count ≤ p.holds.length)

/-- Source `IndexProvider::get_names`. -/
def get_names (p : IndexProvider) : Nat := p.names

/-- Source `IndexProvider::set_names`. -/
def set_names (p : IndexProvider) (names : Nat) : IndexProvider :=
  { p with names := names }

/-- Source `IndexProvider::forget_free`. -/
def forget_free (p : IndexProvider) (last : Nat) : IndexProvider :=
  { p with free := p.free.filter (fun name => name < last) }

/-- Source `IndexProvider::pull`: pop the largest free name, or create
the fresh counter value; either way hold it until `until_`. -/
def pull (p : IndexProvider) (until_ : Nat) : Nat × IndexProvider :=
  match p.free with
  | n :: rest => (n, ⟨heapPushHold ⟨n, until_⟩ p.holds, rest, p.names⟩)
  | [] => (p.names, ⟨heapPushHold ⟨p.names, until_⟩ p.holds, [], p.names + 1⟩)

/-- Source `IndexProvider::try_revive`: move `name` from `free` back to
`holds` if it is free (removing one occurrence), reporting success. -/
def try_revive (p : IndexProvider) (name until_ : Nat) : Bool × IndexProvider :=
  if name ∈ p.free then
    (true, ⟨heapPushHold ⟨name, until_⟩ p.holds, p.free.erase name, p.names⟩)
  else
    (false, p)

/-- The loop of `IndexProvider::push_until`: pop holds while the top
hold expires exactly at `end_`, freeing their names. -/
def push_until_loop (end_ : Nat) : List Hold → List Nat → List Hold × List Nat
  | [], free => ([], free)
  | h :: rest, free =>
    if h.until_ = end_ then push_until_loop end_ rest (heapPushFree h.name free)
    else (h :: rest, free)

/-- Source `IndexProvider::push_until`. -/
def push_until (p : IndexProvider) (end_ : Nat) : IndexProvider :=
  let r := push_until_loop end_ p.holds p.free
  ⟨r.1, r.2, p.names⟩

end IndexProvider

/-! ### Table and function providers
(`src/Targets/Luau/Builder/src/scoped_provider/table_provider.rs`,
`.../function_provider.rs`) -/

/-- Source `Place` (`src/Targets/Luau/Builder/src/place.rs`); `Name`
ids of the Luau tree are `u32` values, embedded as `Nat`. -/
inductive Place where
  | Definition (name : Nat)
  | Assignment (name : Nat)
  | Overflow (table : Nat) (index : Nat)
deriving Repr, DecidableEq

/-- Whether a place is a table spill. -/
def Place.isOverflow : Place → Bool
  | .Overflow _ _ => true
  | _ => false

/-- Source `u32::MAX`, the lifetime of the spill-table name. -/
def u32Max : Nat := 4294967295

inductive TableProvider where
  | Just (provider : IndexProvider) (table : Nat)
  | Nothing
deriving Repr, DecidableEq

namespace TableProvider

/-- Source `TableProvider::pull` (with `get_or_create` inlined): on the
first spill the outer provider supplies a fresh name for the synthetic
table, held until `u32::MAX`; the inner provider hands out `u16` table
indices (the `try_into().unwrap()` is the `Option` guard). -/
def pull (tp : TableProvider) (until_ : Nat) (outer : IndexProvider) :
    Option (Place × TableProvider × IndexProvider) :=
  match tp with
  | .Nothing =>
    let r := outer.pull u32Max
    let inner := IndexProvider.new.pull until_
    if inner.1 < u16Mod then
      some (.Overflow r.1 inner.1, .Just inner.2 r.1, r.2)
    else
      none
  | .Just provider table =>
    let inner := provider.pull until_
    if inner.1 < u16Mod then
      some (.Overflow table inner.1, .Just inner.2 table, outer)
    else
      none

/-- Source `TableProvider::try_revive`. -/
def try_revive (tp : TableProvider) (table index until_ : Nat) :
    Bool × TableProvider :=
  match tp with
  | .Nothing => (false, .Nothing)
  | .Just provider other =>
    if table = other then
      let r := provider.try_revive index until_
      (r.1, .Just r.2 other)
    else
      (false, .Just provider other)

/-- Source `TableProvider::push_until`. -/
def push_until (tp : TableProvider) (end_ : Nat) : TableProvider :=
  match tp with
  | .Nothing => .Nothing
  | .Just provider table => .Just (provider.push_until end_) table

end TableProvider

/-- Source `MAX_LOCAL_VARIABLES` from `function_provider.rs`. -/
def MAX_LOCAL_VARIABLES : Nat := 199

structure FunctionProvider where
  local_provider : IndexProvider
  table_provider : TableProvider
deriving Repr, DecidableEq

namespace FunctionProvider

/-- Source `FunctionProvider::new`. -/
def new : FunctionProvider := ⟨IndexProvider.new, .Nothing⟩

/-- Source `FunctionProvider::pull_fast`. -/
def pull_fast (fp : FunctionProvider) (until_ : Nat) : Place × FunctionProvider :=
  let declares := fp.local_provider.should_create
  let r := fp.local_provider.pull until_
  (if declares then .Definition r.1 else .Assignment r.1, ⟨r.2, fp.table_provider⟩)

/-- Source `FunctionProvider::pull_slow`. -/
def pull_slow (fp : FunctionProvider) (until_ : Nat) : Option (Place × FunctionProvider) := do
  let (place, tp, lp) ← fp.table_provider.pull until_ fp.local_provider
  pure (place, ⟨lp, tp⟩)

/-- Source `FunctionProvider::pull`. -/
def pull (fp : FunctionProvider) (until_ : Nat) : Option (Place × FunctionProvider) :=
  if fp.local_provider.should_exceed MAX_LOCAL_VARIABLES then
    fp.pull_slow until_
  else
    some (fp.pull_fast until_)

/-- Source `FunctionProvider::try_revive`. -/
def try_revive (fp : FunctionProvider) (place : Place) (until_ : Nat) :
    Bool × FunctionProvider :=
  match place with
  | .Definition name | .Assignment name =>
    let r := fp.local_provider.try_revive name until_
    (r.1, ⟨r.2, fp.table_provider⟩)
  | .Overflow table index =>
    let r := fp.table_provider.try_revive table index until_
    (r.1, ⟨fp.local_provider, r.2⟩)

/-- Source `FunctionProvider::push_until`. -/
def push_until (fp : FunctionProvider) (end_ : Nat) : FunctionProvider :=
  ⟨fp.local_provider.push_until end_, fp.table_provider.push_until end_⟩

end FunctionProvider

/-- The operations the emitter performs on one `FunctionProvider`
(its public interface, as invoked through `ScopedProvider`). -/
inductive FPOp where
  | pull (until_ : Nat)
  | tryRevive (place : Place) (until_ : Nat)
  | pushUntil (end_ : Nat)
deriving Repr, DecidableEq

/-- One step of the `FunctionProvider` state machine; a panicking pull
(`u16` table-index overflow) stops the machine. -/
def FPOp.apply (fp : FunctionProvider) : FPOp → Option FunctionProvider
  | .pull until_ => (fp.pull until_).map Prod.snd
  | .tryRevive place until_ => some (fp.try_revive place until_).2
  | .pushUntil end_ => some (fp.push_until end_)

/-- States reachable from `FunctionProvider::new` by a list of
operations. -/
def FPOp.run (ops : List FPOp) : Option FunctionProvider :=
  ops.foldl (fun acc op => acc.bind (fun fp => op.apply fp)) (some FunctionProvider.new)

/-- Helper: names of the `holds` heap after a push, up to permutation. -/
theorem heapPushHold_map_name_perm (h : Hold) (l : List Hold) :
    ((heapPushHold h l).map Hold.name).Perm (h.name :: l.map Hold.name) :=
  (List.perm_orderedInsert holdAbove h l).map Hold.name

/-- Helper: a pushed `free` heap is a permutation of consing the name. -/
theorem heapPushFree_perm (n : Nat) (l : List Nat) :
    (heapPushFree n l).Perm (n :: l) :=
  List.perm_orderedInsert _ n l

theorem heapPushHold_length (h : Hold) (l : List Hold) :
    (heapPushHold h l).length = l.length + 1 := by
  simpa using (heapPushHold_map_name_perm h l).length_eq

theorem heapPushFree_length (n : Nat) (l : List Nat) :
    (heapPushFree n l).length = l.length + 1 :=
  (heapPushFree_perm n l).length_eq

/-! #### C1: the 199-local budget -/

/-- Total count of live names (held plus free) in a local provider. -/
def liveNames (p : IndexProvider) : Nat := p.holds.length + p.free.length

/-- The budget invariant maintained by the three `FunctionProvider`
operations: at most 199 live local names before the spill table is
created, and at most 200 (the extra one being the name of the spill
table itself) afterwards. -/
def BudgetInv (fp : FunctionProvider) : Prop :=
  liveNames fp.local_provider ≤ 200 ∧
    (fp.table_provider = .Nothing → liveNames fp.local_provider ≤ 199)

theorem push_until_loop_length (e : Nat) (hs : List Hold) (fr : List Nat) :
    (IndexProvider.push_until_loop e hs fr).1.length +
      (IndexProvider.push_until_loop e hs fr).2.length = hs.length + fr.length := by
  induction hs generalizing fr with
  | nil => simp [IndexProvider.push_until_loop]
  | cons h rest ih =>
    by_cases hu : h.until_ = e
    · simp only [IndexProvider.push_until_loop, if_pos hu]
      rw [ih]
      simp only [heapPushFree_length, List.length_cons]
      omega
    · simp only [IndexProvider.push_until_loop, if_neg hu]

/-- `BudgetInv` is preserved by every operation. -/
theorem budgetInv_step (fp fp2 : FunctionProvider) (op : FPOp)
    (hInv : BudgetInv fp) (h : op.apply fp = some fp2) : BudgetInv fp2 := by
  obtain ⟨h200, h199⟩ := hInv
  cases op with
  | pull until_ =>
    simp only [FPOp.apply, Option.map_eq_some'] at h
    obtain ⟨⟨place, fpr⟩, hpull, hsnd⟩ := h
    subst hsnd
    rw [FunctionProvider.pull] at hpull
    by_cases hex : fp.local_provider.should_exceed MAX_LOCAL_VARIABLES = true
    · rw [if_pos hex] at hpull
      have hfree : fp.local_provider.free = [] := by
        have := hex
        simp only [IndexProvider.should_exceed, IndexProvider.should_create,
          Bool.and_eq_true, List.isEmpty_iff, decide_eq_true_eq] at this
        exact this.1
      have hholds : MAX_LOCAL_VARIABLES ≤ fp.local_provider.holds.length := by
        simp only [IndexProvider.should_exceed, IndexProvider.should_create,
          Bool.and_eq_true, List.isEmpty_iff, decide_eq_true_eq] at hex
        exact hex.2
      simp only [FunctionProvider.pull_slow, Option.bind_eq_bind, Option.pure_def] at hpull
      cases htp : fp.table_provider with
      | Nothing =>
        have hL : liveNames fp.local_provider ≤ 199 := h199 htp
        rw [htp] at hpull
        have heq : TableProvider.Nothing.pull until_ fp.local_provider =
            some (.Overflow fp.local_provider.names 0,
              .Just ⟨[⟨0, until_⟩], [], 1⟩ fp.local_provider.names,
              ⟨heapPushHold ⟨fp.local_provider.names, u32Max⟩ fp.local_provider.holds,
                [], fp.local_provider.names + 1⟩) := by
          simp [TableProvider.pull, IndexProvider.pull, IndexProvider.new, hfree, u16Mod,
            heapPushHold, List.orderedInsert]
        rw [heq] at hpull
        simp only [Option.some_bind, Option.some_inj] at hpull
        have hfp2 : fpr = ⟨⟨heapPushHold ⟨fp.local_provider.names, u32Max⟩
            fp.local_provider.holds, [], fp.local_provider.names + 1⟩,
            .Just ⟨[⟨0, until_⟩], [], 1⟩ fp.local_provider.names⟩ := by
          have := congrArg Prod.snd hpull
          simp at this
          exact this.symm
        constructor
        · rw [hfp2]
          simp only [liveNames, heapPushHold_length, List.length_nil]
          simp only [liveNames, hfree, List.length_nil, Nat.add_zero] at hL
          omega
        · intro hnone
          rw [hfp2] at hnone
          simp at hnone
      | Just provider table =>
        rw [htp] at hpull
        simp only [TableProvider.pull] at hpull
        by_cases hguard : (provider.pull until_).1 < u16Mod
        · rw [if_pos hguard] at hpull
          simp only [Option.some_bind, Option.some_inj] at hpull
          have hfp2 : fpr = ⟨fp.local_provider, .Just (provider.pull until_).2 table⟩ := by
            have := congrArg Prod.snd hpull
            simp at this
            exact this.symm
          constructor
          · rw [hfp2]
            exact h200
          · intro hnone
            rw [hfp2] at hnone
            simp at hnone
        · rw [if_neg hguard] at hpull
          simp at hpull
    · rw [if_neg hex] at hpull
      simp only [Option.some_inj] at hpull
      have hfpr : fpr = ⟨(fp.local_provider.pull until_).2, fp.table_provider⟩ := by
        have h2 := congrArg Prod.snd hpull
        simpa [FunctionProvider.pull_fast] using h2.symm
      show BudgetInv fpr
      rw [hfpr]
      cases hfree : fp.local_provider.free with
      | nil =>
        have hgap : fp.local_provider.holds.length < 199 := by
          simp only [IndexProvider.should_exceed, IndexProvider.should_create, hfree,
            Bool.and_eq_true, List.isEmpty_iff, decide_eq_true_eq, MAX_LOCAL_VARIABLES,
            not_and, not_le] at hex
          exact hex trivial
        have hlen : liveNames (fp.local_provider.pull until_).2 =
            fp.local_provider.holds.length + 1 := by
          simp [liveNames, IndexProvider.pull, hfree, heapPushHold_length]
        exact ⟨by simp only [hlen]; omega, fun _ => by simp only [hlen]; omega⟩
      | cons n rest =>
        have hlen : liveNames (fp.local_provider.pull until_).2 =
            liveNames fp.local_provider := by
          simp [liveNames, IndexProvider.pull, hfree, heapPushHold_length]
          omega
        exact ⟨by simp only [hlen]; exact h200, fun hn => by simp only [hlen]; exact h199 hn⟩
  | tryRevive place until_ =>
    simp only [FPOp.apply, Option.some_inj] at h
    subst h
    cases place with
    | Definition name | Assignment name =>
      simp only [FunctionProvider.try_revive, IndexProvider.try_revive]
      by_cases hmem : name ∈ fp.local_provider.free
      · have hlive : liveNames ⟨heapPushHold ⟨name, until_⟩ fp.local_provider.holds,
            fp.local_provider.free.erase name, fp.local_provider.names⟩ =
            liveNames fp.local_provider := by
          simp [liveNames, heapPushHold_length, List.length_erase_of_mem hmem]
          have : 0 < fp.local_provider.free.length := List.length_pos_of_mem hmem
          omega
        simp only [if_pos hmem]
        exact ⟨hlive ▸ h200, fun hn => hlive ▸ h199 hn⟩
      · simp only [if_neg hmem]
        exact ⟨h200, h199⟩
    | Overflow table index =>
      cases htp : fp.table_provider with
      | Nothing => simpa [FunctionProvider.try_revive, TableProvider.try_revive, htp]
          using ⟨h200, fun _ => h199 htp⟩
      | Just provider other =>
        constructor
        · simpa [FunctionProvider.try_revive, TableProvider.try_revive, htp] using h200
        · intro hn
          exfalso
          simp only [FunctionProvider.try_revive, TableProvider.try_revive, htp] at hn
          by_cases heq : table = other <;> simp [heq] at hn
  | pushUntil end_ =>
    simp only [FPOp.apply, Option.some_inj] at h
    subst h
    have hlive : liveNames (fp.local_provider.push_until end_) =
        liveNames fp.local_provider := by
      simp [liveNames, IndexProvider.push_until, push_until_loop_length]
    constructor
    · simp only [FunctionProvider.push_until]
      rw [hlive]
      exact h200
    · intro hn
      simp only [FunctionProvider.push_until] at hn ⊢
      rw [hlive]
      apply h199
      cases htp : fp.table_provider with
      | Nothing => rfl
      | Just provider table => rw [htp] at hn; simp [TableProvider.push_until] at hn

/-- Helper: whenever `TableProvider::pull` returns, the place is a
table spill. -/
theorem tableProvider_pull_overflow (tp : TableProvider) (until_ : Nat)
    (outer : IndexProvider) (r : Place × TableProvider × IndexProvider)
    (h : tp.pull until_ outer = some r) : r.1.isOverflow = true := by
  cases tp <;> simp only [TableProvider.pull] at h <;> split at h <;>
    [skip; exact absurd h (by simp); skip; exact absurd h (by simp)] <;>
    rw [Option.some_inj] at h <;> rw [← h] <;> rfl

/-- Helper: reachable `FunctionProvider` states satisfy the budget
invariant. -/
theorem run_budgetInv (ops : List FPOp) (fp : FunctionProvider)
    (h : FPOp.run ops = some fp) : BudgetInv fp := by
  suffices H : ∀ (acc : Option FunctionProvider),
      (∀ s, acc = some s → BudgetInv s) →
      ops.foldl (fun acc op => acc.bind (fun fp => op.apply fp)) acc = some fp →
      BudgetInv fp by
    refine H (some FunctionProvider.new) ?_ h
    intro s hs
    simp only [Option.some_inj] at hs
    subst hs
    constructor <;> simp [liveNames, FunctionProvider.new, IndexProvider.new]
  clear h
  induction ops with
  | nil =>
    intro acc hacc h
    exact hacc fp h
  | cons op rest ih =>
    intro acc hacc h
    simp only [List.foldl_cons] at h
    refine ih _ ?_ h
    intro s hs
    cases hval : acc with
    | none => rw [hval] at hs; simp at hs
    | some prev =>
      rw [hval] at hs
      simp only [Option.some_bind] at hs
      exact budgetInv_step prev s op (hacc prev hval) hs

/-- C1, counterexample to the claim as stated: two hundred consecutive
`pull` calls are a reachable operation sequence, and after the 200th
call — the first spill, which *does* create one more local name, the
name of the synthetic spill table (`TableProvider::get_or_create` pulls
it from the same local provider) — the register allocator holds 200
local names simultaneously, contradicting the claimed bound of 199. -/
theorem local_budget_counterexample :
    (FPOp.run (List.replicate 200 (FPOp.pull 1))).map
      (fun s => s.local_provider.holds.length) = some 200 := by
  decide

/-- C1 (amended): whenever `FunctionProvider::pull` is called while no
freed name is available and at least 199 names are already held, it
returns a table-spill place (`Place::Overflow`) from the per-function
`TableProvider`; the first such pull additionally allocates one local
name for the synthetic table itself, so over every reachable state the
count of simultaneously held local names stays at or below 200 (at or
below 199 while no spill table exists), rather than the claimed 199. -/
theorem local_budget_amended (ops : List FPOp) (fp : FunctionProvider)
    (h : FPOp.run ops = some fp) :
    fp.local_provider.holds.length ≤ 200 ∧
      (fp.table_provider = .Nothing → fp.local_provider.holds.length ≤ 199) ∧
      (∀ until_ place fp2, fp.local_provider.should_exceed MAX_LOCAL_VARIABLES = true →
        fp.pull until_ = some (place, fp2) → place.isOverflow = true) := by
  obtain ⟨h200, h199⟩ := run_budgetInv ops fp h
  refine ⟨by simp only [liveNames] at h200; omega,
    fun hn => by have := h199 hn; simp only [liveNames] at this; omega,
    fun until_ place fp2 hex hp => ?_⟩
  rw [FunctionProvider.pull, if_pos hex] at hp
  simp only [FunctionProvider.pull_slow, Option.bind_eq_bind, Option.pure_def] at hp
  cases htab : fp.table_provider.pull until_ fp.local_provider with
  | none => rw [htab] at hp; simp at hp
  | some r =>
    rw [htab] at hp
    simp only [Option.some_bind, Option.some_inj] at hp
    have hpl : place = r.1 := by
      obtain ⟨pl, tp, lp⟩ := r
      have := congrArg Prod.fst hp
      simpa using this.symm
    rw [hpl]
    exact tableProvider_pull_overflow _ _ _ _ htab

/-- Witness for C1 (amended) at the empty operation sequence. -/
theorem local_budget_amended_witness :
    FunctionProvider.new.local_provider.holds.length ≤ 200 ∧
      (FunctionProvider.new.table_provider = .Nothing →
        FunctionProvider.new.local_provider.holds.length ≤ 199) ∧
      (∀ until_ place fp2,
        FunctionProvider.new.local_provider.should_exceed MAX_LOCAL_VARIABLES = true →
        FunctionProvider.new.pull until_ = some (place, fp2) → place.isOverflow = true) :=
  local_budget_amended [] FunctionProvider.new rfl

/-! #### C10: no duplicate live names in one `IndexProvider` -/

theorem heapPushHold_name_mem (h : Hold) (l : List Hold) (n : Nat) :
    n ∈ (heapPushHold h l).map Hold.name ↔ n = h.name ∨ n ∈ l.map Hold.name := by
  rw [(heapPushHold_map_name_perm h l).mem_iff]
  simp

theorem heapPushHold_name_nodup (h : Hold) (l : List Hold)
    (hn : h.name ∉ l.map Hold.name) (hl : (l.map Hold.name).Nodup) :
    ((heapPushHold h l).map Hold.name).Nodup :=
  ((heapPushHold_map_name_perm h l).nodup_iff).2 (List.nodup_cons.mpr ⟨hn, hl⟩)

theorem heapPushFree_mem (x n : Nat) (l : List Nat) :
    x ∈ heapPushFree n l ↔ x = n ∨ x ∈ l := by
  rw [(heapPushFree_perm n l).mem_iff]
  simp

theorem heapPushFree_nodup (n : Nat) (l : List Nat)
    (hn : n ∉ l) (hl : l.Nodup) : (heapPushFree n l).Nodup :=
  ((heapPushFree_perm n l).nodup_iff).2 (List.nodup_cons.mpr ⟨hn, hl⟩)

/-- The per-provider allocation invariant: held names are pairwise
distinct, free names are pairwise distinct, no name is both free and
held, and every tracked name is below the fresh counter. -/
def IndexProvider.Inv (p : IndexProvider) : Prop :=
  (p.holds.map Hold.name).Nodup ∧ p.free.Nodup ∧
    (∀ n ∈ p.free, n ∉ p.holds.map Hold.name) ∧
    (∀ n ∈ p.holds.map Hold.name, n < p.names) ∧
    (∀ n ∈ p.free, n < p.names)

/-- `push_until` only moves names from `holds` to `free`, preserving
the invariant. -/
theorem push_until_loop_inv (e : Nat) (hs : List Hold) (fr : List Nat) (names : Nat)
    (h1 : (hs.map Hold.name).Nodup) (h2 : fr.Nodup)
    (h3 : ∀ n ∈ fr, n ∉ hs.map Hold.name)
    (h4 : ∀ n ∈ hs.map Hold.name, n < names) (h5 : ∀ n ∈ fr, n < names) :
    (((IndexProvider.push_until_loop e hs fr).1.map Hold.name).Nodup ∧
      (IndexProvider.push_until_loop e hs fr).2.Nodup ∧
      (∀ n ∈ (IndexProvider.push_until_loop e hs fr).2,
        n ∉ (IndexProvider.push_until_loop e hs fr).1.map Hold.name) ∧
      (∀ n ∈ (IndexProvider.push_until_loop e hs fr).1.map Hold.name, n < names) ∧
      (∀ n ∈ (IndexProvider.push_until_loop e hs fr).2, n < names)) := by
  induction hs generalizing fr with
  | nil =>
    simp only [IndexProvider.push_until_loop]
    exact ⟨List.nodup_nil, h2, by simp, by simp, h5⟩
  | cons h rest ih =>
    by_cases hu : h.until_ = e
    · simp only [IndexProvider.push_until_loop, if_pos hu]
      have hhd : h.name ∉ rest.map Hold.name := (List.nodup_cons.mp (by simpa using h1)).1
      have hrest : (rest.map Hold.name).Nodup := (List.nodup_cons.mp (by simpa using h1)).2
      refine ih _ hrest ?_ ?_ ?_ ?_
      · exact heapPushFree_nodup _ _ (fun hc => (h3 _ hc) (by simp)) h2
      · intro n hn
        rcases (heapPushFree_mem n h.name fr).1 hn with rfl | hn2
        · exact hhd
        · intro hc
          exact (h3 n hn2) (by simp [hc])
      · intro n hn
        exact h4 n (by simp [hn])
      · intro n hn
        rcases (heapPushFree_mem n h.name fr).1 hn with rfl | hn2
        · exact h4 _ (by simp)
        · exact h5 n hn2
    · simp only [IndexProvider.push_until_loop, if_neg hu]
      exact ⟨h1, h2, h3, h4, h5⟩

/-- C10: the `IndexProvider` allocation discipline.  Under the
invariant: `pull` returns either a name popped from the free heap or
the fresh counter value — in the latter case strictly greater than
every name tracked so far — and in both cases a name not currently
held, so the same name is never handed to two overlapping lifetimes;
`try_revive` moves a name from `free` to `holds` exactly when it is
free; all three operations preserve the invariant. -/
theorem index_provider_allocation_discipline (p : IndexProvider) (hInv : p.Inv)
    (until_ name end_ : Nat) :
    ((p.pull until_).2.Inv ∧
      ((p.pull until_).1 ∈ p.free ∨
        ((p.pull until_).1 = p.names ∧
          (∀ m ∈ p.holds.map Hold.name, m < (p.pull until_).1) ∧
          (∀ m ∈ p.free, m < (p.pull until_).1))) ∧
      (p.pull until_).1 ∉ p.holds.map Hold.name) ∧
    ((p.try_revive name until_).2.Inv ∧
      ((p.try_revive name until_).1 = true ↔ name ∈ p.free)) ∧
    (p.push_until end_).Inv := by
  obtain ⟨hnodupH, hnodupF, hdisj, hboundH, hboundF⟩ := hInv
  refine ⟨?_, ?_, ?_⟩
  · cases hfree : p.free with
    | cons n rest =>
      have hmemn : n ∈ p.free := by rw [hfree]; simp
      have hnotheld : n ∉ p.holds.map Hold.name := hdisj n hmemn
      have hcons := List.nodup_cons.mp (hfree ▸ hnodupF)
      simp only [IndexProvider.pull, hfree, IndexProvider.Inv]
      refine ⟨⟨heapPushHold_name_nodup _ _ hnotheld hnodupH, hcons.2, ?_, ?_, ?_⟩,
        ?_, hnotheld⟩
      · intro m hm
        simp only [heapPushHold_name_mem]
        push_neg
        refine ⟨fun hc => ?_, hdisj m (by rw [hfree]; exact List.mem_cons_of_mem n hm)⟩
        have hc2 : m = n := hc
        rw [hc2] at hm
        exact hcons.1 hm
      · intro m hm
        rcases (heapPushHold_name_mem _ _ m).1 hm with hc | hm2
        · have hc2 : m = n := hc
          rw [hc2]
          exact hboundF n hmemn
        · exact hboundH m hm2
      · intro m hm
        exact hboundF m (by rw [hfree]; exact List.mem_cons_of_mem n hm)
      · exact .inl (List.mem_cons_self n rest)
    | nil =>
      have hfreshnotheld : p.names ∉ p.holds.map Hold.name := fun hc =>
        lt_irrefl _ (hboundH _ hc)
      simp only [IndexProvider.pull, hfree, IndexProvider.Inv]
      refine ⟨⟨heapPushHold_name_nodup _ _ hfreshnotheld hnodupH,
          List.nodup_nil, ?_, ?_, ?_⟩, .inr ⟨?_, ?_, ?_⟩, hfreshnotheld⟩
      · intro m hm
        simp at hm
      · intro m hm
        rcases (heapPushHold_name_mem _ _ m).1 hm with hc | hm2
        · have hc2 : m = p.names := hc
          rw [hc2]
          exact Nat.lt_succ_self _
        · exact Nat.lt_succ_of_lt (hboundH m hm2)
      · intro m hm
        simp at hm
      · trivial
      · intro m hm
        exact hboundH m hm
      · intro m hm
        simp at hm
  · by_cases hmem : name ∈ p.free
    · simp only [IndexProvider.try_revive, if_pos hmem, IndexProvider.Inv]
      refine ⟨⟨heapPushHold_name_nodup _ _ (hdisj name hmem) hnodupH,
          hnodupF.erase name, ?_, ?_, ?_⟩, by simp [hmem]⟩
      · intro m hm
        rw [heapPushHold_name_mem]
        push_neg
        have hm2 := (hnodupF.mem_erase_iff).1 hm
        exact ⟨hm2.1, hdisj m hm2.2⟩
      · intro m hm
        rcases (heapPushHold_name_mem _ _ m).1 hm with hc | hm2
        · have hc2 : m = name := hc
          rw [hc2]
          exact hboundF name hmem
        · exact hboundH m hm2
      · intro m hm
        exact hboundF m ((hnodupF.mem_erase_iff).1 hm).2
    · simp only [IndexProvider.try_revive, if_neg hmem, IndexProvider.Inv]
      exact ⟨⟨hnodupH, hnodupF, hdisj, hboundH, hboundF⟩, by simp [hmem]⟩
  · have hloop := push_until_loop_inv end_ p.holds p.free p.names hnodupH hnodupF hdisj
      hboundH hboundF
    simp only [IndexProvider.push_until, IndexProvider.Inv]
    exact ⟨hloop.1, hloop.2.1, hloop.2.2.1, hloop.2.2.2.1, hloop.2.2.2.2⟩

/-- Witness for C10 at a concrete two-name provider state. -/
theorem index_provider_allocation_discipline_witness :
    (IndexProvider.Inv ⟨[⟨0, 5⟩], [1], 2⟩) ∧
      (((IndexProvider.mk [⟨0, 5⟩] [1] 2).pull 9).2.Inv ∧
        (((IndexProvider.mk [⟨0, 5⟩] [1] 2).pull 9).1 ∈ [1] ∨
          (((IndexProvider.mk [⟨0, 5⟩] [1] 2).pull 9).1 = 2 ∧
            (∀ m ∈ ([⟨0, 5⟩] : List Hold).map Hold.name,
              m < ((IndexProvider.mk [⟨0, 5⟩] [1] 2).pull 9).1) ∧
            (∀ m ∈ [1], m < ((IndexProvider.mk [⟨0, 5⟩] [1] 2).pull 9).1))) ∧
        ((IndexProvider.mk [⟨0, 5⟩] [1] 2).pull 9).1 ∉
          ([⟨0, 5⟩] : List Hold).map Hold.name) ∧
      (((IndexProvider.mk [⟨0, 5⟩] [1] 2).try_revive 1 9).2.Inv ∧
        (((IndexProvider.mk [⟨0, 5⟩] [1] 2).try_revive 1 9).1 = true ↔ (1 : Nat) ∈ [1])) ∧
      ((IndexProvider.mk [⟨0, 5⟩] [1] 2).push_until 5).Inv := by
  have hInv : IndexProvider.Inv ⟨[⟨0, 5⟩], [1], 2⟩ := by
    refine ⟨by simp, by simp, ?_, ?_, ?_⟩ <;> intro n hn <;> simp_all
  exact ⟨hInv, index_provider_allocation_discipline ⟨[⟨0, 5⟩], [1], 2⟩ hInv 9 1 5⟩

/-! ### Bit sets

Modelled from the spec: the `set` crate of this repository is not under
`src/` (only its users are).  From its use sites and the spec (mark
sets, DFS `seen` sets) it is a growable bit set of naturals:
`contains` is membership, `grow_insert` inserts and reports whether the
element was already present, `extend` inserts many, and `remove`
deletes.  It is embedded as a list of the inserted members. -/

def setInsert (n : Nat) (s : List Nat) : List Nat :=
  if n ∈ s then s else n :: s

def setRemove (n : Nat) (s : List Nat) : List Nat :=
  s.filter (fun x => x ≠ n)

/-! ### Control-flow graph (`src/Control Flow/Graph/src/lib.rs`,
`basic_block.rs`)

Block ids (`u16`) are embedded as `Nat`.  The `Resizable` small-vector
type of the repository's `list` crate (also not under `src/`) behaves
as a vector and is embedded as `List`.  Out-of-range indexing panics in
the source; the accessors below return an empty block instead, and
every theorem only exercises in-range ids. -/

structure CFGBasicBlock where
  predecessors : List Nat
  successors : List Nat
  start : Nat
  stop : Nat
deriving Repr, DecidableEq

/-- Source `BasicBlock::default()` (`from_range(0, 0)`). -/
def CFGBasicBlock.default : CFGBasicBlock := ⟨[], [], 0, 0⟩

structure ControlFlowGraph where
  instructions : List Instruction
  basic_blocks : List CFGBasicBlock
deriving Repr, DecidableEq

namespace ControlFlowGraph

def block (g : ControlFlowGraph) (id : Nat) : CFGBasicBlock :=
  g.basic_blocks.getD id .default

/-- Source `ControlFlowGraph::predecessors`. -/
def predecessors (g : ControlFlowGraph) (id : Nat) : List Nat :=
  (g.block id).predecessors

/-- Source `ControlFlowGraph::successors`. -/
def successors (g : ControlFlowGraph) (id : Nat) : List Nat :=
  (g.block id).successors

/-- Replace block `id` (no-op when out of range, as `List.set`). -/
def setBlock (g : ControlFlowGraph) (id : Nat) (b : CFGBasicBlock) : ControlFlowGraph :=
  ⟨g.instructions, g.basic_blocks.set id b⟩

/-- Source `ControlFlowGraph::add_edge`. -/
def add_edge (g : ControlFlowGraph) (from_ to_ : Nat) : ControlFlowGraph :=
  let g := g.setBlock to_
    { g.block to_ with predecessors := (g.block to_).predecessors ++ [from_] }
  g.setBlock from_
    { g.block from_ with successors := (g.block from_).successors ++ [to_] }

/-- Replace the first occurrence of `old` in a list by `new_` (the
source indexes the `position` of the first occurrence and overwrites). -/
def replaceFirst (l : List Nat) (old new_ : Nat) : List Nat :=
  match l with
  | [] => []
  | x :: xs => if x = old then new_ :: xs else x :: replaceFirst xs old new_

/-- Remove the first occurrence of `x` (the source `remove`s the
`position` of the first occurrence). -/
def removeFirst (l : List Nat) (x : Nat) : List Nat := l.erase x

/-- Source `ControlFlowGraph::replace_edge`: redirect the edge
`from_ → to_` to point at `new_` instead. -/
def replace_edge (g : ControlFlowGraph) (from_ to_ new_ : Nat) : ControlFlowGraph :=
  let g := g.setBlock from_
    { g.block from_ with successors := replaceFirst (g.block from_).successors to_ new_ }
  let g := g.setBlock new_
    { g.block new_ with predecessors := (g.block new_).predecessors ++ [from_] }
  g.setBlock to_
    { g.block to_ with predecessors := removeFirst (g.block to_).predecessors from_ }

/-- Source `ControlFlowGraph::add_instruction`: append a single
instruction in a fresh single-instruction block, returning its id. -/
def add_instruction (g : ControlFlowGraph) (instruction : Instruction) :
    Nat × ControlFlowGraph :=
  let id := g.basic_blocks.length
  let position := g.instructions.length
  (id, ⟨g.instructions ++ [instruction],
    g.basic_blocks ++ [⟨[], [], position, position + 1⟩]⟩)

/-- Source `ControlFlowGraph::add_no_operation`. -/
def add_no_operation (g : ControlFlowGraph) : Nat × ControlFlowGraph :=
  let id := g.basic_blocks.length
  let position := g.instructions.length
  (id, ⟨g.instructions, g.basic_blocks ++ [⟨[], [], position, position⟩]⟩)

/-- Source `ControlFlowGraph::add_selection`: a fresh block holding a
`LocalBranch` on the given selector register. -/
def add_selection (g : ControlFlowGraph) (name : Name) : Nat × ControlFlowGraph :=
  g.add_instruction (.LocalBranch name.toU16)

/-- Source `ControlFlowGraph::add_assignment`: a fresh block holding an
`I32Constant` writing `value` into the selector register. -/
def add_assignment (g : ControlFlowGraph) (name : Name) (value : Nat) :
    Nat × ControlFlowGraph :=
  g.add_instruction (.I32Constant name.toU16 value)

end ControlFlowGraph

/-! ### Strongly connected finder
(`src/Control Flow/Structurer/src/repeat/strongly_connected_finder.rs`)

Kosaraju's two passes.  The iterative depth-first search of the source
runs a `while let Some(..) = stack.pop()` loop; it is embedded with a
fuel parameter, consuming one unit per loop iteration.  The property
proved for C6 holds for every fuel value, exhausted or not. -/

/-- Source `DepthFirstSearcher::reset` (of the strongly connected
finder): seed `seen` with the predecessors of `entry`, unsee the
successors of `entry`, and see `exit`. -/
def sccResetSeen (g : ControlFlowGraph) (entry exit_ : Nat) : List Nat :=
  let s : List Nat := []
  let s := (g.predecessors entry).foldl (fun s p => setInsert p s) s
  let s := (g.successors entry).foldl (fun s q => setRemove q s) s
  setInsert exit_ s

/-- The loop of `DepthFirstSearcher::run` (strongly connected finder):
pop `(id, post)`; a fresh id is marked seen, re-pushed with the post
flag and followed by its unseen neighbours; a seen id with the post
flag set is emitted. -/
def sccDfsLoop (nbrs : Nat → List Nat) :
    Nat → List (Nat × Bool) → List Nat → List Nat → List Nat × List Nat
  | 0, _, seen, result => (result, seen)
  | _ + 1, [], seen, result => (result, seen)
  | fuel + 1, (id, post) :: stack, seen, result =>
    if id ∈ seen then
      if post then sccDfsLoop nbrs fuel stack seen (result ++ [id])
      else sccDfsLoop nbrs fuel stack seen result
    else
      let seen2 := id :: seen
      let stack2 := (nbrs id).foldl
        (fun st s => if s ∈ seen2 then st else (s, false) :: st) ((id, true) :: stack)
      sccDfsLoop nbrs fuel stack2 seen2 result

/-- Source `DepthFirstSearcher::run`: seed the stack with the entry
(skipped when already seen) and loop. -/
def sccDfsRun (nbrs : Nat → List Nat) (fuel : Nat) (entry : Nat)
    (seen : List Nat) (result : List Nat) : List Nat × List Nat :=
  sccDfsLoop nbrs fuel (if entry ∈ seen then [] else [(entry, false)]) seen result

/-- Source `StronglyConnectedFinder::should_store`: keep components of
two or more vertices, or singletons with a self-loop. -/
def should_store (g : ControlFlowGraph) (list : List Nat) : Bool :=
  match list with
  | [only] => (g.predecessors only).any (fun id => id = only)
  | [] => false
  | _ => true

/-- The loop of `StronglyConnectedFinder::find_predecessors`: pop the
post-order stack, accumulate one candidate component per vertex in the
shared `results` vector, then either record a separator or truncate the
candidate away. -/
def findPredecessorsLoop (g : ControlFlowGraph) (fuel : Nat) :
    List Nat → List Nat → List Nat → List Nat → List Nat × List Nat
  | [], results, separators, _ => (results, separators)
  | id :: post, results, separators, seen =>
    let r := sccDfsRun (g.predecessors) fuel id seen results
    if should_store g (r.1.drop results.length) then
      findPredecessorsLoop g fuel post r.1 (separators ++ [r.1.length]) r.2
    else
      findPredecessorsLoop g fuel post results separators r.2

/-- Source `StronglyConnectedFinder::run`: forward pass for a
post-order stack, then the reverse pass extracting components.  Returns
the `results` vector and the `separators`. -/
def StronglyConnectedFinder.run (g : ControlFlowGraph) (fuel : Nat)
    (entry exit_ : Nat) : List Nat × List Nat :=
  let post := (sccDfsRun (g.successors) fuel entry (sccResetSeen g entry exit_) []).1
  findPredecessorsLoop g fuel post.reverse [] [] (sccResetSeen g entry exit_)

/-- Source `StronglyConnectedFinder::for_each`: the reported vertex
sets are the slices of `results` between consecutive separators. -/
def segmentsFrom (results : List Nat) : Nat → List Nat → List (List Nat)
  | _, [] => []
  | start, e :: seps => ((results.take e).drop start) :: segmentsFrom results e seps

/-- Helper: the depth-first search only appends to the shared `results`
vector. -/
theorem sccDfsLoop_append (nbrs : Nat → List Nat) (fuel : Nat) :
    ∀ (stack : List (Nat × Bool)) (seen result : List Nat),
      ∃ extra, (sccDfsLoop nbrs fuel stack seen result).1 = result ++ extra := by
  induction fuel with
  | zero =>
    intro stack seen result
    exact ⟨[], by simp [sccDfsLoop]⟩
  | succ fuel ih =>
    intro stack seen result
    match stack with
    | [] => exact ⟨[], by simp [sccDfsLoop]⟩
    | (id, post) :: stack =>
      by_cases hseen : id ∈ seen
      · cases post with
        | true =>
          obtain ⟨e1, he1⟩ := ih stack seen (result ++ [id])
          refine ⟨[id] ++ e1, ?_⟩
          simp only [sccDfsLoop, if_pos hseen, if_pos]
          rw [he1]
          simp
        | false =>
          obtain ⟨e1, he1⟩ := ih stack seen result
          refine ⟨e1, ?_⟩
          simp only [sccDfsLoop, if_pos hseen]
          simpa using he1
      · obtain ⟨e1, he1⟩ := ih ((nbrs id).foldl
          (fun st s => if s ∈ id :: seen then st else (s, false) :: st) ((id, true) :: stack))
          (id :: seen) result
        refine ⟨e1, ?_⟩
        simp only [sccDfsLoop, if_neg hseen]
        exact he1

theorem sccDfsRun_append (nbrs : Nat → List Nat) (fuel entry : Nat)
    (seen result : List Nat) :
    ∃ extra, (sccDfsRun nbrs fuel entry seen result).1 = result ++ extra :=
  sccDfsLoop_append nbrs fuel _ seen result

/-- Helper: segments below the old length are unchanged by appending. -/
theorem segmentsFrom_append (results extra : List Nat) :
    ∀ (start : Nat) (seps : List Nat), (∀ e ∈ seps, e ≤ results.length) →
      segmentsFrom (results ++ extra) start seps = segmentsFrom results start seps := by
  intro start seps
  induction seps generalizing start with
  | nil => simp [segmentsFrom]
  | cons e seps ih =>
    intro hb
    simp only [segmentsFrom]
    rw [List.take_append_of_le_length (hb e (by simp)),
      ih e (fun x hx => hb x (by simp [hx]))]

/-- Helper: appending one separator appends one segment, starting at
the previous last separator. -/
theorem segmentsFrom_snoc (results : List Nat) :
    ∀ (start : Nat) (seps : List Nat) (e : Nat),
      segmentsFrom results start (seps ++ [e]) =
        segmentsFrom results start seps ++ [(results.take e).drop (seps.getLastD start)] := by
  intro start seps
  induction seps generalizing start with
  | nil => simp [segmentsFrom]
  | cons s seps ih =>
    intro e
    rw [List.cons_append]
    rw [show segmentsFrom results start (s :: (seps ++ [e])) =
      ((results.take s).drop start) :: segmentsFrom results s (seps ++ [e]) from rfl]
    rw [show segmentsFrom results start (s :: seps) =
      ((results.take s).drop start) :: segmentsFrom results s seps from rfl]
    rw [ih s e, List.getLastD_cons]
    simp

/-- Helper: a stored candidate satisfies the reported-component shape. -/
theorem should_store_spec (g : ControlFlowGraph) (l : List Nat)
    (h : should_store g l = true) :
    2 ≤ l.length ∨ ∃ v, l = [v] ∧ v ∈ g.predecessors v := by
  match l with
  | [] => simp [should_store] at h
  | [only] =>
    refine .inr ⟨only, rfl, ?_⟩
    simp only [should_store, List.any_eq_true, decide_eq_true_eq] at h
    obtain ⟨x, hx, he⟩ := h
    subst he
    exact hx
  | a :: b :: rest =>
    left
    simp

/-- The invariant carried through `find_predecessors`: separators stay
in range and end at the current length, and every segment already cut
satisfies the reported-component shape. -/
def GoodSeps (g : ControlFlowGraph) (results seps : List Nat) : Prop :=
  (∀ e ∈ seps, e ≤ results.length) ∧ seps.getLastD 0 = results.length ∧
    ∀ l ∈ segmentsFrom results 0 seps,
      2 ≤ l.length ∨ ∃ v, l = [v] ∧ v ∈ g.predecessors v

theorem findPredecessorsLoop_good (g : ControlFlowGraph) (fuel : Nat) :
    ∀ (post results seps seen : List Nat), GoodSeps g results seps →
      GoodSeps g (findPredecessorsLoop g fuel post results seps seen).1
        (findPredecessorsLoop g fuel post results seps seen).2 := by
  intro post
  induction post with
  | nil =>
    intro results seps seen hgood
    simpa [findPredecessorsLoop] using hgood
  | cons id post ih =>
    intro results seps seen hgood
    obtain ⟨hb, hlast, hseg⟩ := hgood
    obtain ⟨extra, hextra⟩ := sccDfsRun_append (g.predecessors) fuel id seen results
    simp only [findPredecessorsLoop]
    by_cases hstore :
        should_store g ((sccDfsRun g.predecessors fuel id seen results).1.drop
          results.length) = true
    · rw [if_pos hstore]
      refine ih _ _ _ ⟨?_, ?_, ?_⟩
      · intro e he
        rcases List.mem_append.mp he with he | he
        · calc e ≤ results.length := hb e he
            _ ≤ _ := by rw [hextra]; simp
        · simp only [List.mem_singleton] at he
          omega
      · simp
      · intro l hl
        rw [segmentsFrom_snoc] at hl
        rcases List.mem_append.mp hl with hl | hl
        · rw [hextra, segmentsFrom_append results extra 0 seps hb] at hl
          exact hseg l hl
        · simp only [List.mem_singleton] at hl
          subst hl
          rw [List.take_length, hlast, hextra, List.drop_left]
          apply should_store_spec
          rw [hextra, List.drop_left] at hstore
          exact hstore
    · rw [if_neg hstore]
      exact ih _ _ _ ⟨hb, hlast, hseg⟩

/-- C6: every vertex set reported by `StronglyConnectedFinder`
(`for_each` yields the slices of `results` between separators after
`run`) has two or more vertices, or is a singleton whose block has an
edge to itself; candidates that are singletons without a self-loop are
truncated away and never reported.  Holds for every graph, entry, exit
and fuel value. -/
theorem scc_reported_components (g : ControlFlowGraph) (fuel entry exit_ : Nat) :
    ∀ l ∈ segmentsFrom (StronglyConnectedFinder.run g fuel entry exit_).1 0
        (StronglyConnectedFinder.run g fuel entry exit_).2,
      2 ≤ l.length ∨ ∃ v, l = [v] ∧ v ∈ g.predecessors v := by
  have hgood := findPredecessorsLoop_good g fuel
    ((sccDfsRun (g.successors) fuel entry (sccResetSeen g entry exit_) []).1.reverse)
    [] [] (sccResetSeen g entry exit_)
    ⟨by simp, by simp [segmentsFrom], by simp [segmentsFrom]⟩
  exact hgood.2.2

/-! ### Repeat structurer, single pass
(`src/Control Flow/Structurer/src/repeat/single.rs`)

The `Single` pass chooses an entry, an exit and a latch for one
strongly connected region. -/

/-- Ascending iteration over a bit set (`Set::ascending`): the sorted,
duplicate-free list of members. -/
def sortDedup (l : List Nat) : List Nat := List.insertionSort (· ≤ ·) l.dedup

namespace Single

/-- Source `Single::in_region`: the target is in the region, or one of
its predecessors (added during this pass) is. -/
def in_region (g : ControlFlowGraph) (region : List Nat) (target : Nat) : Bool :=
  decide (target ∈ region) ||
    (g.predecessors target).any (fun id => decide (id ∈ region))

/-- Source `Single::in_region_acyclic`. -/
def in_region_acyclic (g : ControlFlowGraph) (region : List Nat)
    (target exit_ : Nat) : Bool :=
  decide (target ≠ exit_) && in_region g region target

/-- Source `Single::find_entries_and_exits`: region members with an
out-of-region predecessor, and out-of-region successors of region
members (sorted, deduplicated). -/
def find_entries_and_exits (g : ControlFlowGraph) (region : List Nat) :
    List Nat × List Nat :=
  let asc := sortDedup region
  let entries := asc.filter
    (fun id => (g.predecessors id).any (fun p => decide (p ∉ region)))
  let exits := sortDedup (asc.foldl
    (fun acc id => acc ++ (g.successors id).filter (fun s => decide (s ∉ region))) [])
  (entries, exits)

/-- Source `Single::set_new_entry`: a `C`-selection block, with every
predecessor of every entry rerouted through a `C := index` assignment. -/
def set_new_entry (g0 : ControlFlowGraph) (entries : List Nat) :
    Nat × ControlFlowGraph :=
  let r := g0.add_selection .C
  let g := entries.enum.foldl (fun g ie =>
    let temporary := g.predecessors ie.2
    let g := temporary.foldl (fun g predecessor =>
      let a := g.add_assignment .C ie.1
      let g := a.2.replace_edge predecessor ie.2 a.1
      g.add_edge a.1 r.1) g
    g.add_edge r.1 ie.2) r.2
  (r.1, g)

/-- Source `Single::find_or_set_entry`. -/
def find_or_set_entry (g : ControlFlowGraph) (entries : List Nat) :
    Nat × ControlFlowGraph :=
  match entries with
  | [entry] => (entry, g)
  | _ => set_new_entry g entries

/-- Source `Single::set_new_exit`: as `set_new_entry`, but only
in-region predecessors of each exit are rerouted. -/
def set_new_exit (g0 : ControlFlowGraph) (region : List Nat) (exits : List Nat) :
    Nat × ControlFlowGraph :=
  let r := g0.add_selection .C
  let g := exits.enum.foldl (fun g ie =>
    let temporary := (g.predecessors ie.2).filter
      (fun id => decide (id ∈ region))
    let g := temporary.foldl (fun g predecessor =>
      let a := g.add_assignment .C ie.1
      let g := a.2.replace_edge predecessor ie.2 a.1
      g.add_edge a.1 r.1) g
    g.add_edge r.1 ie.2) r.2
  (r.1, g)

/-- Source `Single::find_or_set_exit`. -/
def find_or_set_exit (g : ControlFlowGraph) (region : List Nat) (exits : List Nat) :
    Nat × ControlFlowGraph :=
  match exits with
  | [exit_] => (exit_, g)
  | [] => g.add_no_operation
  | _ => set_new_exit g region exits

/-- Source `Single::find_latch`: the unique predecessor of the entry
that is `in_region`, also the unique `in_region_acyclic` predecessor of
the exit, with exactly two successors. -/
def find_latch (g : ControlFlowGraph) (region : List Nat) (entry exit_ : Nat) :
    Option Nat :=
  match (g.predecessors entry).filter (fun id => in_region g region id),
      (g.predecessors exit_).filter (fun id => in_region_acyclic g region id exit_) with
  | [repetition], [escape] =>
    if repetition = escape ∧ (g.successors repetition).length = 2 then
      some repetition
    else
      none
  | _, _ => none

/-- Source `Single::set_break`: reroute every `in_region_acyclic`
predecessor of `selection` through a fresh `B := 0` assignment into the
latch. -/
def set_break (g : ControlFlowGraph) (region : List Nat) (latch selection : Nat) :
    ControlFlowGraph :=
  let temporary := (g.predecessors selection).filter
    (fun id => in_region_acyclic g region id selection)
  temporary.foldl (fun g exitP =>
    let a := g.add_assignment .B 0
    let g := a.2.replace_edge exitP selection a.1
    g.add_edge a.1 latch) g

/-- Source `Single::set_continue`: reroute every `in_region`
predecessor of `selection` through a fresh `B := 1` assignment into the
latch. -/
def set_continue (g : ControlFlowGraph) (region : List Nat) (latch selection : Nat) :
    ControlFlowGraph :=
  let temporary := (g.predecessors selection).filter
    (fun id => in_region g region id)
  temporary.foldl (fun g entryP =>
    let a := g.add_assignment .B 1
    let g := a.2.replace_edge entryP selection a.1
    g.add_edge a.1 latch) g

/-- Source `Single::set_new_latch`. -/
def set_new_latch (g : ControlFlowGraph) (region : List Nat) (entry exit_ : Nat) :
    Nat × ControlFlowGraph :=
  let r := g.add_selection .B
  let g := set_break r.2 region r.1 exit_
  let g := set_continue g region r.1 entry
  let g := g.add_edge r.1 exit_
  let g := g.add_edge r.1 entry
  (r.1, g)

/-- Source `Single::find_or_set_latch`. -/
def find_or_set_latch (g : ControlFlowGraph) (region : List Nat) (entry exit_ : Nat) :
    Nat × ControlFlowGraph :=
  match find_latch g region entry exit_ with
  | some latch => (latch, g)
  | none => set_new_latch g region entry exit_

/-- Source `Single::run`: returns `(entry, latch)` and the updated
graph. -/
def run (g : ControlFlowGraph) (region : List Nat) : (Nat × Nat) × ControlFlowGraph :=
  let ee := find_entries_and_exits g region
  let r1 := find_or_set_entry g ee.1
  let r2 := find_or_set_exit r1.2 region ee.2
  let r3 := find_or_set_latch r2.2 region r1.1 r2.1
  ((r1.1, r3.1), r3.2)

end Single

/-- The slice of the shared instruction vector belonging to one block
(source `ControlFlowGraph::instructions(id)`). -/
def ControlFlowGraph.instructions_of (g : ControlFlowGraph) (id : Nat) : List Instruction :=
  (g.instructions.take (g.block id).stop).drop (g.block id).start

/-- The example graph refuting the literal reading of C3:
block 0 is an external predecessor of the region `{1, 2}`; block 2 is
the single *member-of-the-region* predecessor of both the entry 1 and
the exit 3 and has exactly two successors — but the exit 3 also jumps
back to the entry and, having an in-region predecessor, passes the
source's extended `in_region` test, so `find_latch` sees two candidate
repetitions and creates a new latch instead of reusing block 2. -/
def latchExampleGraph : ControlFlowGraph :=
  ⟨[], [⟨[], [1], 0, 0⟩, ⟨[0, 3, 2], [2], 0, 0⟩, ⟨[1], [1, 3], 0, 0⟩, ⟨[2], [1], 0, 0⟩]⟩

/-- C3, counterexample to the claim as stated: in `latchExampleGraph`
with region `[1, 2]`, the chosen entry is 1 and the chosen exit is 3;
block 2 is inside the region, is the single in-region predecessor of
the entry, the single in-region predecessor of the exit (excluding the
exit itself), and has exactly two successors — yet `Single::run` does
not return block 2 as the latch and does not leave the graph
unchanged: it builds a new latch selection block. -/
theorem single_latch_counterexample :
    ((2 : Nat) ∈ ([1, 2] : List Nat) ∧
      (latchExampleGraph.predecessors 1).filter
        (fun p => decide (p ∈ ([1, 2] : List Nat))) = [2] ∧
      (latchExampleGraph.predecessors 3).filter
        (fun p => decide (p ∈ ([1, 2] : List Nat) ∧ p ≠ 3)) = [2] ∧
      (latchExampleGraph.successors 2).length = 2) ∧
    Single.find_entries_and_exits latchExampleGraph [1, 2] = ([1], [3]) ∧
    (Single.run latchExampleGraph [1, 2]).1.2 ≠ 2 ∧
    (Single.run latchExampleGraph [1, 2]).2 ≠ latchExampleGraph := by
  decide

namespace ControlFlowGraph

theorem length_setBlock (g : ControlFlowGraph) (i : Nat) (b : CFGBasicBlock) :
    (g.setBlock i b).basic_blocks.length = g.basic_blocks.length := by
  simp [setBlock]

theorem instructions_setBlock (g : ControlFlowGraph) (i : Nat) (b : CFGBasicBlock) :
    (g.setBlock i b).instructions = g.instructions := rfl

theorem block_setBlock_self (g : ControlFlowGraph) (i : Nat) (b : CFGBasicBlock)
    (h : i < g.basic_blocks.length) : (g.setBlock i b).block i = b := by
  simp [block, setBlock, List.getD_eq_getElem?_getD, List.getElem?_set_self h]

theorem block_setBlock_ne (g : ControlFlowGraph) {i j : Nat} (b : CFGBasicBlock)
    (h : j ≠ i) : (g.setBlock i b).block j = g.block j := by
  simp [block, setBlock, List.getD_eq_getElem?_getD,
    List.getElem?_set_ne (Ne.symm h)]

/-- Out-of-range blocks read as the default block. -/
theorem block_of_le (g : ControlFlowGraph) {i : Nat}
    (h : g.basic_blocks.length ≤ i) : g.block i = .default := by
  simp [block, List.getD_eq_getElem?_getD, List.getElem?_eq_none h]

/-- Effect of `add_instruction` on every block: old ids unchanged, the
fresh id holds an empty single-instruction block. -/
theorem block_add_instruction (g : ControlFlowGraph) (instr : Instruction) (u : Nat) :
    (g.add_instruction instr).2.block u =
      if u = g.basic_blocks.length then
        ⟨[], [], g.instructions.length, g.instructions.length + 1⟩
      else g.block u := by
  by_cases h : u = g.basic_blocks.length
  · subst h
    simp [add_instruction, block, List.getD_eq_getElem?_getD,
      List.getElem?_append_right, le_refl]
  · rw [if_neg h]
    by_cases hlt : u < g.basic_blocks.length
    · simp [add_instruction, block, List.getD_eq_getElem?_getD,
        List.getElem?_append_left hlt]
    · have h1 : g.basic_blocks.length ≤ u := by omega
      have h2 : (g.add_instruction instr).2.basic_blocks.length ≤ u := by
        simp [add_instruction]
        omega
      rw [block_of_le g h1, block_of_le _ h2]

theorem add_instruction_fst (g : ControlFlowGraph) (instr : Instruction) :
    (g.add_instruction instr).1 = g.basic_blocks.length := rfl

theorem add_instruction_instructions (g : ControlFlowGraph) (instr : Instruction) :
    (g.add_instruction instr).2.instructions = g.instructions ++ [instr] := rfl

theorem add_instruction_length (g : ControlFlowGraph) (instr : Instruction) :
    (g.add_instruction instr).2.basic_blocks.length = g.basic_blocks.length + 1 := by
  simp [add_instruction]

/-- Effect of `add_edge u v` (for `u ≠ v`): `v` gains the predecessor,
`u` gains the successor, everything else is untouched. -/
theorem add_edge_spec (g : ControlFlowGraph) (u v : Nat) (huv : u ≠ v)
    (hu : u < g.basic_blocks.length) (hv : v < g.basic_blocks.length) :
    (g.add_edge u v).block v =
        { g.block v with predecessors := (g.block v).predecessors ++ [u] } ∧
      (g.add_edge u v).block u =
        { g.block u with successors := (g.block u).successors ++ [v] } ∧
      (∀ w, w ≠ u → w ≠ v → (g.add_edge u v).block w = g.block w) ∧
      (g.add_edge u v).basic_blocks.length = g.basic_blocks.length ∧
      (g.add_edge u v).instructions = g.instructions := by
  refine ⟨?_, ?_, ?_, ?_, ?_⟩
  · show ((g.setBlock v _).setBlock u _).block v = _
    rw [block_setBlock_ne _ _ (Ne.symm huv), block_setBlock_self _ _ _ hv]
  · show ((g.setBlock v _).setBlock u _).block u = _
    rw [block_setBlock_self _ _ _ (by rw [length_setBlock]; exact hu),
      block_setBlock_ne _ _ huv]
  · intro w hwu hwv
    show ((g.setBlock v _).setBlock u _).block w = _
    rw [block_setBlock_ne _ _ hwu, block_setBlock_ne _ _ hwv]
  · simp [add_edge, length_setBlock]
  · rfl

/-- Effect of `replace_edge from_ to_ new_` for pairwise-distinct
arguments. -/
theorem replace_edge_spec (g : ControlFlowGraph) (from_ to_ new_ : Nat)
    (hft : from_ ≠ to_) (hfn : from_ ≠ new_) (htn : to_ ≠ new_)
    (hf : from_ < g.basic_blocks.length) (ht : to_ < g.basic_blocks.length)
    (hn : new_ < g.basic_blocks.length) :
    (g.replace_edge from_ to_ new_).block from_ =
        { g.block from_ with
          successors := replaceFirst (g.block from_).successors to_ new_ } ∧
      (g.replace_edge from_ to_ new_).block to_ =
        { g.block to_ with
          predecessors := removeFirst (g.block to_).predecessors from_ } ∧
      (g.replace_edge from_ to_ new_).block new_ =
        { g.block new_ with
          predecessors := (g.block new_).predecessors ++ [from_] } ∧
      (∀ w, w ≠ from_ → w ≠ to_ → w ≠ new_ →
        (g.replace_edge from_ to_ new_).block w = g.block w) ∧
      (g.replace_edge from_ to_ new_).basic_blocks.length = g.basic_blocks.length ∧
      (g.replace_edge from_ to_ new_).instructions = g.instructions := by
  refine ⟨?_, ?_, ?_, ?_, ?_, ?_⟩
  · show (((g.setBlock from_ _).setBlock new_ _).setBlock to_ _).block from_ = _
    rw [block_setBlock_ne _ _ hft, block_setBlock_ne _ _ hfn,
      block_setBlock_self _ _ _ hf]
  · show (((g.setBlock from_ _).setBlock new_ _).setBlock to_ _).block to_ = _
    rw [block_setBlock_self _ _ _
        (by rw [length_setBlock, length_setBlock]; exact ht),
      block_setBlock_ne _ _ htn, block_setBlock_ne _ _ (Ne.symm hft)]
  · show (((g.setBlock from_ _).setBlock new_ _).setBlock to_ _).block new_ = _
    rw [block_setBlock_ne _ _ (Ne.symm htn),
      block_setBlock_self _ _ _ (by rw [length_setBlock]; exact hn),
      block_setBlock_ne _ _ (Ne.symm hfn)]
  · intro w hwf hwt hwn
    show (((g.setBlock from_ _).setBlock new_ _).setBlock to_ _).block w = _
    rw [block_setBlock_ne _ _ hwt, block_setBlock_ne _ _ hwn,
      block_setBlock_ne _ _ hwf]
  · simp [replace_edge, length_setBlock]
  · rfl

/-- Effect of `replace_edge` for a self-loop (`from_ = to_`). -/
theorem replace_edge_self_spec (g : ControlFlowGraph) (from_ new_ : Nat)
    (hfn : from_ ≠ new_) (hf : from_ < g.basic_blocks.length)
    (hn : new_ < g.basic_blocks.length) :
    (g.replace_edge from_ from_ new_).block from_ =
        { g.block from_ with
          successors := replaceFirst (g.block from_).successors from_ new_,
          predecessors := removeFirst (g.block from_).predecessors from_ } ∧
      (g.replace_edge from_ from_ new_).block new_ =
        { g.block new_ with
          predecessors := (g.block new_).predecessors ++ [from_] } ∧
      (∀ w, w ≠ from_ → w ≠ new_ →
        (g.replace_edge from_ from_ new_).block w = g.block w) ∧
      (g.replace_edge from_ from_ new_).basic_blocks.length = g.basic_blocks.length ∧
      (g.replace_edge from_ from_ new_).instructions = g.instructions := by
  refine ⟨?_, ?_, ?_, ?_, ?_⟩
  · show (((g.setBlock from_ _).setBlock new_ _).setBlock from_ _).block from_ = _
    rw [block_setBlock_self _ _ _
        (by rw [length_setBlock, length_setBlock]; exact hf),
      block_setBlock_ne _ _ hfn, block_setBlock_self _ _ _ hf]
  · show (((g.setBlock from_ _).setBlock new_ _).setBlock from_ _).block new_ = _
    rw [block_setBlock_ne _ _ (Ne.symm hfn),
      block_setBlock_self _ _ _ (by rw [length_setBlock]; exact hn),
      block_setBlock_ne _ _ (Ne.symm hfn)]
  · intro w hwf hwn
    show (((g.setBlock from_ _).setBlock new_ _).setBlock from_ _).block w = _
    rw [block_setBlock_ne _ _ hwf, block_setBlock_ne _ _ hwn,
      block_setBlock_ne _ _ hwf]
  · simp [replace_edge, length_setBlock]
  · rfl

end ControlFlowGraph

theorem replaceFirst_length (l : List Nat) (old new_ : Nat) :
    (ControlFlowGraph.replaceFirst l old new_).length = l.length := by
  induction l with
  | nil => rfl
  | cons x xs ih =>
    by_cases h : x = old <;> simp [ControlFlowGraph.replaceFirst, h, ih]

theorem replaceFirst_cons (y : Nat) (ys : List Nat) (old new_ : Nat) :
    ControlFlowGraph.replaceFirst (y :: ys) old new_ =
      if y = old then new_ :: ys
      else y :: ControlFlowGraph.replaceFirst ys old new_ := rfl

theorem replaceFirst_mem_of_ne (l : List Nat) (old new_ x : Nat)
    (hx : x ∈ l) (hne : x ≠ old) : x ∈ ControlFlowGraph.replaceFirst l old new_ := by
  induction l with
  | nil => simp at hx
  | cons y ys ih =>
    rw [replaceFirst_cons]
    by_cases h : y = old
    · rw [if_pos h]
      rcases List.mem_cons.mp hx with hx1 | hx2
      · exact absurd (hx1.trans h) hne
      · exact List.mem_cons_of_mem _ hx2
    · rw [if_neg h]
      rcases List.mem_cons.mp hx with hx1 | hx2
      · exact hx1 ▸ List.mem_cons_self _ _
      · exact List.mem_cons_of_mem _ (ih hx2)

theorem mem_replaceFirst_new (l : List Nat) (old new_ : Nat) (h : old ∈ l) :
    new_ ∈ ControlFlowGraph.replaceFirst l old new_ := by
  induction l with
  | nil => simp at h
  | cons y ys ih =>
    rw [replaceFirst_cons]
    by_cases hy : y = old
    · rw [if_pos hy]
      exact List.mem_cons_self _ _
    · rw [if_neg hy]
      rcases List.mem_cons.mp h with h1 | h2
      · exact absurd h1.symm hy
      · exact List.mem_cons_of_mem _ (ih h2)

theorem not_mem_replaceFirst (l : List Nat) (old new_ : Nat)
    (hnodup : l.Nodup) (hne : new_ ≠ old) :
    old ∉ ControlFlowGraph.replaceFirst l old new_ := by
  induction l with
  | nil => simp [ControlFlowGraph.replaceFirst]
  | cons y ys ih =>
    obtain ⟨hy, hys⟩ := List.nodup_cons.mp hnodup
    rw [replaceFirst_cons]
    by_cases h : y = old
    · rw [if_pos h]
      intro hc
      rcases List.mem_cons.mp hc with hc | hc
      · exact hne hc.symm
      · exact hy (h ▸ hc)
    · rw [if_neg h]
      intro hc
      rcases List.mem_cons.mp hc with hc | hc
      · exact h hc.symm
      · exact ih hys hc

theorem not_mem_replaceFirst_of_not_mem (l : List Nat) (old new_ x : Nat)
    (hx : x ∉ l) (hne : x ≠ new_) : x ∉ ControlFlowGraph.replaceFirst l old new_ := by
  induction l with
  | nil => simp [ControlFlowGraph.replaceFirst]
  | cons y ys ih =>
    have hxy : x ≠ y := fun hc => hx (hc ▸ List.mem_cons_self y ys)
    have hxs : x ∉ ys := fun hc => hx (List.mem_cons_of_mem y hc)
    rw [replaceFirst_cons]
    by_cases h : y = old
    · rw [if_pos h]
      intro hc
      rcases List.mem_cons.mp hc with hc | hc
      · exact hne hc
      · exact hxs hc
    · rw [if_neg h]
      intro hc
      rcases List.mem_cons.mp hc with hc | hc
      · exact hxy hc
      · exact ih hxs hc

/-- Instruction slices are stable under pure appends that leave the
block record intact. -/
theorem instructions_of_stable (g g2 : ControlFlowGraph) (u : Nat)
    (hb : g2.block u = g.block u)
    (hi : ∃ extra, g2.instructions = g.instructions ++ extra)
    (hstop : (g.block u).stop ≤ g.instructions.length) :
    g2.instructions_of u = g.instructions_of u := by
  obtain ⟨extra, he⟩ := hi
  rw [ControlFlowGraph.instructions_of, ControlFlowGraph.instructions_of, hb, he,
    List.take_append_of_le_length hstop]

/-- Adjacency-list sanity of a control-flow graph, as the builder
produces it: duplicate-free edge lists and matching
predecessor/successor records. -/
def ConsistentCFG (g : ControlFlowGraph) : Prop :=
  (∀ u < g.basic_blocks.length,
    (g.block u).predecessors.Nodup ∧ (g.block u).successors.Nodup) ∧
  (∀ u < g.basic_blocks.length, ∀ v < g.basic_blocks.length,
    (v ∈ (g.block u).successors ↔ u ∈ (g.block v).predecessors)) ∧
  (∀ u < g.basic_blocks.length, ∀ v ∈ (g.block u).successors,
    v < g.basic_blocks.length) ∧
  (∀ u < g.basic_blocks.length, ∀ v ∈ (g.block u).predecessors,
    v < g.basic_blocks.length)

instance (g : ControlFlowGraph) : Decidable (ConsistentCFG g) := by
  unfold ConsistentCFG
  infer_instance

theorem ConsistentCFG.pred_lt {g : ControlFlowGraph} (h : ConsistentCFG g)
    {u v : Nat} (hv : v < g.basic_blocks.length)
    (hu : u ∈ (g.block v).predecessors) : u < g.basic_blocks.length :=
  h.2.2.2 v hv u hu

theorem ConsistentCFG.succ_of_pred {g : ControlFlowGraph} (h : ConsistentCFG g)
    {u v : Nat} (hv : v < g.basic_blocks.length)
    (hu : u ∈ (g.block v).predecessors) : v ∈ (g.block u).successors :=
  (h.2.1 u (h.pred_lt hv hu) v hv).mpr hu

/-- One break/continue rerouting step shared by `Single::set_break` and
`Single::set_continue`: allocate a `B := value` assignment block,
redirect the edge `p → target` into it, and link it to the latch. -/
def Single.reroute (latch target value : Nat) (g : ControlFlowGraph) (p : Nat) :
    ControlFlowGraph :=
  let a := g.add_assignment .B value
  let g := a.2.replace_edge p target a.1
  g.add_edge a.1 latch

theorem Single.set_break_eq (g : ControlFlowGraph) (region : List Nat)
    (latch selection : Nat) :
    Single.set_break g region latch selection =
      ((g.predecessors selection).filter
        (fun id => Single.in_region_acyclic g region id selection)).foldl
        (Single.reroute latch selection 0) g := rfl

theorem Single.set_continue_eq (g : ControlFlowGraph) (region : List Nat)
    (latch selection : Nat) :
    Single.set_continue g region latch selection =
      ((g.predecessors selection).filter
        (fun id => Single.in_region g region id)).foldl
        (Single.reroute latch selection 1) g := rfl

/-- The exact reuse test of `Single::find_latch`: `x` is the only
predecessor of the entry passing `in_region`, the only predecessor of
the exit passing `in_region_acyclic`, and has two successors. -/
def Single.latchCondition (g : ControlFlowGraph) (region : List Nat)
    (entry exit_ x : Nat) : Prop :=
  (g.predecessors entry).filter (fun id => Single.in_region g region id) = [x] ∧
    (g.predecessors exit_).filter
      (fun id => Single.in_region_acyclic g region id exit_) = [x] ∧
    (g.successors x).length = 2

/-- Modelled from the spec: the shape the new-latch path is claimed to
produce.  The run keeps the entry, returns a fresh latch selection
block holding a `LocalBranch` on `B` whose successors are the exit then
the entry; every break predecessor of the exit is rerouted through a
fresh `B := 0` block into the latch (and loses its edge to the exit),
and every continue predecessor of the entry other than the exit itself
is rerouted through a fresh `B := 1` block into the latch. -/
def Single.SpecNewLatchStructure (g : ControlFlowGraph) (region : List Nat)
    (entry exit_ : Nat) (result : (Nat × Nat) × ControlFlowGraph) : Prop :=
  result.1.1 = entry ∧
    result.1.2 = g.basic_blocks.length ∧
    result.2.instructions_of g.basic_blocks.length =
      [Instruction.LocalBranch Name.B.toU16] ∧
    (result.2.block g.basic_blocks.length).successors = [exit_, entry] ∧
    (∀ p ∈ (g.predecessors exit_).filter
        (fun id => Single.in_region_acyclic g region id exit_),
      ∃ a, g.basic_blocks.length < a ∧ a < result.2.basic_blocks.length ∧
        result.2.instructions_of a = [Instruction.I32Constant Name.B.toU16 0] ∧
        (result.2.block a).predecessors = [p] ∧
        (result.2.block a).successors = [g.basic_blocks.length] ∧
        a ∈ (result.2.block p).successors ∧
        exit_ ∉ (result.2.block p).successors) ∧
    (∀ q ∈ (g.predecessors entry).filter
        (fun id => decide (id ≠ exit_) && Single.in_region g region id),
      ∃ b, g.basic_blocks.length < b ∧ b < result.2.basic_blocks.length ∧
        result.2.instructions_of b = [Instruction.I32Constant Name.B.toU16 1] ∧
        (result.2.block b).predecessors = [q] ∧
        (result.2.block b).successors = [g.basic_blocks.length] ∧
        b ∈ (result.2.block q).successors)

theorem Single.find_latch_eq_some_iff (g : ControlFlowGraph) (region : List Nat)
    (entry exit_ x : Nat) :
    Single.find_latch g region entry exit_ = some x ↔
      Single.latchCondition g region entry exit_ x := by
  rw [Single.find_latch, Single.latchCondition]
  cases h1 : (g.predecessors entry).filter (fun id => Single.in_region g region id) with
  | nil => simp
  | cons r rs =>
    cases hrs : rs with
    | cons r2 rs2 => simp [hrs]
    | nil =>
      subst hrs
      cases h2 : (g.predecessors exit_).filter
          (fun id => Single.in_region_acyclic g region id exit_) with
      | nil => simp
      | cons e es =>
        cases hes : es with
        | cons e2 es2 => simp [hes]
        | nil =>
          subst hes
          show (if r = e ∧ (g.successors r).length = 2 then some r else none)
              = some x ↔ _
          by_cases hc : r = e ∧ (g.successors r).length = 2
          · rw [if_pos hc]
            obtain ⟨hre, hlen⟩ := hc
            subst hre
            constructor
            · intro hx
              have hx2 : r = x := by
                simpa using hx
              subst hx2
              exact ⟨rfl, rfl, hlen⟩
            · intro ⟨ha, _, _⟩
              have : r = x := by
                simpa using ha
              simp [this]
          · rw [if_neg hc]
            simp only [false_iff, reduceCtorEq, not_and]
            intro ha hb
            have hr : r = x := by simpa using ha
            have he2 : e = x := by simpa using hb
            intro hlen
            exact hc ⟨hr.trans he2.symm, hr ▸ hlen⟩

/-- Under uniquely determined entry and exit, `Single::run` is
`find_or_set_latch` on the unchanged graph. -/
theorem Single.run_eq_of_unique (g : ControlFlowGraph) (region : List Nat)
    (entry exit_ : Nat)
    (he : Single.find_entries_and_exits g region = ([entry], [exit_])) :
    Single.run g region =
      ((entry, (Single.find_or_set_latch g region entry exit_).1),
        (Single.find_or_set_latch g region entry exit_).2) := by
  rw [Single.run, he]
  rfl

/-- Full effect of one rerouting step on every block of the graph. -/
theorem Single.reroute_spec (g : ControlFlowGraph) (latch target value p : Nat)
    (hp : p < g.basic_blocks.length) (ht : target < g.basic_blocks.length)
    (hl : latch < g.basic_blocks.length) (hlt : latch ≠ target) (hlp : latch ≠ p) :
    (Single.reroute latch target value g p).basic_blocks.length
        = g.basic_blocks.length + 1 ∧
      (Single.reroute latch target value g p).instructions =
        g.instructions ++ [Instruction.I32Constant Name.B.toU16 value] ∧
      (Single.reroute latch target value g p).block g.basic_blocks.length =
        ⟨[p], [latch], g.instructions.length, g.instructions.length + 1⟩ ∧
      (∀ u, u ≠ g.basic_blocks.length → u ≠ p → u ≠ target → u ≠ latch →
        (Single.reroute latch target value g p).block u = g.block u) ∧
      (p ≠ target → (Single.reroute latch target value g p).block p =
        { g.block p with successors := (ControlFlowGraph.replaceFirst
            (g.block p).successors target g.basic_blocks.length) }) ∧
      (p ≠ target → (Single.reroute latch target value g p).block target =
        { g.block target with predecessors := (ControlFlowGraph.removeFirst
            (g.block target).predecessors p) }) ∧
      (p = target → (Single.reroute latch target value g p).block p =
        { g.block p with
          predecessors := ControlFlowGraph.removeFirst (g.block p).predecessors p,
          successors := (ControlFlowGraph.replaceFirst
            (g.block p).successors target g.basic_blocks.length) }) ∧
      (Single.reroute latch target value g p).block latch =
        { g.block latch with predecessors :=
            (g.block latch).predecessors ++ [g.basic_blocks.length] } := by
  have hre : Single.reroute latch target value g p =
      ((g.add_instruction (Instruction.I32Constant Name.B.toU16 value)).2.replace_edge
        p target g.basic_blocks.length).add_edge g.basic_blocks.length latch := rfl
  have hAblock := fun u => ControlFlowGraph.block_add_instruction g
    (Instruction.I32Constant Name.B.toU16 value) u
  have hAlen := ControlFlowGraph.add_instruction_length g
    (Instruction.I32Constant Name.B.toU16 value)
  have hAinstr := ControlFlowGraph.add_instruction_instructions g
    (Instruction.I32Constant Name.B.toU16 value)
  have hpn : p ≠ g.basic_blocks.length := by omega
  have htn : target ≠ g.basic_blocks.length := by omega
  have hln : latch ≠ g.basic_blocks.length := by omega
  have hABp : (g.add_instruction
      (Instruction.I32Constant Name.B.toU16 value)).2.block p = g.block p := by
    rw [hAblock p, if_neg hpn]
  have hABt : (g.add_instruction
      (Instruction.I32Constant Name.B.toU16 value)).2.block target = g.block target := by
    rw [hAblock target, if_neg htn]
  have hABl : (g.add_instruction
      (Instruction.I32Constant Name.B.toU16 value)).2.block latch = g.block latch := by
    rw [hAblock latch, if_neg hln]
  have hABn : (g.add_instruction
      (Instruction.I32Constant Name.B.toU16 value)).2.block g.basic_blocks.length =
      ⟨[], [], g.instructions.length, g.instructions.length + 1⟩ := by
    rw [hAblock _, if_pos rfl]
  by_cases hpt : p = target
  · subst hpt
    obtain ⟨hRf, hRn, hRw, hRlen, hRinstr⟩ :=
      ControlFlowGraph.replace_edge_self_spec
        (g.add_instruction (Instruction.I32Constant Name.B.toU16 value)).2
        p g.basic_blocks.length hpn (by omega) (by omega)
    obtain ⟨hEv, hEu, hEw, hElen, hEinstr⟩ := ControlFlowGraph.add_edge_spec
      ((g.add_instruction (Instruction.I32Constant Name.B.toU16 value)).2.replace_edge
        p p g.basic_blocks.length)
      g.basic_blocks.length latch (Ne.symm hln) (by omega) (by omega)
    rw [hre]
    refine ⟨?_, ?_, ?_, ?_, ?_, ?_, ?_, ?_⟩
    · rw [hElen, hRlen, hAlen]
    · rw [hEinstr, hRinstr, hAinstr]
    · rw [hEu, hRn, hABn]
      rfl
    · intro u hun hup hut hul
      rw [hEw u hun hul, hRw u hup hun, hAblock u, if_neg hun]
    · intro hc
      exact absurd rfl hc
    · intro hc
      exact absurd rfl hc
    · intro _
      rw [hEw p hpn (Ne.symm hlp), hRf, hABp]
    · rw [hEv, hRw latch hlp hln, hABl]
  · obtain ⟨hRf, hRt, hRn, hRw, hRlen, hRinstr⟩ :=
      ControlFlowGraph.replace_edge_spec
        (g.add_instruction (Instruction.I32Constant Name.B.toU16 value)).2
        p target g.basic_blocks.length hpt hpn htn (by omega) (by omega) (by omega)
    obtain ⟨hEv, hEu, hEw, hElen, hEinstr⟩ := ControlFlowGraph.add_edge_spec
      ((g.add_instruction (Instruction.I32Constant Name.B.toU16 value)).2.replace_edge
        p target g.basic_blocks.length)
      g.basic_blocks.length latch (Ne.symm hln) (by omega) (by omega)
    rw [hre]
    refine ⟨?_, ?_, ?_, ?_, ?_, ?_, ?_, ?_⟩
    · rw [hElen, hRlen, hAlen]
    · rw [hEinstr, hRinstr, hAinstr]
    · rw [hEu, hRn, hABn]
      rfl
    · intro u hun hup hut hul
      rw [hEw u hun hul, hRw u hup hut hun, hAblock u, if_neg hun]
    · intro _
      rw [hEw p hpn (Ne.symm hlp), hRf, hABp]
    · intro _
      rw [hEw target htn (Ne.symm hlt), hRt, hABt]
    · intro hc
      exact absurd hc hpt
    · rw [hEv, hRw latch hlp hlt hln, hABl]

theorem take_snoc_drop {α : Type} (l : List α) (c : α) :
    ((l ++ [c]).take (l.length + 1)).drop l.length = [c] := by
  rw [List.take_of_length_le (by simp)]
  exact List.drop_left l [c]

/-- Cumulative effect of the `set_break`/`set_continue` folds: one fresh
assignment block per rerouted predecessor, each spliced into the edge
towards `target` and flowing into `latch`. -/
theorem Single.rerouteFold_spec (latch target value : Nat) :
    ∀ (temp : List Nat) (g : ControlFlowGraph),
      temp.Nodup →
      (∀ q ∈ temp, q < g.basic_blocks.length) →
      (∀ q ∈ temp, q ∈ (g.block target).predecessors) →
      target < g.basic_blocks.length →
      latch < g.basic_blocks.length →
      latch ≠ target → latch ∉ temp →
      (g.block target).predecessors.Nodup →
      (temp.foldl (Single.reroute latch target value) g).basic_blocks.length
          = g.basic_blocks.length + temp.length ∧
        (temp.foldl (Single.reroute latch target value) g).instructions =
          g.instructions ++ List.replicate temp.length
            (Instruction.I32Constant Name.B.toU16 value) ∧
        (∀ u, u < g.basic_blocks.length → u ∉ temp → u ≠ target → u ≠ latch →
          (temp.foldl (Single.reroute latch target value) g).block u = g.block u) ∧
        (∀ u, u < g.basic_blocks.length → u ≠ target → u ≠ latch →
          ((temp.foldl (Single.reroute latch target value) g).block u).predecessors
            = (g.block u).predecessors) ∧
        ((temp.foldl (Single.reroute latch target value) g).block latch).successors
            = (g.block latch).successors ∧
        ((temp.foldl (Single.reroute latch target value) g).block latch).start
            = (g.block latch).start ∧
        ((temp.foldl (Single.reroute latch target value) g).block latch).stop
            = (g.block latch).stop ∧
        (target ∉ temp →
          ((temp.foldl (Single.reroute latch target value) g).block target).successors
            = (g.block target).successors) ∧
        (∀ pr, pr ∈ ((temp.foldl (Single.reroute latch target value) g).block
              target).predecessors ↔
            pr ∈ (g.block target).predecessors ∧ pr ∉ temp) ∧
        ((temp.foldl (Single.reroute latch target value) g).block
            target).predecessors.Nodup ∧
        (∀ q ∈ temp, ∃ a s, g.basic_blocks.length ≤ a ∧
          a < (temp.foldl (Single.reroute latch target value) g).basic_blocks.length ∧
          (temp.foldl (Single.reroute latch target value) g).block a
            = ⟨[q], [latch], s, s + 1⟩ ∧
          s + 1 ≤ (temp.foldl (Single.reroute latch target value) g).instructions.length ∧
          (temp.foldl (Single.reroute latch target value) g).instructions_of a
            = [Instruction.I32Constant Name.B.toU16 value] ∧
          ((temp.foldl (Single.reroute latch target value) g).block q).successors
            = ControlFlowGraph.replaceFirst (g.block q).successors target a) := by
  intro temp
  induction temp with
  | nil =>
    intro g hnd hql hqm ht hl hltne hlnin hndp
    simp [hndp]
  | cons p rest ih =>
    intro g hnd hql hqm ht hl hltne hlnin hndp
    simp only [List.foldl_cons]
    obtain ⟨hnd1, hnd2⟩ := List.nodup_cons.mp hnd
    have hp : p < g.basic_blocks.length := hql p (List.mem_cons_self _ _)
    have hlp : latch ≠ p :=
      fun hc => hlnin (List.mem_cons.mpr (Or.inl hc))
    have hlnin1 : latch ∉ rest :=
      fun hc => hlnin (List.mem_cons_of_mem _ hc)
    obtain ⟨h1len, h1instr, h1n, h1frame, h1p, h1t, h1self, h1latch⟩ :=
      Single.reroute_spec g latch target value p hp ht hl hltne hlp
    have hTpred : ((Single.reroute latch target value g p).block target).predecessors
        = ControlFlowGraph.removeFirst (g.block target).predecessors p := by
      by_cases hpt : p = target
      · subst hpt
        rw [h1self rfl]
      · rw [h1t hpt]
    have hql1 : ∀ q ∈ rest, q < (Single.reroute latch target value g p).basic_blocks.length := by
      intro q hq
      have := hql q (List.mem_cons_of_mem _ hq)
      omega
    have hqm1 : ∀ q ∈ rest,
        q ∈ ((Single.reroute latch target value g p).block target).predecessors := by
      intro q hq
      rw [hTpred]
      have hqp : q ≠ p := fun hc => hnd1 (hc ▸ hq)
      have hqin : q ∈ (g.block target).predecessors :=
        hqm q (List.mem_cons_of_mem _ hq)
      exact (List.Nodup.mem_erase_iff hndp).mpr ⟨hqp, hqin⟩
    have hndp1 : ((Single.reroute latch target value g p).block target).predecessors.Nodup := by
      rw [hTpred]
      exact List.Nodup.erase p hndp
    obtain ⟨iA, iB, iC, iD, iE1, iE2, iE3, iF, iG, iH, iI⟩ :=
      ih (Single.reroute latch target value g p) hnd2 hql1 hqm1
        (by omega) (by omega) hltne hlnin1 hndp1
    refine ⟨?_, ?_, ?_, ?_, ?_, ?_, ?_, ?_, ?_, iH, ?_⟩
    · rw [iA, h1len, List.length_cons]
      omega
    · rw [iB, h1instr, List.length_cons, List.replicate_succ]
      simp
    · intro u hu hnin hut hul
      have hup : u ≠ p := fun hc => hnin (List.mem_cons.mpr (Or.inl hc))
      have hur : u ∉ rest := fun hc => hnin (List.mem_cons_of_mem _ hc)
      rw [iC u (by omega) hur hut hul, h1frame u (by omega) hup hut hul]
    · intro u hu hut hul
      have hD := iD u (by omega) hut hul
      by_cases hup : u = p
      · subst hup
        rw [hD, h1p hut]
      · rw [hD, h1frame u (by omega) hup hut hul]
    · rw [iE1, h1latch]
    · rw [iE2, h1latch]
    · rw [iE3, h1latch]
    · intro hnin
      have hntp : target ≠ p := fun hc => hnin (List.mem_cons.mpr (Or.inl hc))
      have hntr : target ∉ rest := fun hc => hnin (List.mem_cons_of_mem _ hc)
      rw [iF hntr, h1t (Ne.symm hntp)]
    · intro pr
      have hstep : pr ∈ ((Single.reroute latch target value g p).block
            target).predecessors ↔
          pr ≠ p ∧ pr ∈ (g.block target).predecessors := by
        rw [hTpred]
        exact List.Nodup.mem_erase_iff hndp
      rw [iG pr, hstep]
      constructor
      · rintro ⟨⟨hnp, hmem⟩, hnr⟩
        refine ⟨hmem, ?_⟩
        intro hc
        rcases List.mem_cons.mp hc with hc | hc
        · exact hnp hc
        · exact hnr hc
      · rintro ⟨hmem, hnc⟩
        refine ⟨⟨?_, hmem⟩, ?_⟩
        · intro hc
          exact hnc (hc ▸ List.mem_cons_self _ _)
        · intro hc
          exact hnc (List.mem_cons_of_mem _ hc)
    · intro q hq
      rcases List.mem_cons.mp hq with hqp | hqr
      · subst hqp
        have hanr : g.basic_blocks.length ∉ rest := by
          intro hc
          have := hql _ (List.mem_cons_of_mem _ hc)
          omega
        have hapres : (rest.foldl (Single.reroute latch target value)
              (Single.reroute latch target value g q)).block g.basic_blocks.length =
            (Single.reroute latch target value g q).block g.basic_blocks.length :=
          iC g.basic_blocks.length (by omega) hanr (by omega) (by omega)
        refine ⟨g.basic_blocks.length, g.instructions.length, le_refl _, by omega,
          ?_, ?_, ?_, ?_⟩
        · rw [hapres, h1n]
        · rw [iB, h1instr]
          simp
        · rw [Spider.instructions_of_stable
            (Single.reroute latch target value g q) _ _ hapres
            ⟨_, iB⟩ (by rw [h1n, h1instr]; simp)]
          rw [ControlFlowGraph.instructions_of, h1n, h1instr]
          exact take_snoc_drop _ _
        · by_cases hpt : q = target
          · subst hpt
            rw [iF hnd1, h1self rfl]
          · have h2b := iC q (by omega) hnd1 hpt (Ne.symm hlp)
            rw [h2b, h1p hpt]
      · obtain ⟨a, s, ha1, ha2, ha3, ha4, ha5, ha6⟩ := iI q hqr
        have hpq : p ≠ q := fun hc => hnd1 (hc ▸ hqr)
        have hq1 : ((Single.reroute latch target value g p).block q).successors
            = (g.block q).successors := by
          by_cases hqt : q = target
          · have hpt : p ≠ target := fun hc => hpq (hc.trans hqt.symm)
            rw [hqt, h1t hpt]
          · have hqlen : q < g.basic_blocks.length :=
              hql q (List.mem_cons_of_mem _ hqr)
            have hqlatch : q ≠ latch :=
              fun hc => hlnin1 (hc ▸ hqr)
            rw [h1frame q (by omega) (Ne.symm hpq) hqt hqlatch]
        refine ⟨a, s, by omega, ha2, ha3, ha4, ha5, ?_⟩
        rw [ha6, hq1]

theorem slice_of_append {α : Type} (l1 : List α) (c : α) (l2 : List α) :
    (((l1 ++ [c]) ++ l2).take (l1.length + 1)).drop l1.length = [c] := by
  rw [List.take_append_of_le_length (by simp)]
  exact take_snoc_drop l1 c

/-- `Single::set_new_latch` on a consistent graph builds exactly the
structure the spec describes. -/
theorem Single.set_new_latch_spec (g : ControlFlowGraph) (region : List Nat)
    (entry exit_ : Nat) (hcons : ConsistentCFG g)
    (hentry : entry < g.basic_blocks.length)
    (hexit : exit_ < g.basic_blocks.length)
    (hne : entry ≠ exit_) (hexreg : exit_ ∉ region) :
    (Single.set_new_latch g region entry exit_).1 = g.basic_blocks.length ∧
      Single.SpecNewLatchStructure g region entry exit_
        ((entry, (Single.set_new_latch g region entry exit_).1),
          (Single.set_new_latch g region entry exit_).2) := by
  set gS := (g.add_selection Name.B).2 with hgSdef
  set tempB := (g.predecessors exit_).filter
    (fun id => Single.in_region_acyclic g region id exit_) with htBdef
  set gB := tempB.foldl
    (Single.reroute g.basic_blocks.length exit_ 0) gS with hgBdef
  set tempC := (g.predecessors entry).filter
    (fun id => decide (id ≠ exit_) && Single.in_region g region id) with htCdef
  set gC := tempC.foldl
    (Single.reroute g.basic_blocks.length entry 1) gB with hgCdef
  set gD := gC.add_edge g.basic_blocks.length exit_ with hgDdef
  set gE := gD.add_edge g.basic_blocks.length entry with hgEdef
  -- facts about the selection step
  have hSblock : ∀ u, gS.block u =
      if u = g.basic_blocks.length then
        ⟨[], [], g.instructions.length, g.instructions.length + 1⟩
      else g.block u := by
    intro u
    rw [hgSdef]
    exact ControlFlowGraph.block_add_instruction g _ u
  have hSb : ∀ u, u ≠ g.basic_blocks.length → gS.block u = g.block u := by
    intro u hu
    rw [hSblock u, if_neg hu]
  have hSn : gS.block g.basic_blocks.length =
      ⟨[], [], g.instructions.length, g.instructions.length + 1⟩ := by
    rw [hSblock _, if_pos rfl]
  have hSlen : gS.basic_blocks.length = g.basic_blocks.length + 1 := by
    rw [hgSdef]
    exact ControlFlowGraph.add_instruction_length g _
  have hSinstr : gS.instructions =
      g.instructions ++ [Instruction.LocalBranch Name.B.toU16] := by
    rw [hgSdef]
    exact ControlFlowGraph.add_instruction_instructions g _
  -- elements of the break list
  have htBmem : ∀ q ∈ tempB, q ∈ (g.block exit_).predecessors := by
    intro q hq
    exact List.mem_of_mem_filter hq
  have htBlt : ∀ q ∈ tempB, q < g.basic_blocks.length := by
    intro q hq
    exact hcons.pred_lt hexit (htBmem q hq)
  have htBne : ∀ q ∈ tempB, q ≠ exit_ := by
    intro q hq
    have := List.of_mem_filter hq
    simp [Single.in_region_acyclic] at this
    exact this.1
  -- the break fold
  obtain ⟨bA, bB, bC, bD, bE1, bE2, bE3, bF, bG, bH, bI⟩ :=
    Single.rerouteFold_spec g.basic_blocks.length exit_ 0 tempB gS
      (List.Nodup.filter _ (hcons.1 exit_ hexit).1)
      (fun q hq => by have := htBlt q hq; omega)
      (fun q hq => by rw [hSb exit_ (by omega)]; exact htBmem q hq)
      (by omega) (by omega) (by omega)
      (fun hc => by have := htBlt _ hc; omega)
      (by rw [hSb exit_ (by omega)]; exact (hcons.1 exit_ hexit).1)
  rw [← hgBdef] at bA bB bC bD bE1 bE2 bE3 bF bG bH bI
  -- predecessors in the graph after the break fold
  have hpredsB : ∀ u, u < g.basic_blocks.length → u ≠ exit_ →
      (gB.block u).predecessors = (g.block u).predecessors := by
    intro u hu hue
    rw [bD u (by omega) hue (by omega), hSb u (by omega)]
  -- elements of the continue list
  have htCmem : ∀ q ∈ tempC, q ∈ (g.block entry).predecessors := by
    intro q hq
    exact List.mem_of_mem_filter hq
  have htClt : ∀ q ∈ tempC, q < g.basic_blocks.length := by
    intro q hq
    exact hcons.pred_lt hentry (htCmem q hq)
  have htCne : ∀ q ∈ tempC, q ≠ exit_ := by
    intro q hq
    have := List.of_mem_filter hq
    simp at this
    exact this.1
  -- the continue fold
  obtain ⟨cA, cB2, cC, cD, cE1, cE2, cE3, cF, cG, cH, cI⟩ :=
    Single.rerouteFold_spec g.basic_blocks.length entry 1 tempC gB
      (List.Nodup.filter _ (hcons.1 entry hentry).1)
      (fun q hq => by have := htClt q hq; omega)
      (fun q hq => by rw [hpredsB entry hentry hne]; exact htCmem q hq)
      (by omega) (by omega) (by omega)
      (fun hc => by have := htClt _ hc; omega)
      (by rw [hpredsB entry hentry hne]; exact (hcons.1 entry hentry).1)
  rw [← hgCdef] at cA cB2 cC cD cE1 cE2 cE3 cF cG cH cI
  -- final edges
  obtain ⟨d1v, d1u, d1w, d1len, d1instr⟩ := ControlFlowGraph.add_edge_spec gC
    g.basic_blocks.length exit_ (by omega) (by omega) (by omega)
  rw [← hgDdef] at d1v d1u d1w d1len d1instr
  obtain ⟨d2v, d2u, d2w, d2len, d2instr⟩ := ControlFlowGraph.add_edge_spec gD
    g.basic_blocks.length entry (by omega) (by omega) (by omega)
  rw [← hgEdef] at d2v d2u d2w d2len d2instr
  -- the filter computed inside set_break equals the one over the input graph
  have hinS : ∀ x, x < g.basic_blocks.length →
      Single.in_region gS region x = Single.in_region g region x := by
    intro x hx
    simp only [Single.in_region, ControlFlowGraph.predecessors, hSb x (by omega)]
  have hfBS : (gS.predecessors exit_).filter
      (fun id => Single.in_region_acyclic gS region id exit_) = tempB := by
    rw [htBdef]
    rw [show gS.predecessors exit_ = g.predecessors exit_ from by
      simp only [ControlFlowGraph.predecessors, hSb exit_ (by omega)]]
    apply List.filter_congr
    intro x hx
    have hxlt : x < g.basic_blocks.length := hcons.pred_lt hexit hx
    simp only [Single.in_region_acyclic, hinS x hxlt]
  -- after the break fold the exit has no in-region predecessor left
  have hBexit_noregion : ∀ pr ∈ (gB.block exit_).predecessors, pr ∉ region := by
    intro pr hpr hprreg
    obtain ⟨hprS, hprnB⟩ := (bG pr).mp hpr
    rw [hSb exit_ (by omega)] at hprS
    apply hprnB
    rw [htBdef]
    refine List.mem_filter.mpr ⟨hprS, ?_⟩
    have hprne : pr ≠ exit_ := fun hc => hexreg (hc ▸ hprreg)
    simp [Single.in_region_acyclic, Single.in_region, hprne, hprreg]
  have hfCB : (gB.predecessors entry).filter
      (fun id => Single.in_region gB region id) = tempC := by
    rw [htCdef]
    rw [show gB.predecessors entry = g.predecessors entry from by
      simp only [ControlFlowGraph.predecessors, hpredsB entry hentry hne]]
    apply List.filter_congr
    intro x hx
    have hxlt : x < g.basic_blocks.length := hcons.pred_lt hentry hx
    by_cases hxe : x = exit_
    · subst hxe
      have h1 : Single.in_region gB region x = false := by
        simp only [Single.in_region, ControlFlowGraph.predecessors]
        rw [Bool.or_eq_false_iff]
        constructor
        · simpa using hexreg
        · rw [List.any_eq_false]
          intro pr hpr
          simpa using hBexit_noregion pr hpr
      rw [h1]
      simp
    · have h2 : Single.in_region gB region x = Single.in_region g region x := by
        simp only [Single.in_region, ControlFlowGraph.predecessors,
          hpredsB x hxlt hxe]
      rw [h2]
      simp [hxe]
  -- the whole pipeline
  have hsnl : Single.set_new_latch g region entry exit_ =
      (g.basic_blocks.length, gE) := by
    have e0 : Single.set_new_latch g region entry exit_ =
        (g.basic_blocks.length,
          ((Single.set_continue
              (Single.set_break gS region g.basic_blocks.length exit_)
              region g.basic_blocks.length entry).add_edge
            g.basic_blocks.length exit_).add_edge g.basic_blocks.length entry) := by
      rw [hgSdef]
      rfl
    rw [e0, Single.set_break_eq, hfBS, ← hgBdef, Single.set_continue_eq, hfCB,
      ← hgCdef, ← hgDdef, ← hgEdef]
  -- latch block bookkeeping
  have hCnstart : (gC.block g.basic_blocks.length).start = g.instructions.length := by
    rw [cE2, bE2, hSn]
  have hCnstop : (gC.block g.basic_blocks.length).stop = g.instructions.length + 1 := by
    rw [cE3, bE3, hSn]
  have hCnsucc : (gC.block g.basic_blocks.length).successors = [] := by
    rw [cE1, bE1, hSn]
  have hEnstart : (gE.block g.basic_blocks.length).start = g.instructions.length := by
    simp only [d2u, d1u]
    exact hCnstart
  have hEnstop : (gE.block g.basic_blocks.length).stop = g.instructions.length + 1 := by
    simp only [d2u, d1u]
    exact hCnstop
  have hinstrE : gE.instructions =
      (g.instructions ++ [Instruction.LocalBranch Name.B.toU16]) ++
        (List.replicate tempB.length (Instruction.I32Constant Name.B.toU16 0) ++
          List.replicate tempC.length (Instruction.I32Constant Name.B.toU16 1)) := by
    rw [d2instr, d1instr, cB2, bB, hSinstr]
    simp [List.append_assoc]
  rw [hsnl]
  refine ⟨rfl, ?_⟩
  simp only [Single.SpecNewLatchStructure]
  rw [← htBdef, ← htCdef]
  refine ⟨trivial, trivial, ?_, ?_, ?_, ?_⟩
  · -- the latch selection block holds exactly the branch instruction
    rw [ControlFlowGraph.instructions_of, hEnstart, hEnstop, hinstrE]
    exact slice_of_append _ _ _
  · -- its successors are the exit then the entry
    simp only [d2u, d1u]
    rw [hCnsucc]
    rfl
  · -- break predecessors
    intro p hp
    have hplt := htBlt p hp
    have hpexit : p ≠ exit_ := htBne p hp
    have hpin : p ∈ (g.block exit_).predecessors := htBmem p hp
    obtain ⟨a, s, ha1, ha2, ha3, ha4, ha5, ha6⟩ := bI p hp
    have haE : gE.block a = gB.block a := by
      rw [d2w a (by omega) (by omega), d1w a (by omega) (by omega),
        cC a ha2 (fun hc => by have := htClt a hc; omega) (by omega) (by omega)]
    have hexsucc : exit_ ∈ (g.block p).successors := hcons.succ_of_pred hexit hpin
    have hgBsucc : (gB.block p).successors =
        ControlFlowGraph.replaceFirst (g.block p).successors exit_ a := by
      rw [ha6, hSb p (by omega)]
    have hmemB : a ∈ (gB.block p).successors := by
      rw [hgBsucc]
      exact mem_replaceFirst_new _ _ _ hexsucc
    have hnotB : exit_ ∉ (gB.block p).successors := by
      rw [hgBsucc]
      exact not_mem_replaceFirst _ _ _ (hcons.1 p hplt).2 (by omega)
    have hCp : a ∈ (gC.block p).successors ∧ exit_ ∉ (gC.block p).successors := by
      by_cases hptC : p ∈ tempC
      · obtain ⟨b2, s2, hb1, hb2, hb3, hb4, hb5, hb6⟩ := cI p hptC
        rw [hb6]
        constructor
        · exact replaceFirst_mem_of_ne _ _ _ _ hmemB (by omega)
        · exact not_mem_replaceFirst_of_not_mem _ _ _ _ hnotB (by omega)
      · by_cases hpent : p = entry
        · subst hpent
          rw [cF hptC]
          exact ⟨hmemB, hnotB⟩
        · rw [cC p (by omega) hptC hpent (by omega)]
          exact ⟨hmemB, hnotB⟩
    have hDEp : (gE.block p).successors = (gC.block p).successors := by
      by_cases hpent : p = entry
      · subst hpent
        have h1 : gD.block p = gC.block p := d1w p (by omega) hpexit
        simp only [d2v, h1]
      · rw [d2w p (by omega) hpent, d1w p (by omega) hpexit]
    refine ⟨a, by omega, by omega, ?_, ?_, ?_, ?_, ?_⟩
    · rw [instructions_of_stable gB gE a haE
        ⟨_, by rw [d2instr, d1instr, cB2]⟩ (by rw [ha3]; exact ha4)]
      exact ha5
    · rw [haE, ha3]
    · rw [haE, ha3]
    · rw [hDEp]
      exact hCp.1
    · rw [hDEp]
      exact hCp.2
  · -- continue predecessors
    intro q hq
    have hqlt := htClt q hq
    have hqexit : q ≠ exit_ := htCne q hq
    have hqin : q ∈ (g.block entry).predecessors := htCmem q hq
    obtain ⟨b, s2, hb1, hb2, hb3, hb4, hb5, hb6⟩ := cI q hq
    have hbE : gE.block b = gC.block b := by
      rw [d2w b (by omega) (by omega), d1w b (by omega) (by omega)]
    have hentrysucc : entry ∈ (g.block q).successors := hcons.succ_of_pred hentry hqin
    have hentryB : entry ∈ (gB.block q).successors := by
      by_cases hqtB : q ∈ tempB
      · obtain ⟨a2, s3, hc1, hc2, hc3, hc4, hc5, hc6⟩ := bI q hqtB
        rw [hc6, hSb q (by omega)]
        exact replaceFirst_mem_of_ne _ _ _ _ hentrysucc hne
      · rw [bC q (by omega) hqtB hqexit (by omega), hSb q (by omega)]
        exact hentrysucc
    have hmemC : b ∈ (gC.block q).successors := by
      rw [hb6]
      exact mem_replaceFirst_new _ _ _ hentryB
    refine ⟨b, by omega, by omega, ?_, ?_, ?_, ?_⟩
    · rw [instructions_of_stable gC gE b hbE
        ⟨[], by rw [List.append_nil, d2instr, d1instr]⟩ (by rw [hb3]; exact hb4)]
      exact hb5
    · rw [hbE, hb3]
    · rw [hbE, hb3]
    · by_cases hqent : q = entry
      · subst hqent
        have h1 : gD.block q = gC.block q := d1w q (by omega) hqexit
        simp only [d2v, h1]
        exact hmemC
      · rw [d2w q (by omega) hqent, d1w q (by omega) hqexit]
        exact hmemC

/-- C3 (corrected): for a region with uniquely determined entry and
exit processed by the repeat structurer on a consistent graph with the
exit outside the region, `Single::run` reuses an existing block as the
latch exactly when the source's `find_latch` test succeeds — the
candidate must be the unique predecessor of the entry passing the
*extended* `in_region` test (in the region, or having a predecessor in
the region; not merely "inside the region" as the spec words it) and
the unique `in_region_acyclic` predecessor of the exit, with exactly
two successors — and then the graph is returned unchanged; otherwise it
builds a fresh latch selection block branching on register `B`,
reroutes every break predecessor of the exit through a fresh `B := 0`
assignment block and every continue predecessor of the entry other than
the exit itself through a fresh `B := 1` assignment block, all feeding
the new latch, whose successors are the exit then the entry. -/
theorem single_latch_amended (g : ControlFlowGraph) (region : List Nat)
    (entry exit_ : Nat)
    (he : Single.find_entries_and_exits g region = ([entry], [exit_]))
    (hcons : ConsistentCFG g)
    (hentry : entry < g.basic_blocks.length)
    (hexit : exit_ < g.basic_blocks.length)
    (hne : entry ≠ exit_) (hexreg : exit_ ∉ region) :
    (∀ x, Single.latchCondition g region entry exit_ x →
        Single.run g region = ((entry, x), g)) ∧
      ((∀ x, ¬ Single.latchCondition g region entry exit_ x) →
        Single.SpecNewLatchStructure g region entry exit_
          (Single.run g region)) := by
  constructor
  · intro x hx
    rw [Single.run_eq_of_unique g region entry exit_ he]
    have hfl : Single.find_latch g region entry exit_ = some x :=
      (Single.find_latch_eq_some_iff g region entry exit_ x).mpr hx
    simp only [Single.find_or_set_latch, hfl]
  · intro hno
    have hfl : Single.find_latch g region entry exit_ = none := by
      cases hfl2 : Single.find_latch g region entry exit_ with
      | none => rfl
      | some x =>
        exact absurd
          ((Single.find_latch_eq_some_iff g region entry exit_ x).mp hfl2) (hno x)
    have hfos : Single.find_or_set_latch g region entry exit_ =
        Single.set_new_latch g region entry exit_ := by
      simp only [Single.find_or_set_latch, hfl]
    rw [Single.run_eq_of_unique g region entry exit_ he, hfos]
    exact (Single.set_new_latch_spec g region entry exit_ hcons hentry hexit
      hne hexreg).2

/-! ### Sorter (`src/Control Flow/Builder/src/sorter.rs`)

The iterative depth-first search pops `(id, post)` pairs: a `post`
entry invokes the handler, a fresh pre entry marks the block seen and
pushes its post entry followed by its successors.  The `while let`
loop always terminates (each iteration either shortens the stack or
marks a previously unseen id, and only ids drawn from the finite pool
of successor lists are ever pushed), so it is embedded as a
well-founded recursion on that very measure rather than on fuel.  The
handler of `find_basic_blocks` moves the visited block into the
postorder vector and records `id_to_post[id] = post`; the embedding
returns the postorder id list, from which both effects are read off.
`u16::MAX` is the unreachable sentinel. -/

def u16Max : Nat := 65535

namespace Sorter

def succUniverse (blocks : List CFGBasicBlock) : Finset Nat :=
  blocks.foldr (fun b acc => b.successors.toFinset ∪ acc) ∅

theorem mem_succUniverse {blocks : List CFGBasicBlock} {x : Nat} :
    x ∈ succUniverse blocks ↔ ∃ b ∈ blocks, x ∈ b.successors := by
  induction blocks with
  | nil => simp [succUniverse]
  | cons b bs ih =>
    simp only [succUniverse, List.foldr_cons] at ih ⊢
    simp [Finset.mem_union, List.mem_toFinset, ih]

theorem succ_getD_mem_univ {blocks : List CFGBasicBlock} {id s : Nat}
    (h : s ∈ (blocks.getD id .default).successors) : s ∈ succUniverse blocks := by
  by_cases hid : id < blocks.length
  · refine mem_succUniverse.mpr ⟨blocks.getD id .default, ?_, h⟩
    rw [List.getD_eq_getElem?_getD, List.getElem?_eq_getElem hid]
    simp
  · rw [List.getD_eq_getElem?_getD, List.getElem?_eq_none (by omega)] at h
    simp [CFGBasicBlock.default] at h

/-- Source `DepthFirstSearcher::add_successor`. -/
def add_successor (seen : List Nat) (stack : List (Nat × Bool)) (id : Nat) :
    List (Nat × Bool) :=
  if id ∈ seen then stack else (id, false) :: stack

def pushSuccessors (succs : List Nat) (seen : List Nat)
    (stack : List (Nat × Bool)) : List (Nat × Bool) :=
  succs.foldl (add_successor seen) stack

theorem mem_pushSuccessors {succs seen : List Nat} {st : List (Nat × Bool)}
    {x : Nat} {b : Bool} :
    (x, b) ∈ pushSuccessors succs seen st ↔
      (x, b) ∈ st ∨ (b = false ∧ x ∈ succs ∧ x ∉ seen) := by
  induction succs generalizing st with
  | nil => simp [pushSuccessors]
  | cons s ss ih =>
    rw [pushSuccessors, List.foldl_cons]
    rw [show List.foldl (add_successor seen) (add_successor seen st s) ss =
      pushSuccessors ss seen (add_successor seen st s) from rfl]
    rw [ih]
    rw [add_successor]
    by_cases hs : s ∈ seen
    · rw [if_pos hs]
      constructor
      · rintro (h | ⟨hb, hm, hn⟩)
        · exact Or.inl h
        · exact Or.inr ⟨hb, List.mem_cons_of_mem _ hm, hn⟩
      · rintro (h | ⟨hb, hm, hn⟩)
        · exact Or.inl h
        · rcases List.mem_cons.mp hm with rfl | hm2
          · exact absurd hs hn
          · exact Or.inr ⟨hb, hm2, hn⟩
    · rw [if_neg hs]
      constructor
      · rintro (h | ⟨hb, hm, hn⟩)
        · rcases List.mem_cons.mp h with h2 | h2
          · have hx : x = s ∧ b = false := by
              constructor <;> [exact congrArg Prod.fst h2; exact congrArg Prod.snd h2]
            exact Or.inr ⟨hx.2, hx.1 ▸ List.mem_cons_self _ _, hx.1 ▸ hs⟩
          · exact Or.inl h2
        · exact Or.inr ⟨hb, List.mem_cons_of_mem _ hm, hn⟩
      · rintro (h | ⟨hb, hm, hn⟩)
        · exact Or.inl (List.mem_cons_of_mem _ h)
        · rcases List.mem_cons.mp hm with rfl | hm2
          · subst hb
            exact Or.inl (List.mem_cons_self _ _)
          · exact Or.inr ⟨hb, hm2, hn⟩

theorem pushSuccessors_filter_true (succs seen : List Nat)
    (st : List (Nat × Bool)) :
    (pushSuccessors succs seen st).filter (fun e => e.2) =
      st.filter (fun e => e.2) := by
  induction succs generalizing st with
  | nil => rfl
  | cons s ss ih =>
    rw [pushSuccessors, List.foldl_cons]
    rw [show List.foldl (add_successor seen) (add_successor seen st s) ss =
      pushSuccessors ss seen (add_successor seen st s) from rfl]
    rw [ih, add_successor]
    by_cases hs : s ∈ seen
    · rw [if_pos hs]
    · rw [if_neg hs]
      simp

theorem pushSuccessors_exists_append (succs seen : List Nat)
    (st : List (Nat × Bool)) :
    ∃ pre, pushSuccessors succs seen st = pre ++ st := by
  induction succs generalizing st with
  | nil => exact ⟨[], rfl⟩
  | cons s ss ih =>
    rw [pushSuccessors, List.foldl_cons]
    rw [show List.foldl (add_successor seen) (add_successor seen st s) ss =
      pushSuccessors ss seen (add_successor seen st s) from rfl]
    rw [add_successor]
    by_cases hs : s ∈ seen
    · rw [if_pos hs]
      exact ih st
    · rw [if_neg hs]
      obtain ⟨pre, hpre⟩ := ih ((s, false) :: st)
      exact ⟨pre ++ [(s, false)], by rw [hpre]; simp⟩

theorem stackFst_pushSuccessors (succs seen : List Nat)
    (st : List (Nat × Bool)) {x : Nat}
    (hx : x ∈ (pushSuccessors succs seen st).map Prod.fst) :
    x ∈ succs ∨ x ∈ st.map Prod.fst := by
  obtain ⟨⟨y, b⟩, hmem, hfst⟩ := List.mem_map.mp hx
  rcases mem_pushSuccessors.mp hmem with h | ⟨_, hm, _⟩
  · exact Or.inr (List.mem_map.mpr ⟨(y, b), h, hfst⟩)
  · exact Or.inl (hfst ▸ hm)

/-- Source `DepthFirstSearcher::run`, with the closure of
`Sorter::find_basic_blocks` as handler: the returned list is the ids in
handler (postorder) sequence. -/
def dfsRun (blocks : List CFGBasicBlock) (seen : List Nat)
    (stack : List (Nat × Bool)) (order : List Nat) : List Nat :=
  match stack with
  | [] => order
  | (id, post) :: rest =>
    if post then dfsRun blocks seen rest (order ++ [id])
    else if id ∈ seen then dfsRun blocks seen rest order
    else dfsRun blocks (setInsert id seen)
      (pushSuccessors (blocks.getD id .default).successors (setInsert id seen)
        ((id, true) :: rest)) order
termination_by
  (((succUniverse blocks ∪ (stack.map Prod.fst).toFinset).filter
      (fun i => i ∉ seen)).card, stack.length)
decreasing_by
  all_goals simp_wf
  · have hsub : Finset.filter (fun i => i ∉ seen)
        (succUniverse blocks ∪ (List.map Prod.fst rest).toFinset) ⊆
        Finset.filter (fun i => i ∉ seen)
          (insert id (succUniverse blocks ∪ (List.map Prod.fst rest).toFinset)) :=
      Finset.filter_subset_filter _ (Finset.subset_insert _ _)
    rcases lt_or_eq_of_le (Finset.card_le_card hsub) with h | h
    · exact Prod.Lex.left _ _ h
    · rw [h]
      exact Prod.Lex.right _ (Nat.lt_succ_self _)
  · have hsub : Finset.filter (fun i => i ∉ seen)
        (succUniverse blocks ∪ (List.map Prod.fst rest).toFinset) ⊆
        Finset.filter (fun i => i ∉ seen)
          (insert id (succUniverse blocks ∪ (List.map Prod.fst rest).toFinset)) :=
      Finset.filter_subset_filter _ (Finset.subset_insert _ _)
    rcases lt_or_eq_of_le (Finset.card_le_card hsub) with h | h
    · exact Prod.Lex.left _ _ h
    · rw [h]
      exact Prod.Lex.right _ (Nat.lt_succ_self _)
  · rename_i hid
    refine Prod.Lex.left _ _ ?_
    simp only [← List.getD_eq_getElem?_getD]
    have hsetins : setInsert id seen = id :: seen := by
      rw [setInsert, if_neg hid]
    have hsub : Finset.filter (fun i => i ∉ setInsert id seen)
        (succUniverse blocks ∪
          (List.map Prod.fst
            (pushSuccessors (blocks.getD id .default).successors
              (setInsert id seen) ((id, true) :: rest))).toFinset) ⊆
        (Finset.filter (fun i => i ∉ seen)
          (insert id (succUniverse blocks ∪
            (List.map Prod.fst rest).toFinset))).erase id := by
      intro x hx
      obtain ⟨hxin, hxns⟩ := Finset.mem_filter.mp hx
      rw [hsetins] at hxns
      have hxne : x ≠ id := fun hc => hxns (hc ▸ List.mem_cons_self _ _)
      have hxseen : x ∉ seen := fun hc => hxns (List.mem_cons_of_mem _ hc)
      refine Finset.mem_erase.mpr ⟨hxne, Finset.mem_filter.mpr ⟨?_, hxseen⟩⟩
      rcases Finset.mem_union.mp hxin with hA | hF
      · exact Finset.mem_insert_of_mem (Finset.mem_union_left _ hA)
      · rcases stackFst_pushSuccessors _ _ _ (List.mem_toFinset.mp hF) with hs | hb
        · exact Finset.mem_insert_of_mem
            (Finset.mem_union_left _ (succ_getD_mem_univ hs))
        · simp only [List.map_cons] at hb
          rcases List.mem_cons.mp hb with h1 | h1
          · exact absurd h1 hxne
          · exact Finset.mem_insert_of_mem
              (Finset.mem_union_right _ (List.mem_toFinset.mpr h1))
    calc (Finset.filter (fun i => i ∉ setInsert id seen)
          (succUniverse blocks ∪
            (List.map Prod.fst
              (pushSuccessors (blocks.getD id .default).successors
                (setInsert id seen) ((id, true) :: rest))).toFinset)).card
        ≤ ((Finset.filter (fun i => i ∉ seen)
            (insert id (succUniverse blocks ∪
              (List.map Prod.fst rest).toFinset))).erase id).card :=
          Finset.card_le_card hsub
      _ < (Finset.filter (fun i => i ∉ seen)
            (insert id (succUniverse blocks ∪
              (List.map Prod.fst rest).toFinset))).card :=
          Finset.card_erase_lt_of_mem
            (Finset.mem_filter.mpr ⟨Finset.mem_insert_self _ _, hid⟩)

/-- Source `Sorter::find_basic_blocks`, reduced to the id order in
which the handler fires (the moved-out blocks and the `id_to_post`
table are functions of this list). -/
def find_basic_blocks (blocks : List CFGBasicBlock) (entry : Nat) : List Nat :=
  dfsRun blocks [] (add_successor [] [] entry) []

/-- The `id_to_post` table right after `find_basic_blocks`:
`u16::MAX`-filled, then each handled id mapped to its postorder
index. -/
def idToPost (blocks : List CFGBasicBlock) (order : List Nat) : List Nat :=
  (List.range blocks.length).map
    (fun id => if id ∈ order then order.indexOf id else u16Max)

/-- Source `Sorter::patch_post`. -/
def patch_post (post : Nat) (table : List Nat) : List Nat :=
  table.map (fun old => if old ≠ u16Max then post - 1 - old else old)

/-- Source `BasicBlock::replace_ids`
(`src/Control Flow/Graph/src/basic_block.rs`): map every stored id,
then drop predecessors that became `u16::MAX`. -/
def replace_ids (map : Nat → Nat) (b : CFGBasicBlock) : CFGBasicBlock :=
  { b with
    predecessors := (b.predecessors.map map).filter (fun id => decide (id ≠ u16Max)),
    successors := b.successors.map map }

/-- Source `Sorter::patch_references`: refill the vector with the
collected blocks in reverse postorder and rewrite their ids. -/
def patch_references (table : List Nat) (taken : List CFGBasicBlock) :
    List CFGBasicBlock :=
  taken.reverse.map (replace_ids (fun id => table.getD id u16Max))

/-- Source `Sorter::run`. -/
def run (blocks : List CFGBasicBlock) (entry : Nat) : List CFGBasicBlock :=
  patch_references
    (patch_post (find_basic_blocks blocks entry).length
      (idToPost blocks (find_basic_blocks blocks entry)))
    ((find_basic_blocks blocks entry).map (fun id => blocks.getD id .default))

/-- The renumbering `patch_references` reads off the patched table. -/
def renumber (blocks : List CFGBasicBlock) (entry : Nat) (id : Nat) : Nat :=
  (patch_post (find_basic_blocks blocks entry).length
    (idToPost blocks (find_basic_blocks blocks entry))).getD id u16Max

/-- Reachability along successor edges, the claim's notion of a block
being reachable from the entry. -/
inductive ReachableCFG (blocks : List CFGBasicBlock) (entry : Nat) : Nat → Prop where
  | refl : ReachableCFG blocks entry entry
  | step {u v : Nat} : ReachableCFG blocks entry u →
      v ∈ (blocks.getD u .default).successors → ReachableCFG blocks entry v

/-- Loop invariant of the iterative depth-first search. -/
structure DfsInv (blocks : List CFGBasicBlock) (entry : Nat)
    (seen : List Nat) (stack : List (Nat × Bool)) (order : List Nat) : Prop where
  nodupOrder : order.Nodup
  orderSeen : ∀ id ∈ order, id ∈ seen
  seenIff : ∀ id, id ∈ seen ↔ (id ∈ order ∨ (id, true) ∈ stack)
  trueNodup : ((stack.filter (fun e => e.2)).map Prod.fst).Nodup
  trueNotOrder : ∀ id, (id, true) ∈ stack → id ∉ order
  seenReach : ∀ id ∈ seen, ReachableCFG blocks entry id
  stackReach : ∀ e ∈ stack, ReachableCFG blocks entry e.1
  closure : ∀ v ∈ seen, ∀ s ∈ (blocks.getD v .default).successors,
    s ∈ seen ∨ (s, false) ∈ stack
  phase : (stack = [(entry, false)] ∧ order = []) ∨
    (∃ pre, stack = pre ++ [(entry, true)] ∧ entry ∉ order) ∨
    (stack = [] ∧ order.getLast? = some entry)

theorem inv_step_post {blocks : List CFGBasicBlock} {entry id : Nat}
    {rest : List (Nat × Bool)} {seen order : List Nat}
    (h : DfsInv blocks entry seen ((id, true) :: rest) order) :
    DfsInv blocks entry seen rest (order ++ [id]) := by
  have hidseen : id ∈ seen := (h.seenIff id).mpr (Or.inr (List.mem_cons_self _ _))
  have hidord : id ∉ order := h.trueNotOrder id (List.mem_cons_self _ _)
  have hft : ((id, true) :: rest).filter (fun e => e.2) =
      (id, true) :: rest.filter (fun e => e.2) := by simp
  have htN := h.trueNodup
  rw [hft] at htN
  simp only [List.map_cons] at htN
  obtain ⟨hid_nin, htN2⟩ := List.nodup_cons.mp htN
  refine ⟨?_, ?_, ?_, htN2, ?_, h.seenReach, ?_, ?_, ?_⟩
  · rw [List.nodup_append]
    refine ⟨h.nodupOrder, List.nodup_singleton _, ?_⟩
    intro a ha hb
    rw [List.mem_singleton] at hb
    exact hidord (hb ▸ ha)
  · intro x hx
    rcases List.mem_append.mp hx with hx | hx
    · exact h.orderSeen x hx
    · rw [List.mem_singleton] at hx
      exact hx ▸ hidseen
  · intro x
    rw [h.seenIff x]
    constructor
    · rintro (hx | hx)
      · exact Or.inl (List.mem_append_left _ hx)
      · rcases List.mem_cons.mp hx with hx | hx
        · have hxi : x = id := congrArg Prod.fst hx
          exact Or.inl (List.mem_append_right _ (by simp [hxi]))
        · exact Or.inr hx
    · rintro (hx | hx)
      · rcases List.mem_append.mp hx with hx | hx
        · exact Or.inl hx
        · rw [List.mem_singleton] at hx
          subst hx
          exact Or.inr (List.mem_cons_self _ _)
      · exact Or.inr (List.mem_cons_of_mem _ hx)
  · intro x hx
    have hxo := h.trueNotOrder x (List.mem_cons_of_mem _ hx)
    intro hc
    rcases List.mem_append.mp hc with hc | hc
    · exact hxo hc
    · rw [List.mem_singleton] at hc
      subst hc
      exact hid_nin (List.mem_map.mpr
        ⟨(x, true), List.mem_filter.mpr ⟨hx, rfl⟩, rfl⟩)
  · intro e he
    exact h.stackReach e (List.mem_cons_of_mem _ he)
  · intro v hv s hs
    rcases h.closure v hv s hs with hc | hc
    · exact Or.inl hc
    · rcases List.mem_cons.mp hc with hc | hc
      · exact absurd (congrArg Prod.snd hc) (by simp)
      · exact Or.inr hc
  · rcases h.phase with ⟨h1, _⟩ | ⟨pre, hpre, hord⟩ | ⟨h3, _⟩
    · exact absurd h1 (by simp)
    · cases pre with
      | nil =>
        simp only [List.nil_append, List.cons.injEq, Prod.mk.injEq] at hpre
        obtain ⟨⟨hide, _⟩, hrest⟩ := hpre
        subst hide
        subst hrest
        refine Or.inr (Or.inr ⟨rfl, ?_⟩)
        rw [List.getLast?_concat]
      | cons e pre2 =>
        rw [List.cons_append] at hpre
        have hrest : rest = pre2 ++ [(entry, true)] :=
          (List.cons.inj hpre).2
        refine Or.inr (Or.inl ⟨pre2, hrest, ?_⟩)
        intro hc
        rcases List.mem_append.mp hc with hc | hc
        · exact hord hc
        · rw [List.mem_singleton] at hc
          apply hid_nin
          refine List.mem_map.mpr ⟨(entry, true), List.mem_filter.mpr ⟨?_, rfl⟩, ?_⟩
          · rw [hrest]
            exact List.mem_append_right _ (List.mem_singleton.mpr rfl)
          · simp [hc]
    · exact absurd h3 (by simp)

theorem inv_step_skip {blocks : List CFGBasicBlock} {entry id : Nat}
    {rest : List (Nat × Bool)} {seen order : List Nat}
    (hid : id ∈ seen)
    (h : DfsInv blocks entry seen ((id, false) :: rest) order) :
    DfsInv blocks entry seen rest order := by
  refine ⟨h.nodupOrder, h.orderSeen, ?_, ?_, ?_, h.seenReach, ?_, ?_, ?_⟩
  · intro x
    rw [h.seenIff x]
    constructor
    · rintro (hx | hx)
      · exact Or.inl hx
      · rcases List.mem_cons.mp hx with hx | hx
        · exact absurd (congrArg Prod.snd hx) (by simp)
        · exact Or.inr hx
    · rintro (hx | hx)
      · exact Or.inl hx
      · exact Or.inr (List.mem_cons_of_mem _ hx)
  · have hN := h.trueNodup
    rw [show ((id, false) :: rest).filter (fun e => e.2) =
      rest.filter (fun e => e.2) from by simp] at hN
    exact hN
  · intro x hx
    exact h.trueNotOrder x (List.mem_cons_of_mem _ hx)
  · intro e he
    exact h.stackReach e (List.mem_cons_of_mem _ he)
  · intro v hv s hs
    rcases h.closure v hv s hs with hc | hc
    · exact Or.inl hc
    · rcases List.mem_cons.mp hc with hc | hc
      · have hsi : s = id := congrArg Prod.fst hc
        exact Or.inl (hsi ▸ hid)
      · exact Or.inr hc
  · rcases h.phase with ⟨h1, hord⟩ | ⟨pre, hpre, hord⟩ | ⟨h3, _⟩
    · exfalso
      simp only [List.cons.injEq, Prod.mk.injEq] at h1
      obtain ⟨⟨hide, _⟩, hrest⟩ := h1
      subst hide
      rcases (h.seenIff id).mp hid with hx | hx
      · rw [hord] at hx
        simp at hx
      · rcases List.mem_cons.mp hx with hx2 | hx2
        · exact absurd (congrArg Prod.snd hx2) (by simp)
        · rw [hrest] at hx2
          simp at hx2
    · cases pre with
      | nil =>
        simp only [List.nil_append, List.cons.injEq, Prod.mk.injEq] at hpre
        exact absurd hpre.1.2 (by simp)
      | cons e pre2 =>
        rw [List.cons_append] at hpre
        exact Or.inr (Or.inl ⟨pre2, (List.cons.inj hpre).2, hord⟩)
    · exact absurd h3 (by simp)

theorem inv_step_visit {blocks : List CFGBasicBlock} {entry id : Nat}
    {rest : List (Nat × Bool)} {seen order : List Nat}
    (hid : id ∉ seen)
    (h : DfsInv blocks entry seen ((id, false) :: rest) order) :
    DfsInv blocks entry (setInsert id seen)
      (pushSuccessors (blocks.getD id .default).successors (setInsert id seen)
        ((id, true) :: rest)) order := by
  have hset : setInsert id seen = id :: seen := by rw [setInsert, if_neg hid]
  have hreachid : ReachableCFG blocks entry id :=
    h.stackReach (id, false) (List.mem_cons_self _ _)
  have hidord : id ∉ order := fun hc => hid (h.orderSeen id hc)
  rw [hset]
  refine ⟨h.nodupOrder, ?_, ?_, ?_, ?_, ?_, ?_, ?_, ?_⟩
  · intro x hx
    exact List.mem_cons_of_mem _ (h.orderSeen x hx)
  · intro x
    constructor
    · intro hx
      rcases List.mem_cons.mp hx with hx | hx
      · subst hx
        exact Or.inr (mem_pushSuccessors.mpr (Or.inl (List.mem_cons_self _ _)))
      · rcases (h.seenIff x).mp hx with h2 | h2
        · exact Or.inl h2
        · rcases List.mem_cons.mp h2 with h3 | h3
          · exact absurd (congrArg Prod.snd h3) (by simp)
          · exact Or.inr (mem_pushSuccessors.mpr
              (Or.inl (List.mem_cons_of_mem _ h3)))
    · intro hx
      rcases hx with hx | hx
      · exact List.mem_cons_of_mem _ (h.orderSeen x hx)
      · rcases mem_pushSuccessors.mp hx with h2 | ⟨hb, _, _⟩
        · rcases List.mem_cons.mp h2 with h3 | h3
          · have hxi : x = id := congrArg Prod.fst h3
            exact hxi ▸ List.mem_cons_self _ _
          · exact List.mem_cons_of_mem _
              ((h.seenIff x).mpr (Or.inr (List.mem_cons_of_mem _ h3)))
        · exact absurd hb (by simp)
  · rw [pushSuccessors_filter_true]
    rw [show ((id, true) :: rest).filter (fun e => e.2) =
      (id, true) :: rest.filter (fun e => e.2) from by simp]
    simp only [List.map_cons]
    refine List.nodup_cons.mpr ⟨?_, ?_⟩
    · intro hc
      obtain ⟨⟨y, b⟩, hyb, hfst⟩ := List.mem_map.mp hc
      obtain ⟨hyrest, hb⟩ := List.mem_filter.mp hyb
      have hbt : b = true := by simpa using hb
      subst hbt
      have hyi : y = id := hfst
      subst hyi
      exact hid ((h.seenIff y).mpr (Or.inr (List.mem_cons_of_mem _ hyrest)))
    · have hN := h.trueNodup
      rw [show ((id, false) :: rest).filter (fun e => e.2) =
        rest.filter (fun e => e.2) from by simp] at hN
      exact hN
  · intro x hx
    rcases mem_pushSuccessors.mp hx with h2 | ⟨hb, _, _⟩
    · rcases List.mem_cons.mp h2 with h3 | h3
      · have hxi : x = id := congrArg Prod.fst h3
        exact hxi ▸ hidord
      · exact h.trueNotOrder x (List.mem_cons_of_mem _ h3)
    · exact absurd hb (by simp)
  · intro x hx
    rcases List.mem_cons.mp hx with hx | hx
    · exact hx ▸ hreachid
    · exact h.seenReach x hx
  · intro e he
    rcases mem_pushSuccessors.mp he with h2 | ⟨_, hm, _⟩
    · rcases List.mem_cons.mp h2 with h3 | h3
      · have he1 : e.1 = id := congrArg Prod.fst h3
        rw [he1]
        exact hreachid
      · exact h.stackReach e (by
          rw [show e = (e.1, e.2) from rfl]
          exact List.mem_cons_of_mem _ h3)
    · exact ReachableCFG.step hreachid hm
  · intro v hv s hs
    rcases List.mem_cons.mp hv with hv | hv
    · subst hv
      by_cases hsmem : s ∈ v :: seen
      · exact Or.inl hsmem
      · exact Or.inr (mem_pushSuccessors.mpr (Or.inr ⟨rfl, hs, hsmem⟩))
    · rcases h.closure v hv s hs with hc | hc
      · exact Or.inl (List.mem_cons_of_mem _ hc)
      · rcases List.mem_cons.mp hc with hc2 | hc2
        · have hsi : s = id := congrArg Prod.fst hc2
          exact Or.inl (hsi ▸ List.mem_cons_self _ _)
        · exact Or.inr (mem_pushSuccessors.mpr
            (Or.inl (List.mem_cons_of_mem _ hc2)))
  · rcases h.phase with ⟨h1, hord⟩ | ⟨pre, hpre, hord⟩ | ⟨h3, _⟩
    · simp only [List.cons.injEq, Prod.mk.injEq] at h1
      obtain ⟨⟨hide, _⟩, hrest⟩ := h1
      subst hide
      subst hrest
      obtain ⟨pre, hpre⟩ := pushSuccessors_exists_append
        (blocks.getD id .default).successors (id :: seen) [(id, true)]
      refine Or.inr (Or.inl ⟨pre, hpre, ?_⟩)
      rw [hord]
      simp
    · cases pre with
      | nil =>
        simp only [List.nil_append, List.cons.injEq, Prod.mk.injEq] at hpre
        exact absurd hpre.1.2 (by simp)
      | cons e pre2 =>
        rw [List.cons_append] at hpre
        have hrest : rest = pre2 ++ [(entry, true)] := (List.cons.inj hpre).2
        obtain ⟨pre3, hpre3⟩ := pushSuccessors_exists_append
          (blocks.getD id .default).successors (id :: seen) ((id, true) :: rest)
        refine Or.inr (Or.inl ⟨pre3 ++ ((id, true) :: pre2), ?_, hord⟩)
        rw [hpre3, hrest]
        simp
    · exact absurd h3 (by simp)

theorem inv_final {blocks : List CFGBasicBlock} {entry : Nat}
    {seen order : List Nat}
    (h : DfsInv blocks entry seen [] order) :
    order.Nodup ∧ (∀ v ∈ order, ReachableCFG blocks entry v) ∧
      (∀ v ∈ order, ∀ s ∈ (blocks.getD v .default).successors, s ∈ order) ∧
      order.getLast? = some entry := by
  refine ⟨h.nodupOrder, ?_, ?_, ?_⟩
  · intro v hv
    exact h.seenReach v (h.orderSeen v hv)
  · intro v hv s hs
    rcases h.closure v (h.orderSeen v hv) s hs with hc | hc
    · rcases (h.seenIff s).mp hc with h2 | h2
      · exact h2
      · simp at h2
    · simp at hc
  · rcases h.phase with ⟨h1, _⟩ | ⟨pre, hpre, _⟩ | ⟨_, hlast⟩
    · simp at h1
    · exact absurd hpre.symm (by simp)
    · exact hlast

/-- The completed search, started from any invariant-satisfying state,
returns a duplicate-free postorder of reachable, successor-closed ids
ending in the entry. -/
theorem dfsRun_spec (blocks : List CFGBasicBlock) (entry : Nat)
    (seen : List Nat) (stack : List (Nat × Bool)) (order : List Nat) :
    DfsInv blocks entry seen stack order →
      (dfsRun blocks seen stack order).Nodup ∧
        (∀ v ∈ dfsRun blocks seen stack order, ReachableCFG blocks entry v) ∧
        (∀ v ∈ dfsRun blocks seen stack order,
          ∀ s ∈ (blocks.getD v .default).successors,
            s ∈ dfsRun blocks seen stack order) ∧
        (dfsRun blocks seen stack order).getLast? = some entry := by
  induction seen, stack, order using dfsRun.induct blocks with
  | case1 seen order =>
    intro h
    rw [dfsRun]
    exact inv_final h
  | case2 seen order id rest ih =>
    intro h
    rw [dfsRun]
    exact ih (inv_step_post h)
  | case3 seen order id post rest hpost hid ih =>
    intro h
    have hpf : post = false := by simpa using hpost
    subst hpf
    rw [dfsRun]
    rw [if_neg (by simp), if_pos hid]
    exact ih (inv_step_skip hid h)
  | case4 seen order id post rest hpost hid ih =>
    intro h
    have hpf : post = false := by simpa using hpost
    subst hpf
    rw [dfsRun]
    rw [if_neg (by simp), if_neg hid]
    exact ih (inv_step_visit hid h)

theorem find_basic_blocks_spec (blocks : List CFGBasicBlock) (entry : Nat) :
    (find_basic_blocks blocks entry).Nodup ∧
      (∀ v ∈ find_basic_blocks blocks entry, ReachableCFG blocks entry v) ∧
      (∀ v ∈ find_basic_blocks blocks entry,
        ∀ s ∈ (blocks.getD v .default).successors,
          s ∈ find_basic_blocks blocks entry) ∧
      (find_basic_blocks blocks entry).getLast? = some entry := by
  rw [find_basic_blocks,
    show add_successor [] [] entry = [(entry, false)] from by simp [add_successor]]
  apply dfsRun_spec
  refine ⟨List.nodup_nil, by simp, by simp, by simp, by simp, by simp, ?_,
    by simp, Or.inl ⟨rfl, rfl⟩⟩
  intro e he
  rw [List.mem_singleton] at he
  rw [he]
  exact ReachableCFG.refl

theorem entry_mem_find_basic_blocks (blocks : List CFGBasicBlock) (entry : Nat) :
    entry ∈ find_basic_blocks blocks entry := by
  have hlast := (find_basic_blocks_spec blocks entry).2.2.2
  rw [List.getLast?_eq_getElem?] at hlast
  have hlt : (find_basic_blocks blocks entry).length - 1 <
      (find_basic_blocks blocks entry).length := by
    rcases Nat.eq_zero_or_pos (find_basic_blocks blocks entry).length with h0 | h0
    · rw [List.length_eq_zero.mp h0] at hlast
      simp at hlast
    · omega
  rw [List.getElem?_eq_getElem hlt] at hlast
  have heq := Option.some_inj.mp hlast
  have hmem := List.getElem_mem hlt
  rw [heq] at hmem
  exact hmem

theorem reachable_mem_find_basic_blocks (blocks : List CFGBasicBlock)
    (entry : Nat) :
    ∀ v, ReachableCFG blocks entry v → v ∈ find_basic_blocks blocks entry := by
  intro v hv
  induction hv with
  | refl => exact entry_mem_find_basic_blocks blocks entry
  | step hu hs ih =>
    exact (find_basic_blocks_spec blocks entry).2.2.1 _ ih _ hs

theorem getD_blocks_mem {blocks : List CFGBasicBlock} {i : Nat}
    (h : i < blocks.length) : blocks.getD i .default ∈ blocks := by
  rw [List.getD_eq_getElem?_getD, List.getElem?_eq_getElem h]
  simp

theorem reachable_lt {blocks : List CFGBasicBlock} {entry : Nat}
    (hentry : entry < blocks.length)
    (hsucc : ∀ b ∈ blocks, ∀ s ∈ b.successors, s < blocks.length) :
    ∀ v, ReachableCFG blocks entry v → v < blocks.length := by
  intro v hv
  induction hv with
  | refl => exact hentry
  | step hu hs ih =>
    exact hsucc _ (getD_blocks_mem ih) _ hs

theorem getD_map_poly {α β : Type} (l : List α) (f : α → β) (i : Nat)
    (d : β) (d2 : α) (h : i < l.length) :
    (l.map f).getD i d = f (l.getD i d2) := by
  rw [List.getD_eq_getElem?_getD, List.getElem?_map, List.getElem?_eq_getElem h,
    List.getD_eq_getElem?_getD, List.getElem?_eq_getElem h]
  rfl

theorem getD_reverse {α : Type} (l : List α) (j : Nat) (d : α)
    (h : j < l.length) :
    l.reverse.getD j d = l.getD (l.length - 1 - j) d := by
  rw [List.getD_eq_getElem?_getD, List.getElem?_eq_getElem (by simpa using h),
    List.getElem_reverse, List.getD_eq_getElem?_getD,
    List.getElem?_eq_getElem (by omega)]

theorem length_le_of_nodup_lt {l : List Nat} {n : Nat}
    (hnd : l.Nodup) (hlt : ∀ x ∈ l, x < n) : l.length ≤ n := by
  have h1 : l.toFinset ⊆ Finset.range n := fun x hx =>
    Finset.mem_range.mpr (hlt x (List.mem_toFinset.mp hx))
  have h2 := Finset.card_le_card h1
  rw [List.toFinset_card_of_nodup hnd, Finset.card_range] at h2
  exact h2

/-- The postorder count never exceeds the block count. -/
theorem order_length_le (blocks : List CFGBasicBlock) (entry : Nat)
    (hentry : entry < blocks.length)
    (hsucc : ∀ b ∈ blocks, ∀ s ∈ b.successors, s < blocks.length) :
    (find_basic_blocks blocks entry).length ≤ blocks.length :=
  length_le_of_nodup_lt (find_basic_blocks_spec blocks entry).1
    (fun x hx => reachable_lt hentry hsucc x
      ((find_basic_blocks_spec blocks entry).2.1 x hx))

theorem renumber_of_mem {blocks : List CFGBasicBlock} {entry id : Nat}
    (hentry : entry < blocks.length)
    (hsucc : ∀ b ∈ blocks, ∀ s ∈ b.successors, s < blocks.length)
    (hlen : blocks.length ≤ u16Max)
    (hmem : id ∈ find_basic_blocks blocks entry) :
    renumber blocks entry id =
      (find_basic_blocks blocks entry).length - 1 -
        (find_basic_blocks blocks entry).indexOf id := by
  have hidlt : id < blocks.length :=
    reachable_lt hentry hsucc id ((find_basic_blocks_spec blocks entry).2.1 id hmem)
  have hidx : (find_basic_blocks blocks entry).indexOf id <
      (find_basic_blocks blocks entry).length :=
    List.indexOf_lt_length.mpr hmem
  have hcount := order_length_le blocks entry hentry hsucc
  rw [renumber, patch_post]
  rw [getD_map_poly _ _ _ _ 0 (by rw [idToPost]; simp; omega)]
  rw [idToPost, getD_map_poly _ _ _ _ 0 (by simp; omega)]
  rw [List.getD_eq_getElem?_getD, List.getElem?_range hidlt]
  simp only [Option.getD_some, if_pos hmem]
  rw [if_pos (by rw [u16Max] at *; omega)]

theorem renumber_of_not_mem {blocks : List CFGBasicBlock} {entry id : Nat}
    (hidlt : id < blocks.length)
    (hnmem : id ∉ find_basic_blocks blocks entry) :
    renumber blocks entry id = u16Max := by
  rw [renumber, patch_post]
  rw [getD_map_poly _ _ _ _ 0 (by rw [idToPost]; simp; omega)]
  rw [idToPost, getD_map_poly _ _ _ _ 0 (by simp; omega)]
  rw [List.getD_eq_getElem?_getD, List.getElem?_range hidlt]
  simp only [Option.getD_some, if_neg hnmem]
  simp

theorem renumber_ne_max_of_mem {blocks : List CFGBasicBlock} {entry id : Nat}
    (hentry : entry < blocks.length)
    (hsucc : ∀ b ∈ blocks, ∀ s ∈ b.successors, s < blocks.length)
    (hlen : blocks.length ≤ u16Max)
    (hmem : id ∈ find_basic_blocks blocks entry) :
    renumber blocks entry id ≠ u16Max := by
  rw [renumber_of_mem hentry hsucc hlen hmem]
  have hcount := order_length_le blocks entry hentry hsucc
  rw [u16Max] at *
  omega

/-- Modelled from the spec: what C4 claims of `Sorter::run`.  The
retained ids are exactly the reachable ones; a block with postorder
index `p` is renumbered to `count - 1 - p` with the entry at 0 and
unreachable ids at the `u16::MAX` sentinel; the output vector lists the
renumbered blocks in id order, with successors mapped through the
renumbering and predecessors first pruned of unreachable blocks. -/
def SpecSorted (blocks : List CFGBasicBlock) (entry : Nat) : Prop :=
  (∀ id, id ∈ find_basic_blocks blocks entry ↔ ReachableCFG blocks entry id) ∧
    (find_basic_blocks blocks entry).Nodup ∧
    (∀ p, p < (find_basic_blocks blocks entry).length →
      renumber blocks entry ((find_basic_blocks blocks entry).getD p 0) =
        (find_basic_blocks blocks entry).length - 1 - p) ∧
    renumber blocks entry entry = 0 ∧
    (∀ id, id < blocks.length →
      (renumber blocks entry id = u16Max ↔ ¬ ReachableCFG blocks entry id)) ∧
    (run blocks entry).length = (find_basic_blocks blocks entry).length ∧
    (∀ j, j < (find_basic_blocks blocks entry).length →
      ∃ o, o ∈ find_basic_blocks blocks entry ∧
        renumber blocks entry o = j ∧
        (run blocks entry).getD j .default =
          replace_ids (renumber blocks entry) (blocks.getD o .default) ∧
        ((run blocks entry).getD j .default).successors =
          (blocks.getD o .default).successors.map (renumber blocks entry) ∧
        ((run blocks entry).getD j .default).predecessors =
          ((blocks.getD o .default).predecessors.filter
            (fun p => decide (p ∈ find_basic_blocks blocks entry))).map
            (renumber blocks entry))

end Sorter

/-- C4: on a graph with in-range edges, at most `u16::MAX` blocks and a
valid entry, `Sorter::run` keeps exactly the blocks reachable from the
entry, renumbers postorder index `p` to `count - 1 - p` (entry at id
0, unreachable ids at the `u16::MAX` sentinel), lists the blocks in id
order, rewrites successor references through the renumbering and
rewrites predecessor references while dropping those to unreachable
blocks. -/
theorem sorter_reverse_postorder (blocks : List CFGBasicBlock) (entry : Nat)
    (hentry : entry < blocks.length)
    (hsucc : ∀ b ∈ blocks, ∀ s ∈ b.successors, s < blocks.length)
    (hpred : ∀ b ∈ blocks, ∀ p ∈ b.predecessors, p < blocks.length)
    (hlen : blocks.length ≤ u16Max) :
    Sorter.SpecSorted blocks entry := by
  have hspec := Sorter.find_basic_blocks_spec blocks entry
  have hnodup := hspec.1
  have hsound := hspec.2.1
  have hcount := Sorter.order_length_le blocks entry hentry hsucc
  refine ⟨?_, hnodup, ?_, ?_, ?_, ?_, ?_⟩
  · intro id
    exact ⟨hsound id, Sorter.reachable_mem_find_basic_blocks blocks entry id⟩
  · intro p hp
    have hgetDeq : (Sorter.find_basic_blocks blocks entry).getD p 0 =
        (Sorter.find_basic_blocks blocks entry)[p] := by
      rw [List.getD_eq_getElem?_getD, List.getElem?_eq_getElem hp]
      rfl
    rw [hgetDeq, Sorter.renumber_of_mem hentry hsucc hlen (List.getElem_mem hp),
      List.indexOf_getElem hnodup p hp]
  · have hmem := Sorter.entry_mem_find_basic_blocks blocks entry
    rw [Sorter.renumber_of_mem hentry hsucc hlen hmem]
    have hlast := hspec.2.2.2
    rw [List.getLast?_eq_getElem?] at hlast
    have hpos : 0 < (Sorter.find_basic_blocks blocks entry).length := by
      rcases Nat.eq_zero_or_pos (Sorter.find_basic_blocks blocks entry).length
        with h0 | h0
      · rw [List.length_eq_zero.mp h0] at hlast
        simp at hlast
      · exact h0
    have hlt : (Sorter.find_basic_blocks blocks entry).length - 1 <
        (Sorter.find_basic_blocks blocks entry).length := by omega
    rw [List.getElem?_eq_getElem hlt] at hlast
    have heq := Option.some_inj.mp hlast
    have hidx := List.indexOf_getElem hnodup
      ((Sorter.find_basic_blocks blocks entry).length - 1) hlt
    rw [heq] at hidx
    rw [hidx]
    omega
  · intro id hidlt
    constructor
    · intro hmax hreach
      exact Sorter.renumber_ne_max_of_mem hentry hsucc hlen
        (Sorter.reachable_mem_find_basic_blocks blocks entry id hreach) hmax
    · intro hnreach
      exact Sorter.renumber_of_not_mem hidlt (fun hc => hnreach (hsound id hc))
  · rw [Sorter.run, Sorter.patch_references]
    simp
  · intro j hj
    have hlt2 : (Sorter.find_basic_blocks blocks entry).length - 1 - j <
        (Sorter.find_basic_blocks blocks entry).length := by omega
    have hgo : (Sorter.find_basic_blocks blocks entry).getD
        ((Sorter.find_basic_blocks blocks entry).length - 1 - j) 0 =
        (Sorter.find_basic_blocks blocks entry)[(Sorter.find_basic_blocks
          blocks entry).length - 1 - j] := by
      rw [List.getD_eq_getElem?_getD, List.getElem?_eq_getElem hlt2]
      rfl
    have homem : (Sorter.find_basic_blocks blocks entry).getD
        ((Sorter.find_basic_blocks blocks entry).length - 1 - j) 0 ∈
        Sorter.find_basic_blocks blocks entry := by
      rw [hgo]
      exact List.getElem_mem hlt2
    have holt : (Sorter.find_basic_blocks blocks entry).getD
        ((Sorter.find_basic_blocks blocks entry).length - 1 - j) 0 <
        blocks.length :=
      Sorter.reachable_lt hentry hsucc _ (hsound _ homem)
    have h3 : (Sorter.run blocks entry).getD j .default =
        Sorter.replace_ids (Sorter.renumber blocks entry)
          (blocks.getD ((Sorter.find_basic_blocks blocks entry).getD
            ((Sorter.find_basic_blocks blocks entry).length - 1 - j) 0)
            .default) := by
      rw [Sorter.run, Sorter.patch_references,
        Sorter.getD_map_poly _ _ _ _ CFGBasicBlock.default (by simp; omega),
        Sorter.getD_reverse _ _ _ (by simp; omega)]
      simp only [List.length_map]
      rw [Sorter.getD_map_poly _ _ _ _ 0 hlt2]
      rfl
    refine ⟨(Sorter.find_basic_blocks blocks entry).getD
      ((Sorter.find_basic_blocks blocks entry).length - 1 - j) 0,
      homem, ?_, h3, ?_, ?_⟩
    · rw [hgo, Sorter.renumber_of_mem hentry hsucc hlen (List.getElem_mem hlt2),
        List.indexOf_getElem hnodup _ hlt2]
      omega
    · rw [h3, Sorter.replace_ids]
    · rw [h3, Sorter.replace_ids]
      rw [List.filter_map]
      refine congrArg (List.map (Sorter.renumber blocks entry)) ?_
      apply List.filter_congr
      intro p hp
      have hplt : p < blocks.length :=
        hpred _ (Sorter.getD_blocks_mem holt) _ hp
      simp only [Function.comp]
      rw [decide_eq_decide]
      constructor
      · intro hne
        by_contra hnm
        exact hne (by simpa using Sorter.renumber_of_not_mem hplt hnm)
      · intro hm
        simpa using Sorter.renumber_ne_max_of_mem hentry hsucc hlen hm

/-! ### Fallthrough mover (`src/Data Flow/Visitor/src/fallthrough_mover.rs`,
nodes from `src/Data Flow/Graph/src/node/nested.rs`)

The RVSDG is reduced to the node kinds the pass inspects (gamma and
theta in/out nodes, region outputs) plus a generic `Operation` carrying
argument links, standing for every other node whose arguments the
second pass rewrites.  The `HashMap<Link, Link>` is embedded as an
association list with insert-at-front and first-match lookup, which
realises the overwrite semantics of `HashMap::insert`.  `unwrap`s on
malformed graphs (a region id that is not a `RegionOut`, an empty
region list) are modelled by returning the neutral value; every theorem
below constrains the graph so those cases do not arise. -/

structure Link where
  node : Nat
  port : Nat
deriving Repr, DecidableEq

inductive DFNode where
  | RegionIn (input output : Nat)
  | RegionOut (input output : Nat) (results : List Link)
  | GammaIn (output : Nat) (condition : Link) (arguments : List Link)
  | GammaOut (input : Nat) (regions : List Nat)
  | ThetaIn (output : Nat) (arguments : List Link)
  | ThetaOut (input : Nat) (condition : Link) (results : List Link)
  | Operation (arguments : List Link)
deriving Repr, DecidableEq

/-- Source `Node::for_each_mut_argument`, as a pure rewrite: every
argument link of the node is passed through `f` (ids and non-argument
fields are untouched). -/
def rewriteNodeArguments (f : Link → Link) : DFNode → DFNode
  | .RegionIn i o => .RegionIn i o
  | .RegionOut i o results => .RegionOut i o (results.map f)
  | .GammaIn o c args => .GammaIn o (f c) (args.map f)
  | .GammaOut i rs => .GammaOut i rs
  | .ThetaIn o args => .ThetaIn o (args.map f)
  | .ThetaOut i c results => .ThetaOut i (f c) (results.map f)
  | .Operation args => .Operation (args.map f)

namespace Fallthrough

/-- Source `FallthroughMover::get_reference`. -/
def get_reference (m : List (Link × Link)) (l : Link) : Link :=
  ((m.find? (fun e => decide (e.1 = l))).map (fun e => e.2)).getD l

/-- Source `FallthroughMover::find_argument`. -/
def find_argument (m : List (Link × Link)) (result : Link) (input : Nat)
    (arguments : List Link) : Option Link :=
  let r := get_reference m result
  if r.node = input then some (get_reference m (arguments.getD r.port ⟨0, 0⟩))
  else none

def regionArgument (m : List (Link × Link)) (g : List DFNode)
    (arguments : List Link) (port : Nat) (region : Nat) : Option Link :=
  match g.getD region (.Operation []) with
  | .RegionOut input _ results =>
    find_argument m (results.getD port ⟨0, 0⟩) input arguments
  | _ => none

/-- Source `FallthroughMover::find_shared_reference`. -/
def find_shared_reference (m : List (Link × Link)) (g : List DFNode)
    (regions : List Nat) (port : Nat) (arguments : List Link) : Option Link :=
  match regions with
  | [] => none
  | r0 :: rest =>
    match regionArgument m g arguments port r0 with
    | none => none
    | some first =>
      if rest.all (fun r => regionArgument m g arguments port r = some first)
      then some first
      else none

/-- One iteration of `handle_simple_reference`'s loop. -/
def simpleStep (arguments : List Link) (input output : Nat)
    (m : List (Link × Link)) (pr : Nat × Link) : List (Link × Link) :=
  match find_argument m pr.2 input arguments with
  | some argument =>
    if argument = get_reference m (arguments.getD pr.1 ⟨0, 0⟩) then
      (⟨output, pr.1⟩, argument) :: m
    else m
  | none => m

/-- Source `FallthroughMover::handle_simple_reference`. -/
def handle_simple_reference (m : List (Link × Link)) (arguments : List Link)
    (results : List Link) (input output : Nat) : List (Link × Link) :=
  results.enum.foldl (simpleStep arguments input output) m

/-- Source `GammaOut::ports_output`: the result count of the first
region. -/
def ports_output (g : List DFNode) (regions : List Nat) : Nat :=
  match regions with
  | [] => 0
  | r0 :: _ =>
    match g.getD r0 (.Operation []) with
    | .RegionOut _ _ results => results.length
    | _ => 0

/-- One iteration of `handle_gamma`'s port loop. -/
def gammaStep (g : List DFNode) (regions : List Nat) (arguments : List Link)
    (output : Nat) (m : List (Link × Link)) (port : Nat) : List (Link × Link) :=
  match find_shared_reference m g regions port arguments with
  | some argument => (⟨output, port⟩, argument) :: m
  | none => m

/-- Source `FallthroughMover::handle_gamma`. -/
def handle_gamma (m : List (Link × Link)) (g : List DFNode) (input : Nat)
    (regions : List Nat) : List (Link × Link) :=
  match g.getD input (.Operation []) with
  | .GammaIn output _ arguments =>
    (List.range (ports_output g regions)).foldl
      (gammaStep g regions arguments output) m
  | _ => m

/-- Source `FallthroughMover::handle_theta`. -/
def handle_theta (m : List (Link × Link)) (g : List DFNode) (input : Nat)
    (results : List Link) : List (Link × Link) :=
  match g.getD input (.Operation []) with
  | .ThetaIn output arguments =>
    handle_simple_reference m arguments results input output
  | _ => m

/-- One node of `run`'s first pass. -/
def step (g : List DFNode) (m : List (Link × Link)) (node : DFNode) :
    List (Link × Link) :=
  match node with
  | .GammaOut input regions => handle_gamma m g input regions
  | .ThetaOut input _ results => handle_theta m g input results
  | _ => m

/-- The substitution map after the first pass of `run`. -/
def buildMap (g : List DFNode) : List (Link × Link) :=
  g.foldl (step g) []

/-- The map state just before node `k` is processed. -/
def buildMapPrefix (g : List DFNode) (k : Nat) : List (Link × Link) :=
  (g.take k).foldl (step g) []

/-- Source `FallthroughMover::run`: build the map, then rewrite every
argument of every node through a single lookup. -/
def run (g : List DFNode) : List DFNode :=
  g.map (rewriteNodeArguments (get_reference (buildMap g)))

/-- The map state when `handle_gamma` of node `gid` reaches port `p`. -/
def gammaPrefixState (g : List DFNode) (gid output : Nat) (regions : List Nat)
    (arguments : List Link) (p : Nat) : List (Link × Link) :=
  (List.range p).foldl (gammaStep g regions arguments output)
    (buildMapPrefix g gid)

/-- The id every map entry produced while visiting a node points back
at: the partner out-node recorded by its in-node. -/
def partnerOut (g : List DFNode) (j : Nat) : Option Nat :=
  match g.getD j (.Operation []) with
  | .GammaOut input _ =>
    match g.getD input (.Operation []) with
    | .GammaIn o _ _ => some o
    | _ => none
  | .ThetaOut input _ _ =>
    match g.getD input (.Operation []) with
    | .ThetaIn o _ => some o
    | _ => none
  | _ => none

/-- Every in-node names its own out-node as output (true of RVSDGs the
builder produces; keys inserted while visiting node `j` then have node
component `j`). -/
def WellFormedOutputs (g : List DFNode) : Prop :=
  ∀ j < g.length, (partnerOut g j).getD j = j

instance (g : List DFNode) : Decidable (WellFormedOutputs g) := by
  unfold WellFormedOutputs
  infer_instance

theorem get_reference_cons_self (m : List (Link × Link)) (k v : Link) :
    get_reference ((k, v) :: m) k = v := by
  rw [get_reference, List.find?_cons_of_pos _ (by simp)]
  rfl

theorem get_reference_cons_ne (m : List (Link × Link)) (k v key : Link)
    (h : k ≠ key) :
    get_reference ((k, v) :: m) key = get_reference m key := by
  rw [get_reference, List.find?_cons_of_neg _ (by simp [h]), get_reference]

theorem gammaFold_preserve (g : List DFNode) (regions : List Nat)
    (arguments : List Link) (output : Nat) (key : Link) (l : List Nat) :
    ∀ m, (∀ q ∈ l, (⟨output, q⟩ : Link) ≠ key) →
      get_reference (l.foldl (gammaStep g regions arguments output) m) key =
        get_reference m key := by
  induction l with
  | nil =>
    intro m _
    rfl
  | cons q qs ih =>
    intro m hq
    rw [List.foldl_cons, ih _ (fun r hr => hq r (List.mem_cons_of_mem _ hr))]
    cases hfs : find_shared_reference m g regions q arguments with
    | none => simp [gammaStep, hfs]
    | some argument =>
      simp only [gammaStep, hfs]
      exact get_reference_cons_ne _ _ _ _ (hq q (List.mem_cons_self _ _))

theorem simpleFold_preserve (arguments : List Link) (input output : Nat)
    (key : Link) (l : List (Nat × Link)) :
    ∀ m, (∀ pr ∈ l, (⟨output, pr.1⟩ : Link) ≠ key) →
      get_reference (l.foldl (simpleStep arguments input output) m) key =
        get_reference m key := by
  induction l with
  | nil =>
    intro m _
    rfl
  | cons pr prs ih =>
    intro m hq
    rw [List.foldl_cons, ih _ (fun r hr => hq r (List.mem_cons_of_mem _ hr))]
    cases hfa : find_argument m pr.2 input arguments with
    | none => simp [simpleStep, hfa]
    | some argument =>
      simp only [simpleStep, hfa]
      by_cases he : argument = get_reference m (arguments.getD pr.1 ⟨0, 0⟩)
      · rw [if_pos he]
        exact get_reference_cons_ne _ _ _ _ (hq pr (List.mem_cons_self _ _))
      · rw [if_neg he]

theorem handle_gamma_preserve (m : List (Link × Link)) (g : List DFNode)
    (input : Nat) (regions : List Nat) (key : Link)
    (h : ∀ o c args, g.getD input (.Operation []) = .GammaIn o c args →
      o ≠ key.node) :
    get_reference (handle_gamma m g input regions) key = get_reference m key := by
  rw [handle_gamma]
  cases hg : g.getD input (.Operation []) with
  | GammaIn o c args =>
    apply gammaFold_preserve
    intro q _ hc
    exact h o c args hg (congrArg Link.node hc)
  | RegionIn i o => rfl
  | RegionOut i o results => rfl
  | GammaOut i rs => rfl
  | ThetaIn o args => rfl
  | ThetaOut i c results => rfl
  | Operation args => rfl

theorem handle_theta_preserve (m : List (Link × Link)) (g : List DFNode)
    (input : Nat) (results : List Link) (key : Link)
    (h : ∀ o args, g.getD input (.Operation []) = .ThetaIn o args →
      o ≠ key.node) :
    get_reference (handle_theta m g input results) key = get_reference m key := by
  rw [handle_theta]
  cases hg : g.getD input (.Operation []) with
  | ThetaIn o args =>
    apply simpleFold_preserve
    intro pr _ hc
    exact h o args hg (congrArg Link.node hc)
  | RegionIn i o => rfl
  | RegionOut i o results2 => rfl
  | GammaIn o c args => rfl
  | GammaOut i rs => rfl
  | ThetaOut i c results2 => rfl
  | Operation args => rfl

theorem step_preserve (g : List DFNode) (m : List (Link × Link)) (j : Nat)
    (key : Link) (hpo : partnerOut g j ≠ some key.node) :
    get_reference (step g m (g.getD j (.Operation []))) key =
      get_reference m key := by
  cases hn : g.getD j (.Operation []) with
  | GammaOut input regions =>
    rw [show step g m (.GammaOut input regions) =
      handle_gamma m g input regions from rfl]
    apply handle_gamma_preserve
    intro o c args hgi hoeq
    apply hpo
    rw [partnerOut, hn]
    show (match g.getD input (DFNode.Operation []) with
      | DFNode.GammaIn o _ _ => some o
      | _ => none) = some key.node
    rw [hgi]
    show some o = some key.node
    rw [hoeq]
  | ThetaOut input cond results =>
    rw [show step g m (.ThetaOut input cond results) =
      handle_theta m g input results from rfl]
    apply handle_theta_preserve
    intro o args hti hoeq
    apply hpo
    rw [partnerOut, hn]
    show (match g.getD input (DFNode.Operation []) with
      | DFNode.ThetaIn o _ => some o
      | _ => none) = some key.node
    rw [hti]
    show some o = some key.node
    rw [hoeq]
  | RegionIn i o => rfl
  | RegionOut i o results => rfl
  | GammaIn o c args => rfl
  | ThetaIn o args => rfl
  | Operation args => rfl

theorem buildMapPrefix_succ (g : List DFNode) (k : Nat) (hk : k < g.length) :
    buildMapPrefix g (k + 1) =
      step g (buildMapPrefix g k) (g.getD k (.Operation [])) := by
  rw [buildMapPrefix, buildMapPrefix, List.take_succ, List.getElem?_eq_getElem hk,
    List.getD_eq_getElem?_getD, List.getElem?_eq_getElem hk]
  rw [Option.toList_some, Option.getD_some, List.foldl_append, List.foldl_cons,
    List.foldl_nil]

theorem buildMap_eq_prefix_len (g : List DFNode) :
    buildMap g = buildMapPrefix g g.length := by
  rw [buildMap, buildMapPrefix, List.take_length]

theorem lookup_stable (g : List DFNode) (key : Link) :
    ∀ n t, g.length ≤ t + n →
      (∀ j, t ≤ j → j < g.length → partnerOut g j ≠ some key.node) →
      get_reference (buildMap g) key = get_reference (buildMapPrefix g t) key := by
  intro n
  induction n with
  | zero =>
    intro t ht _
    rw [buildMap_eq_prefix_len, buildMapPrefix, buildMapPrefix, List.take_length,
      List.take_of_length_le (by omega)]
  | succ n ih =>
    intro t ht hp
    by_cases hlt : t < g.length
    · rw [ih (t + 1) (by omega) (fun j hj1 hj2 => hp j (by omega) hj2),
        buildMapPrefix_succ g t hlt,
        step_preserve g _ t key (hp t le_rfl hlt)]
    · rw [buildMap_eq_prefix_len, buildMapPrefix, buildMapPrefix, List.take_length,
        List.take_of_length_le (by omega)]

theorem gamma_entry_lookup (g : List DFNode) (gid input output : Nat)
    (regions : List Nat) (cond : Link) (arguments : List Link) (p : Nat)
    (a : Link) (hgid : gid < g.length)
    (hgo : g.getD gid (.Operation []) = .GammaOut input regions)
    (hgi : g.getD input (.Operation []) = .GammaIn output cond arguments)
    (hp : p < ports_output g regions)
    (hshared : find_shared_reference
      (gammaPrefixState g gid output regions arguments p) g regions p arguments
      = some a) :
    get_reference (buildMapPrefix g (gid + 1)) ⟨output, p⟩ = a := by
  rw [buildMapPrefix_succ g gid hgid, hgo]
  rw [show step g (buildMapPrefix g gid) (.GammaOut input regions) =
    handle_gamma (buildMapPrefix g gid) g input regions from rfl]
  have hred : handle_gamma (buildMapPrefix g gid) g input regions =
      (List.range (ports_output g regions)).foldl
        (gammaStep g regions arguments output) (buildMapPrefix g gid) := by
    rw [handle_gamma, hgi]
  rw [hred]
  have h1 := List.range'_append 0 p (ports_output g regions - p) 1
  rw [Nat.zero_add, Nat.one_mul] at h1
  have hsplit : List.range (ports_output g regions) =
      List.range p ++ (p :: List.range' (p + 1)
        (ports_output g regions - p - 1)) := by
    calc List.range (ports_output g regions)
        = List.range' 0 (ports_output g regions) := List.range_eq_range' _
      _ = List.range' 0 ((ports_output g regions - p) + p) := by
          rw [show (ports_output g regions - p) + p = ports_output g regions
            from by omega]
      _ = List.range' 0 p ++ List.range' p (ports_output g regions - p) :=
          h1.symm
      _ = List.range p ++ List.range' p (ports_output g regions - p) := by
          rw [← List.range_eq_range']
      _ = List.range p ++ (p :: List.range' (p + 1)
            (ports_output g regions - p - 1)) := by
          rw [show ports_output g regions - p =
            (ports_output g regions - p - 1) + 1 from by omega, List.range'_succ,
            Nat.add_sub_cancel]
  rw [hsplit, List.foldl_append, List.foldl_cons]
  rw [show (List.range p).foldl (gammaStep g regions arguments output)
    (buildMapPrefix g gid) = gammaPrefixState g gid output regions arguments p
    from rfl]
  rw [show gammaStep g regions arguments output
      (gammaPrefixState g gid output regions arguments p) p =
    (⟨output, p⟩, a) :: gammaPrefixState g gid output regions arguments p from by
      rw [gammaStep, hshared]]
  rw [gammaFold_preserve g regions arguments output _ _ _ ?hq]
  · exact get_reference_cons_self _ _ _
  case hq =>
    intro q hq hc
    have hqp : q = p := congrArg Link.port hc
    obtain ⟨i, _, hqe⟩ := List.mem_range'.mp hq
    omega

end Fallthrough

/-- Two chained gammas: gamma 3 falls through to the source value
`(0, 0)`; gamma 6's argument is gamma 3's output, and its single
region returns that argument unchanged.  Node 7 consumes gamma 6's
output. -/
def fmExampleGraph : List DFNode :=
  [.Operation [],
   .GammaIn 3 ⟨0, 0⟩ [⟨0, 0⟩],
   .RegionOut 1 3 [⟨1, 0⟩],
   .GammaOut 1 [2],
   .GammaIn 6 ⟨0, 0⟩ [⟨3, 0⟩],
   .RegionOut 4 6 [⟨4, 0⟩],
   .GammaOut 4 [5],
   .Operation [⟨6, 0⟩]]

/-- C3-style counterexample for C5: gamma 6's only region returns its
argument port 0 unchanged (`results = [(4, 0)]`, the gamma-input
argument), so the claim says node 7's reference to `(6, 0)` becomes the
gamma-input argument link `(3, 0)`.  It becomes `(0, 0)` instead — the
build-time resolution of that argument through the substitution already
recorded for gamma 3. -/
theorem fallthrough_counterexample :
    fmExampleGraph.getD 6 (.Operation []) = DFNode.GammaOut 4 [5] ∧
      fmExampleGraph.getD 4 (.Operation []) = DFNode.GammaIn 6 ⟨0, 0⟩ [⟨3, 0⟩] ∧
      fmExampleGraph.getD 5 (.Operation []) = DFNode.RegionOut 4 6 [⟨4, 0⟩] ∧
      fmExampleGraph.getD 7 (.Operation []) = DFNode.Operation [⟨6, 0⟩] ∧
      (Fallthrough.run fmExampleGraph).getD 7 (.Operation []) =
        DFNode.Operation [⟨0, 0⟩] ∧
      (Fallthrough.run fmExampleGraph).getD 7 (.Operation []) ≠
        DFNode.Operation [⟨3, 0⟩] := by
  decide

/-- C5 (corrected): when `handle_gamma` reaches port `p` of a gamma
whose regions all return — after resolving through the substitutions
recorded so far — the same argument, the map records the *resolved*
link `a` for the gamma's output port, and the second pass rewrites
every argument of every node through one lookup in the completed map;
so references to the gamma's output end at `a`, which is the literal
gamma-input argument link only when no earlier fallthrough applies to
that argument.  Well-formedness (each in-node naming its own out-node)
keeps later nodes from overwriting the entry. -/
theorem fallthrough_amended (g : List DFNode) (gid input output : Nat)
    (regions : List Nat) (cond : Link) (arguments : List Link) (p : Nat)
    (a : Link)
    (hgid : gid < g.length)
    (hwf : Fallthrough.WellFormedOutputs g)
    (hgo : g.getD gid (.Operation []) = .GammaOut input regions)
    (hgi : g.getD input (.Operation []) = .GammaIn output cond arguments)
    (hout : output = gid)
    (hp : p < Fallthrough.ports_output g regions)
    (hshared : Fallthrough.find_shared_reference
      (Fallthrough.gammaPrefixState g gid output regions arguments p)
      g regions p arguments = some a) :
    Fallthrough.get_reference (Fallthrough.buildMap g) ⟨output, p⟩ = a ∧
      ∀ i, i < g.length →
        (Fallthrough.run g).getD i (.Operation []) =
          rewriteNodeArguments
            (Fallthrough.get_reference (Fallthrough.buildMap g))
            (g.getD i (.Operation [])) := by
  constructor
  · have h1 := Fallthrough.gamma_entry_lookup g gid input output regions cond
      arguments p a hgid hgo hgi hp hshared
    have h2 := Fallthrough.lookup_stable g ⟨output, p⟩ (g.length - (gid + 1))
      (gid + 1) (by omega) ?_
    · rw [h2]
      exact h1
    · intro j hj1 hj2 hc
      have hw := hwf j hj2
      rw [hc, Option.getD_some] at hw
      have hoj : output = j := hw
      omega
  · intro i hi
    rw [Fallthrough.run, Sorter.getD_map_poly _ _ _ _ (.Operation []) hi]

/-- The corrected fallthrough behaviour instantiated on the two-gamma
example: the recorded link for gamma 6's port 0 is the resolved source
`(0, 0)`. -/
theorem fallthrough_amended_witness :
    Fallthrough.get_reference (Fallthrough.buildMap fmExampleGraph)
        ⟨6, 0⟩ = ⟨0, 0⟩ ∧
      ∀ i, i < fmExampleGraph.length →
        (Fallthrough.run fmExampleGraph).getD i (.Operation []) =
          rewriteNodeArguments
            (Fallthrough.get_reference (Fallthrough.buildMap fmExampleGraph))
            (fmExampleGraph.getD i (.Operation [])) :=
  fallthrough_amended fmExampleGraph 6 4 6 [5] ⟨0, 0⟩ [⟨3, 0⟩] 0 ⟨0, 0⟩
    (by decide) (by decide) (by decide) (by decide) (by decide) (by decide)
    (by decide)

/-- The corrected sorter claim instantiated on the four-block example
graph with entry 0 (all four blocks reachable). -/
theorem sorter_reverse_postorder_witness :
    Sorter.SpecSorted latchExampleGraph.basic_blocks 0 :=
  sorter_reverse_postorder latchExampleGraph.basic_blocks 0 (by decide)
    (by decide) (by decide) (by decide)

/-- The corrected latch behaviour, instantiated on the four-block
example graph (where no block passes the extended reuse test, so the
new-latch structure is built). -/
theorem single_latch_amended_witness :
    (∀ x, Single.latchCondition latchExampleGraph [1, 2] 1 3 x →
        Single.run latchExampleGraph [1, 2] = ((1, x), latchExampleGraph)) ∧
      ((∀ x, ¬ Single.latchCondition latchExampleGraph [1, 2] 1 3 x) →
        Single.SpecNewLatchStructure latchExampleGraph [1, 2] 1 3
          (Single.run latchExampleGraph [1, 2])) :=
  single_latch_amended latchExampleGraph [1, 2] 1 3 (by decide) (by decide)
    (by decide) (by decide) (by decide) (by decide)

/-- The reported-component shape instantiated on the four-block example
graph (entry 0, exit 3): the single reported component is `[2, 1]`, a
two-vertex set. -/
theorem scc_reported_components_witness :
    2 ≤ ([2, 1] : List Nat).length ∨
      ∃ v, ([2, 1] : List Nat) = [v] ∧ v ∈ latchExampleGraph.predecessors v :=
  scc_reported_components latchExampleGraph 50 0 3 [2, 1] (by decide)

/-! ### Dead port eliminator (`src/Data Flow/Visitor/src/dead_port_eliminator.rs`)

The same reduced node universe `DFNode` is used (the lambda in/out
kinds, which the eliminator treats through `add_all_links`, are not in
the universe, so that helper is not needed).  The `Set` keyed by
`Link::into_usize` is embedded as a list of the encoded naturals with
the source's exact byte-interleaving encoding.  Panics (`unwrap` on a
malformed gamma, out-of-range indexing into a results or arguments
vector, a node id outside the graph, a port count above `u16::MAX`) are
modelled as `none`, and the fuelled mark loop also returns `none` when
fuel runs out with a non-empty stack, so `run` returns `some` exactly
on the panic-free executions it fully traces. -/

namespace DeadPort

/-- Source `Link::into_usize`: the little-endian byte interleaving
`[id0, id1, port0, id2, port1, id3, 0, 0]`. -/
def into_usize (l : Link) : Nat :=
  l.node % 256 + l.node / 256 % 256 * 256 + l.port % 256 * 65536 +
    l.node / 65536 % 256 * 16777216 + l.port / 256 % 256 * 4294967296 +
      l.node / 16777216 % 256 * 1099511627776

/-- Source `DeadPortEliminator::add_predecessor`: insert into the seen
set; push on the stack only when the link was not seen before.  State
is `(seen, stack)` with the stack head as its top. -/
def add_predecessor (s : List Nat × List Link) (l : Link) :
    List Nat × List Link :=
  if into_usize l ∈ s.1 then s else (into_usize l :: s.1, l :: s.2)

/-- The region loop of source `DeadPortEliminator::mark_gamma_in`: each
region id must be a `RegionOut` (else `as_region_out().unwrap()`
panics), and `Link(input, port)` is added for its `RegionIn` id. -/
def markGammaRegions (g : List DFNode) (port : Nat)
    (s : List Nat × List Link) : List Nat → Option (List Nat × List Link)
  | [] => some s
  | region :: rest =>
    match g.getD region (.Operation []) with
    | .RegionOut input _ _ =>
      markGammaRegions g port (add_predecessor s ⟨input, port⟩) rest
    | _ => none

/-- One dispatch of the `while let` loop in source
`DeadPortEliminator::mark`: the popped link `(id, port)` is handled by
the `mark_*` method of the node at `id`.  `none` models a panic (id out
of range, indexing past a results or arguments vector, or a gamma
whose partner id is not the expected node kind). -/
def markNode (g : List DFNode) (s : List Nat × List Link) (id port : Nat) :
    Option (List Nat × List Link) :=
  if id < g.length then
    match g.getD id (.Operation []) with
    | .RegionIn input _ => some (add_predecessor s ⟨input, port⟩)
    | .RegionOut _ _ results =>
      match results[port]? with
      | some l => some (add_predecessor s l)
      | none => none
    | .GammaIn output _ arguments =>
      (match g.getD output (.Operation []) with
       | .GammaOut _ regions =>
         match markGammaRegions g port s regions with
         | some s2 =>
           (match arguments[port]? with
            | some a => some (add_predecessor s2 a)
            | none => none)
         | none => none
       | _ => none)
    | .GammaOut input regions =>
      (match g.getD input (.Operation []) with
       | .GammaIn _ condition _ =>
         some (regions.foldl
           (fun s2 region => add_predecessor s2 ⟨region, port⟩)
           (add_predecessor s condition))
       | _ => none)
    | .ThetaIn output arguments =>
      (match arguments[port]? with
       | some a => some (add_predecessor (add_predecessor s ⟨output, port⟩) a)
       | none => none)
    | .ThetaOut input condition results =>
      (match results[port]? with
       | some r =>
         some (add_predecessor
           (add_predecessor (add_predecessor s ⟨input, port⟩) r) condition)
       | none => none)
    | .Operation arguments => some (arguments.foldl add_predecessor s)
  else none

/-- The `while let` loop of source `DeadPortEliminator::mark`, fuelled:
`some seen` when the stack empties, `none` on a panic or when fuel runs
out first. -/
def markLoop (g : List DFNode) : Nat → List Nat → List Link →
    Option (List Nat)
  | _, seen, [] => some seen
  | 0, _, _ :: _ => none
  | fuel + 1, seen, l :: stack =>
    match markNode g (seen, stack) l.node l.port with
    | some s2 => markLoop g fuel s2.1 s2.2
    | none => none

/-- Source `DeadPortEliminator::mark`: clear the seen set, seed it with
the result link, and run the loop. -/
def mark (g : List DFNode) (fuel : Nat) (result : Link) :
    Option (List Nat) :=
  let s := add_predecessor (([] : List Nat), ([] : List Link)) result
  markLoop g fuel s.1 s.2

/-- Source `Node::ports_output` with the panic cases split out:
`none` models a panic inside it (a `RegionIn` whose `input` is not a
`GammaIn`, a `GammaOut` with no regions or whose first region is not a
`RegionOut`), `some none` is the source's `None` (the node has no
output-port count), `some (some n)` its `Some(n)`. -/
def ports_output2 (g : List DFNode) (id : Nat) : Option (Option Nat) :=
  match g.getD id (.Operation []) with
  | .RegionIn input _ =>
    (match g.getD input (.Operation []) with
     | .GammaIn _ _ arguments => some (some arguments.length)
     | _ => none)
  | .GammaOut _ regions =>
    (match regions with
     | [] => none
     | r0 :: _ =>
       match g.getD r0 (.Operation []) with
       | .RegionOut _ _ results => some (some results.length)
       | _ => none)
  | .ThetaIn _ arguments => some (some arguments.length)
  | .ThetaOut _ _ results => some (some results.length)
  | _ => some none

/-- The compaction loop of source `DeadPortEliminator::sweep_outputs`:
walk ports `0..n`; each live port is paired with the next free
position, and a map entry is inserted when the two differ.  The
accumulator is `(next position, map)`; insertion prepends, as in the
`HashMap` model. -/
def sweep_outputs_fold (seen : List Nat) (id n : Nat)
    (m : List (Link × Link)) : List (Link × Link) :=
  ((List.range n).foldl
    (fun acc port =>
      if into_usize ⟨id, port⟩ ∈ seen then
        (acc.1 + 1,
         if port = acc.1 then acc.2
         else (⟨⟨id, port⟩, ⟨id, acc.1⟩⟩ :: acc.2))
      else acc)
    (0, m)).2

/-- The stateful `retain` of source `DeadPortEliminator::sweep_inputs`:
the element at position `i` is kept iff `Link(id, i)` is live. -/
def retainPorts (seen : List Nat) (id : Nat) : Nat → List Link → List Link
  | _, [] => []
  | i, x :: xs =>
    if into_usize ⟨id, i⟩ ∈ seen then x :: retainPorts seen id (i + 1) xs
    else retainPorts seen id (i + 1) xs

/-- Source `DeadPortEliminator::sweep_inputs` on one node: the
`as_mut_ports` kinds of the universe (`RegionOut.results`,
`GammaIn.arguments`, `ThetaIn.arguments`, `ThetaOut.results`) have
their ports vector retained positionally; a vector longer than
`u16::MAX` would exhaust the `0..u16::MAX` link iterator and panic
(`none`).  Other kinds are untouched. -/
def sweep_node (seen : List Nat) (id : Nat) : DFNode → Option DFNode
  | .RegionOut i o results =>
    if results.length ≤ 65535 then
      some (.RegionOut i o (retainPorts seen id 0 results))
    else none
  | .GammaIn o c args =>
    if args.length ≤ 65535 then
      some (.GammaIn o c (retainPorts seen id 0 args))
    else none
  | .ThetaIn o args =>
    if args.length ≤ 65535 then
      some (.ThetaIn o (retainPorts seen id 0 args))
    else none
  | .ThetaOut i c results =>
    if results.length ≤ 65535 then
      some (.ThetaOut i c (retainPorts seen id 0 results))
    else none
  | n => some n

/-- One iteration of the id loop of source
`DeadPortEliminator::sweep`: `sweep_outputs` (reading the port count
from the current, already partially shrunk graph) then `sweep_inputs`.
State is `(map, graph)`; the count must fit `u16` or
`u16::try_from(ports).unwrap()` panics. -/
def sweepStep (seen : List Nat) (st : List (Link × Link) × List DFNode)
    (id : Nat) : Option (List (Link × Link) × List DFNode) :=
  match ports_output2 st.2 id with
  | none => none
  | some none =>
    (match sweep_node seen id (st.2.getD id (.Operation [])) with
     | none => none
     | some nd => some (st.1, st.2.set id nd))
  | some (some n) =>
    if n ≤ 65535 then
      match sweep_node seen id (st.2.getD id (.Operation [])) with
      | none => none
      | some nd => some (sweep_outputs_fold seen id n st.1, st.2.set id nd)
    else none

/-- Source `DeadPortEliminator::sweep`: clear the map, process ids in
descending order, then rewrite every argument of every node through a
single map lookup (`get_reference` is that lookup-with-default). -/
def sweep (g : List DFNode) (seen : List Nat) : Option (List DFNode) :=
  match (List.range g.length).reverse.foldl
      (fun acc id => acc.bind (fun st => sweepStep seen st id))
      (some (([] : List (Link × Link)), g)) with
  | none => none
  | some (m, g2) =>
    some (g2.map (rewriteNodeArguments (Fallthrough.get_reference m)))

/-- Source `DeadPortEliminator::run`: mark, then sweep. -/
def run (g : List DFNode) (fuel : Nat) (result : Link) :
    Option (List DFNode) :=
  (mark g fuel result).bind (fun seen => sweep g seen)

/-- All output ports `0..n` of node `id` are in the seen set. -/
def portsLive (seen : List Nat) (id n : Nat) : Prop :=
  ∀ p < n, into_usize ⟨id, p⟩ ∈ seen

instance (seen : List Nat) (id n : Nat) : Decidable (portsLive seen id n) := by
  unfold portsLive; infer_instance

/-- Liveness of a node's counted output ports, phrased on the
`ports_output2` result: a panic (`none`) is excluded, a count demands
every counted port live and the count within `u16`. -/
def outputsLive (seen : List Nat) (id : Nat) : Option (Option Nat) → Prop
  | none => False
  | some none => True
  | some (some n) => n ≤ 65535 ∧ portsLive seen id n

instance (seen : List Nat) (id : Nat) :
    ∀ o, Decidable (outputsLive seen id o)
  | none => isFalse (fun h => h)
  | some none => isTrue trivial
  | some (some _) => inferInstanceAs (Decidable (_ ∧ _))

/-- Liveness of every slot of a node's `as_mut_ports` vector. -/
def nodePortsLive (seen : List Nat) (id : Nat) : DFNode → Prop
  | .RegionOut _ _ results =>
    results.length ≤ 65535 ∧ portsLive seen id results.length
  | .GammaIn _ _ args => args.length ≤ 65535 ∧ portsLive seen id args.length
  | .ThetaIn _ args => args.length ≤ 65535 ∧ portsLive seen id args.length
  | .ThetaOut _ _ results =>
    results.length ≤ 65535 ∧ portsLive seen id results.length
  | _ => True

instance (seen : List Nat) (id : Nat) :
    ∀ nd, Decidable (nodePortsLive seen id nd)
  | .RegionIn _ _ => isTrue trivial
  | .RegionOut _ _ _ => inferInstanceAs (Decidable (_ ∧ _))
  | .GammaIn _ _ _ => inferInstanceAs (Decidable (_ ∧ _))
  | .GammaOut _ _ => isTrue trivial
  | .ThetaIn _ _ => inferInstanceAs (Decidable (_ ∧ _))
  | .ThetaOut _ _ _ => inferInstanceAs (Decidable (_ ∧ _))
  | .Operation _ => isTrue trivial

/-- Every port of every node is live: no output port is dropped by the
compaction and no slot is dropped by the retain, and no `ports_output`
panic can occur. -/
def AllPortsLive (g : List DFNode) (seen : List Nat) : Prop :=
  ∀ id < g.length,
    outputsLive seen id (ports_output2 g id) ∧
      nodePortsLive seen id (g.getD id (.Operation []))

instance (g : List DFNode) (seen : List Nat) :
    Decidable (AllPortsLive g seen) := by
  unfold AllPortsLive; exact Nat.decidableBallLT _ _

theorem retainPorts_live (seen : List Nat) (id : Nat) :
    ∀ (l : List Link) (k : Nat),
      (∀ i < l.length, into_usize ⟨id, k + i⟩ ∈ seen) →
      retainPorts seen id k l = l := by
  intro l
  induction l with
  | nil => intro k _; rfl
  | cons x xs ih =>
    intro k h
    rw [retainPorts, if_pos (by simpa using h 0 (by simp))]
    refine congrArg (x :: ·) (ih (k + 1) ?_)
    intro i hi
    have := h (i + 1) (by simpa using hi)
    rwa [show k + (i + 1) = k + 1 + i by omega] at this

theorem sweep_node_live (seen : List Nat) (id : Nat) (nd : DFNode)
    (h : nodePortsLive seen id nd) : sweep_node seen id nd = some nd := by
  cases nd with
  | RegionOut i o results =>
    obtain ⟨h1, h2⟩ := h
    rw [sweep_node, if_pos h1,
      retainPorts_live seen id results 0 (fun i hi => by simpa using h2 i hi)]
  | GammaIn o c args =>
    obtain ⟨h1, h2⟩ := h
    rw [sweep_node, if_pos h1,
      retainPorts_live seen id args 0 (fun i hi => by simpa using h2 i hi)]
  | ThetaIn o args =>
    obtain ⟨h1, h2⟩ := h
    rw [sweep_node, if_pos h1,
      retainPorts_live seen id args 0 (fun i hi => by simpa using h2 i hi)]
  | ThetaOut i c results =>
    obtain ⟨h1, h2⟩ := h
    rw [sweep_node, if_pos h1,
      retainPorts_live seen id results 0 (fun i hi => by simpa using h2 i hi)]
  | RegionIn i o => rfl
  | GammaOut i rs => rfl
  | Operation args => rfl

theorem sweep_outputs_fold_live (seen : List Nat) (id : Nat) :
    ∀ (n : Nat), portsLive seen id n → ∀ (m : List (Link × Link)),
      (List.range n).foldl
        (fun acc port =>
          if into_usize ⟨id, port⟩ ∈ seen then
            (acc.1 + 1,
             if port = acc.1 then acc.2
             else ((⟨⟨id, port⟩, ⟨id, acc.1⟩⟩ : Link × Link) :: acc.2))
          else acc)
        (0, m) = (n, m) := by
  intro n
  induction n with
  | zero => intro _ m; rfl
  | succ n ih =>
    intro h m
    rw [List.range_succ, List.foldl_append,
      ih (fun p hp => h p (Nat.lt_succ_of_lt hp)) m]
    simp only [List.foldl_cons, List.foldl_nil,
      if_pos (h n (Nat.lt_succ_self n))]
    simp

theorem sweep_outputs_fold_live2 (seen : List Nat) (id n : Nat)
    (h : portsLive seen id n) (m : List (Link × Link)) :
    sweep_outputs_fold seen id n m = m := by
  rw [sweep_outputs_fold, sweep_outputs_fold_live seen id n h m]

theorem set_getD_self {α : Type} (l : List α) :
    ∀ (i : Nat) (d : α), i < l.length → l.set i (l.getD i d) = l := by
  induction l with
  | nil => intro i d h; simp at h
  | cons x xs ih =>
    intro i d h
    cases i with
    | zero => rfl
    | succ i =>
      simp only [List.set, List.getD_cons_succ]
      exact congrArg (x :: ·) (ih i d (by simpa using h))

theorem sweepStep_live {g : List DFNode} {seen : List Nat}
    (hlive : AllPortsLive g seen) {id : Nat} (hid : id < g.length) :
    sweepStep seen (([] : List (Link × Link)), g) id =
      some (([] : List (Link × Link)), g) := by
  obtain ⟨hA, hB⟩ := hlive id hid
  rw [sweepStep]
  cases hpo : ports_output2 g id with
  | none => rw [hpo] at hA; exact absurd hA (fun h => h)
  | some o =>
    cases o with
    | none =>
      show (match sweep_node seen id (g.getD id (.Operation [])) with
        | none => none
        | some nd => some (([] : List (Link × Link)), g.set id nd)) =
          some (([] : List (Link × Link)), g)
      rw [sweep_node_live seen id _ hB]
      show some (([] : List (Link × Link)),
        g.set id (g.getD id (.Operation []))) = _
      rw [set_getD_self g id _ hid]
    | some n =>
      rw [hpo] at hA
      obtain ⟨h1, h2⟩ := hA
      show (if n ≤ 65535 then
          match sweep_node seen id (g.getD id (.Operation [])) with
          | none => none
          | some nd =>
            some (sweep_outputs_fold seen id n [], g.set id nd)
        else none) = some (([] : List (Link × Link)), g)
      rw [if_pos h1, sweep_node_live seen id _ hB]
      show some (sweep_outputs_fold seen id n [],
        g.set id (g.getD id (.Operation []))) = _
      rw [sweep_outputs_fold_live2 seen id n h2, set_getD_self g id _ hid]

theorem sweepFold_live {g : List DFNode} {seen : List Nat}
    (hlive : AllPortsLive g seen) :
    ∀ ids : List Nat, (∀ id ∈ ids, id < g.length) →
      ids.foldl (fun acc id => acc.bind (fun st => sweepStep seen st id))
        (some (([] : List (Link × Link)), g)) =
      some (([] : List (Link × Link)), g) := by
  intro ids
  induction ids with
  | nil => intro _; rfl
  | cons id rest ih =>
    intro h
    rw [List.foldl_cons, Option.some_bind,
      sweepStep_live hlive (h id (by simp))]
    exact ih (fun j hj => h j (by simp [hj]))

theorem rewriteNodeArguments_id (nd : DFNode) :
    rewriteNodeArguments (fun l => l) nd = nd := by
  cases nd <;> simp [rewriteNodeArguments]

theorem sweep_live {g : List DFNode} {seen : List Nat}
    (hlive : AllPortsLive g seen) : sweep g seen = some g := by
  rw [sweep, sweepFold_live hlive _
    (fun id hid => by
      rw [List.mem_reverse, List.mem_range] at hid; exact hid)]
  have h1 : Fallthrough.get_reference
      ([] : List (Link × Link)) = fun l => l := funext (fun l => rfl)
  show some (g.map (rewriteNodeArguments
    (Fallthrough.get_reference ([] : List (Link × Link))))) = some g
  rw [h1, funext rewriteNodeArguments_id]
  simp

end DeadPort

/-- A four-node theta graph with no dead ports: the theta result feeds
the final operation, and the theta argument recycles through the loop,
so every port of every ports-carrying node is marked live. -/
def dpLiveExampleGraph : List DFNode :=
  [.Operation [],
   .ThetaIn 2 [⟨0, 0⟩],
   .ThetaOut 1 ⟨1, 0⟩ [⟨1, 0⟩],
   .Operation [⟨2, 0⟩]]

/-- A gamma whose `GammaOut` (id 4) precedes its `RegionOut` (id 5):
argument/result port 0 of the gamma is dead, ports 1 and 2 are live,
and node 6 consumes the gamma outputs 1 and 2. -/
def dpDeadExampleGraph : List DFNode :=
  [.Operation [],
   .Operation [],
   .GammaIn 4 ⟨0, 0⟩ [⟨0, 0⟩, ⟨1, 0⟩, ⟨1, 0⟩],
   .RegionIn 2 5,
   .GammaOut 2 [5],
   .RegionOut 3 4 [⟨3, 0⟩, ⟨3, 1⟩, ⟨3, 2⟩],
   .Operation [⟨4, 1⟩, ⟨4, 2⟩]]

/-- The graph produced by one run of the eliminator on
`dpDeadExampleGraph`: the region results and gamma arguments lose their
dead slot 0 and are renumbered, but because the sweep visits ids in
descending order it reads the gamma's output-port count from the
already shrunk region results, so only output port 1 is remapped and
node 6's reference to output port 2 is left dangling. -/
def dpDeadExampleGraph2 : List DFNode :=
  [.Operation [],
   .Operation [],
   .GammaIn 4 ⟨0, 0⟩ [⟨1, 0⟩, ⟨1, 0⟩],
   .RegionIn 2 5,
   .GammaOut 2 [5],
   .RegionOut 3 4 [⟨3, 0⟩, ⟨3, 1⟩],
   .Operation [⟨4, 0⟩, ⟨4, 2⟩]]

/-- C2 counterexample: the eliminator is not idempotent on every graph.
On `dpDeadExampleGraph` (a gamma whose region carries a higher id than
its `GammaOut`, with one dead gamma port) the first run completes
without hitting any panic and yields `dpDeadExampleGraph2`, a changed
graph with a dangling reference to gamma output port 2; the second run
can never produce a graph — its mark phase indexes the shrunk
`RegionOut.results` out of bounds (a panic in the source), so `run`
yields `none` for every fuel. -/
theorem deadport_counterexample :
    DeadPort.run dpDeadExampleGraph 20 ⟨6, 0⟩ = some dpDeadExampleGraph2 ∧
      dpDeadExampleGraph2 ≠ dpDeadExampleGraph ∧
      ∀ fuel, DeadPort.run dpDeadExampleGraph2 fuel ⟨6, 0⟩ = none := by
  refine ⟨by decide, by decide, ?_⟩
  intro fuel
  match fuel with
  | 0 => rfl
  | 1 => rfl
  | 2 => rfl
  | n + 3 => rfl

/-- C2 (corrected): when the mark phase completes and leaves every
port of every node live — no output port missing from the seen set, no
`as_mut_ports` slot dead — the sweep inserts nothing into the map and
removes nothing, so one run returns the graph unchanged and running
the eliminator twice equals running it once.  (The unrestricted claim
is false: see the counterexample, where descending-order sweeping reads
a gamma's port count from its already shrunk region.) -/
theorem deadport_idempotent_amended (g : List DFNode) (result : Link)
    (fuel : Nat) (seen : List Nat)
    (hmark : DeadPort.mark g fuel result = some seen)
    (hlive : DeadPort.AllPortsLive g seen) :
    DeadPort.run g fuel result = some g ∧
      (DeadPort.run g fuel result).bind
        (fun g2 => DeadPort.run g2 fuel result) =
        DeadPort.run g fuel result := by
  have h1 : DeadPort.run g fuel result = some g := by
    rw [DeadPort.run, hmark, Option.some_bind, DeadPort.sweep_live hlive]
  refine ⟨h1, ?_⟩
  rw [h1, Option.some_bind, h1]

/-- The corrected dead-port behaviour instantiated on the live theta
example: the eliminator returns the graph unchanged, and a second run
agrees with the first. -/
theorem deadport_idempotent_amended_witness :
    DeadPort.run dpLiveExampleGraph 10 ⟨3, 0⟩ = some dpLiveExampleGraph ∧
      (DeadPort.run dpLiveExampleGraph 10 ⟨3, 0⟩).bind
        (fun g2 => DeadPort.run g2 10 ⟨3, 0⟩) =
        DeadPort.run dpLiveExampleGraph 10 ⟨3, 0⟩ :=
  deadport_idempotent_amended dpLiveExampleGraph ⟨3, 0⟩ 10 [0, 1, 2, 3]
    (by decide) (by decide)

end Spider
